import Mathlib

/-!
# Verification of the parallel k-d tree core (`vtkPKdTree.cxx`)

A shallow embedding of the array-manipulating core of the parallel k-d
tree builder, seen through its global-array semantics: the distributed
point array is modelled as one `Array Pt` indexed by global point index,
`ExchangeLocalVals` / `ExchangeVals` as a swap of two triples, and the
per-process loops by their equivalent global loops.  Machine `int`
indices are modelled by `Nat` (all indices handled by the partition and
selection routines are non-negative; the few places where a C `int`
expression may transiently be `-1` are noted at the definition).
`float` coordinates are modelled by `Int`: the routines only compare
coordinates (no coordinate arithmetic occurs in the partition/selection
path), so any linearly ordered type with decidable comparisons is
faithful.  Loops are written as structurally recursive functions; where
a loop's measure is not a plain parameter the function takes an explicit
`fuel` argument, and the lemmas about it are stated for any sufficiently
large fuel (the value the wrapper passes is proved sufficient).
-/

set_option maxHeartbeats 1600000

namespace PKd

/-- A 3-D point: the element type of the point buffer (`CurrentPtArray`
holds one float triple per point; exchanges always move whole triples). -/
structure Pt where
  x : Int
  y : Int
  z : Int
deriving DecidableEq, Repr

/-- Coordinate of a point along dimension `d` (0 = X, 1 = Y, 2 = Z). -/
def pc (p : Pt) (d : Nat) : Int :=
  if d = 0 then p.x else if d = 1 then p.y else p.z

/-- Read of the global array at global index `g` (`GetLocalVal`, global
view; out-of-range reads, which the C code never performs on the paths
modelled here, return a dummy point). -/
def get (A : Array Pt) (g : Nat) : Pt := A.getD g ⟨0, 0, 0⟩

/-- Coordinate at global index `g` along dimension `d`. -/
def val (A : Array Pt) (d : Nat) (g : Nat) : Int := pc (get A g) d

/-- `ExchangeLocalVals` / `ExchangeVals`: swap the triples at two global
indices (identity when out of bounds; the modelled code never passes an
out-of-bounds index). -/
def swp (A : Array Pt) (i j : Nat) : Array Pt :=
  if h : i < A.size ∧ j < A.size then A.swap ⟨i, h.1⟩ ⟨j, h.2⟩ else A

/-- The list of `n` consecutive elements of the global array starting
at global index `a`. -/
def subLen (A : Array Pt) (a n : Nat) : List Pt :=
  (List.range n).map fun i => get A (a + i)

/-- The sub-list of the global array on the index interval `[L, R]`. -/
def sub (A : Array Pt) (L R : Nat) : List Pt := subLen A L (R + 1 - L)

/-- The two arrays agree in size and at every index outside `[L, R]`. -/
def SameOutside (L R : Nat) (A B : Array Pt) : Prop :=
  A.size = B.size ∧ ∀ g, g < L ∨ R < g → get A g = get B g

/-- `B` is a rearrangement of `A` inside `[L, R]` only: the elements of
the subarray `[L, R]` are permuted and everything else is untouched. -/
def permWithin (L R : Nat) (A B : Array Pt) : Prop :=
  SameOutside L R A B ∧ (sub A L R).Perm (sub B L R)

/-! ## `PartitionAboutMyValue` (vtkPKdTree.cxx lines 1680-1824)

`T` is the coordinate at `K` along `d`; it is guaranteed present. -/

/-- Backward scan of the main loop of `PartitionAboutMyValue`
(`while (--J > I) { if (*Jpt < T) break;
  if (!manyTValues && (J > L) && (*Jpt == T)) manyTValues = 1; }`).
Structural on `J`; returns the final `J` and updated `manyTValues`. -/
def scanJm (A : Array Pt) (T : Int) (d L I : Nat) : Nat → Bool → Nat × Bool
  | 0, m => (0, m)
  | J + 1, m =>
    if I < J then
      if val A d J < T then (J, m)
      else scanJm A T d L I J (m || (decide (L < J) && decide (val A d J = T)))
    else (J, m)

/-- Forward scan of the main loop of `PartitionAboutMyValue`
(`while (++I < J) { if (*Ipt >= T) { if (!manyTValues && (*Ipt == T))
  manyTValues = 1; break; } }`).  `fuel ≥ J - I` makes the fuel-exhausted
arm unreachable; it returns the bound-exit value. -/
def scanIm (A : Array Pt) (T : Int) (d J : Nat) : Nat → Nat → Bool → Nat × Bool
  | 0, I, m => (I + 1, m)
  | fuel + 1, I, m =>
    if I + 1 < J then
      if T ≤ val A d (I + 1) then (I + 1, m || decide (val A d (I + 1) = T))
      else scanIm A T d J fuel (I + 1) m
    else (I + 1, m)

/-- Main exchange loop of `PartitionAboutMyValue` (lines 1720-1755):
`while (I < J) { exchange(I, J); <scanJm>; if (I == J) break; <scanIm> }`.
Returns the array and the final `(I, J, manyTValues)`.
`fuel ≥ J - I` suffices (each iteration strictly shrinks `J - I`). -/
def pamvLoop (T : Int) (d L : Nat) :
    Nat → Array Pt → Nat → Nat → Bool → Array Pt × Nat × Nat × Bool
  | 0, A, I, J, m => (A, I, J, m)
  | fuel + 1, A, I, J, m =>
    if I < J then
      let A1 := swp A I J
      let JM := scanJm A1 T d L I J m
      if I = JM.1 then (A1, I, JM.1, JM.2)
      else
        let IM := scanIm A1 T d JM.1 (JM.1 - I) I JM.2
        pamvLoop T d L fuel A1 IM.1 JM.1 IM.2
    else (A, I, J, m)

/-- Forward scan of the duplicate-clustering pass (shared shape of lines
1789-1798 and 1632-1641): starting at index `i`, skip values equal to `T`;
return the first index in `[i, J)` whose value differs from `T`, or `J`.
In the C code `i` is `I + 1` after the `++I`.  `fuel ≥ J - i` suffices. -/
def scanNeq (A : Array Pt) (T : Int) (d J : Nat) : Nat → Nat → Nat
  | 0, i => i
  | fuel + 1, i =>
    if i < J then
      if val A d i ≠ T then i else scanNeq A T d J fuel (i + 1)
    else i

/-- Backward scan of the duplicate-clustering pass
(`while (--J > I) { if (*Jpt == T) break; }`): structural on `J`. -/
def scanEqDown (A : Array Pt) (T : Int) (d I : Nat) : Nat → Nat
  | 0 => 0
  | J + 1 =>
    if I < J then
      if val A d J = T then J else scanEqDown A T d I J
    else J

/-- Duplicate-clustering loop (lines 1780-1821 of `PartitionAboutMyValue`
and 1620-1660 of `PartitionAboutOtherValue`): gather every value equal to
`T` into a left-contiguous run.  The C loop variable `I` starts one below
the first index to examine; `start` here is that first examined index
(`I + 1` after the first `++I`), which avoids the transient `-1` of the
C `int` in `PartitionAboutOtherValue` when `vals[0] = 0`.  Returns the
array and the final `I` (the index of the first value `> T`).
`fuel ≥ J` suffices (the bound `J` strictly decreases). -/
def clusterLoop (T : Int) (d : Nat) :
    Nat → Array Pt → Nat → Nat → Array Pt × Nat
  | 0, A, start, _ => (A, start - 1)
  | fuel + 1, A, start, J =>
    if start ≤ J then
      let I1 := scanNeq A T d J (J - start) start
      if I1 = J then (A, I1)
      else
        let J1 := scanEqDown A T d I1 J
        if I1 < J1 then clusterLoop T d fuel (swp A I1 J1) (I1 + 1) J1
        else (A, I1)
    else (A, start - 1)

/-! ## `PartitionAboutOtherValue` (vtkPKdTree.cxx lines 1467-1668)

`T` is externally supplied and may or may not occur in `[L, R]`. -/

/-- Pre-scan of the `(Lval ≥ T, Rval ≥ T)` branch (lines 1512-1530):
`while (--J > I) { if (*Jpt < T) break;
  if (*Jpt == T) numTValues++; else numGreater++; }`.
Structural on `J`; threads `(numTValues, numGreater)`. -/
def scanJpre (A : Array Pt) (T : Int) (d I : Nat) :
    Nat → Nat × Nat → Nat × Nat × Nat
  | 0, c => (0, c)
  | J + 1, c =>
    if I < J then
      if val A d J < T then (J, c)
      else scanJpre A T d I J
        (if val A d J = T then (c.1 + 1, c.2) else (c.1, c.2 + 1))
    else (J, c)

/-- Pre-scan of the `(Lval < T, Rval < T)` branch (lines 1533-1547):
`while (++I < J) { if (*Ipt >= T) { if (*Ipt == T) numTValues++; break; }
  numLess++; }`.  Threads `(numTValues, numLess)`; `fuel ≥ J - I - 1`
makes the fuel-exhausted arm unreachable. -/
def scanIpre (A : Array Pt) (T : Int) (d J : Nat) :
    Nat → Nat → Nat × Nat → Nat × Nat × Nat
  | 0, I, c => (I + 1, c)
  | fuel + 1, I, c =>
    if I + 1 < J then
      if T ≤ val A d (I + 1) then
        (I + 1, (if val A d (I + 1) = T then c.1 + 1 else c.1), c.2)
      else scanIpre A T d J fuel (I + 1) (c.1, c.2 + 1)
    else (I + 1, c)

/-- Forward scan of the main loop of `PartitionAboutOtherValue`
(lines 1582-1593): `while (++I < J) { if (*Ipt >= T) {
  if (*Ipt == T) numTValues++; break; } }`.  Threads `numTValues`. -/
def scanIp (A : Array Pt) (T : Int) (d J : Nat) : Nat → Nat → Nat → Nat × Nat
  | 0, I, c => (I + 1, c)
  | fuel + 1, I, c =>
    if I + 1 < J then
      if T ≤ val A d (I + 1) then
        (I + 1, if val A d (I + 1) = T then c + 1 else c)
      else scanIp A T d J fuel (I + 1) c
    else (I + 1, c)

/-- Backward scan of the main loop of `PartitionAboutOtherValue`
(lines 1597-1608): `while (--J > I) { if (*Jpt < T) break;
  if (*Jpt == T) numTValues++; }`.  Structural on `J`. -/
def scanJp (A : Array Pt) (T : Int) (d I : Nat) : Nat → Nat → Nat × Nat
  | 0, c => (0, c)
  | J + 1, c =>
    if I < J then
      if val A d J < T then (J, c)
      else scanJp A T d I J (if val A d J = T then c + 1 else c)
    else (J, c)

/-- Main exchange loop of `PartitionAboutOtherValue` (lines 1575-1609):
`while (I < J) { exchange(I, J); <scanIp>; if (I == J) break; <scanJp> }`.
Returns the array and the final `(I, J, numTValues)`.
`fuel ≥ J - I` suffices. -/
def paovLoop (T : Int) (d : Nat) :
    Nat → Array Pt → Nat → Nat → Nat → Array Pt × Nat × Nat × Nat
  | 0, A, I, J, c => (A, I, J, c)
  | fuel + 1, A, I, J, c =>
    if I < J then
      let A1 := swp A I J
      let IM := scanIp A1 T d J (J - I) I c
      if IM.1 = J then (A1, IM.1, J, IM.2)
      else
        let JM := scanJp A1 T d IM.1 J IM.2
        paovLoop T d fuel A1 IM.1 JM.1 JM.2
    else (A, I, J, c)

/-- `PartitionAboutOtherValue(L, R, T, dim)` (lines 1467-1668) on the
global array: three-way partition of `[L, R]` about an externally
supplied pivot value `T` which may be absent.  Returns the rearranged
array and `(vals[0], vals[1])`.  A zero-length subarray is the case
`R + 1 = L` of the C `totalVals = R - L + 1 == 0` (indices here are
`Nat`; the C caller only ever produces `R = L - 1` with `L ≥ 1`). -/
def paov (A : Array Pt) (L R : Nat) (T : Int) (d : Nat) : Array Pt × Nat × Nat :=
  if R + 1 - L = 0 then (A, L, L)
  else
    let total := R + 1 - L
    let Lval := val A d L
    let Rval := val A d R
    let nT0 : Nat := (if Lval = T then 1 else 0) + (if Rval = T then 1 else 0)
    let nG0 : Nat := (if Lval = T then 0 else if T < Lval then 1 else 0) +
      (if Rval = T then 0 else if T < Rval then 1 else 0)
    let nL0 : Nat := (if Lval = T then 0 else if T < Lval then 0 else 1) +
      (if Rval = T then 0 else if T < Rval then 0 else 1)
    -- the four set-up branches (lines 1512-1556); components:
    -- array, I, J, numLess, numTValues, numGreater
    let br : Array Pt × Nat × Nat × Nat × Nat × Nat :=
      if T ≤ Lval ∧ T ≤ Rval then
        let s := scanJpre A T d L R (nT0, nG0)
        (A, L, s.1, nL0, s.2.1, s.2.2)
      else if Lval < T ∧ Rval < T then
        let s := scanIpre A T d R (R - L) L (nT0, nL0)
        (A, s.1, R, s.2.2, s.2.1, nG0)
      else if Lval < T then (swp A L R, L, R, nL0, nT0, nG0)
      else (A, L, R, nL0, nT0, nG0)
    let A2 := br.1
    let I0 := br.2.1
    let J0 := br.2.2.1
    let nL := br.2.2.2.1
    let nT := br.2.2.2.2.1
    let nG := br.2.2.2.2.2
    if nL = total then (A2, R + 1, R + 1)
    else if nT = total then (A2, L, R + 1)
    else if nG = total then (A2, L, L)
    else
      let lp := paovLoop T d (J0 - I0 + 1) A2 I0 J0 nT
      if lp.2.2.2 = 0 then (lp.1, lp.2.1, lp.2.1)
      else
        let cl := clusterLoop T d (R + 2) lp.1 lp.2.1 (R + 1)
        (cl.1, lp.2.1, cl.2)

/-- `PartitionAboutMyValue(L, R, K, dim)` (lines 1680-1824) on the global
array: three-way partition of `[L, R]` about the value `T` found at `K`
(`L ≤ K ≤ R`).  Returns the rearranged array and `(vals[0], vals[1])`:
the first index of the run of values `= T` and the first index of the
values `> T`. -/
def pamv (A : Array Pt) (L R K d : Nat) : Array Pt × Nat × Nat :=
  let T := val A d K
  let A1 := swp A L K
  let setup : Array Pt × Bool :=
    if T ≤ val A1 d R then
      if val A1 d R = T then (A1, true) else (swp A1 R L, false)
    else (A1, false)
  let lp := pamvLoop T d L (R - L + 1) setup.1 L R setup.2
  let A3 := lp.1
  let J3 := lp.2.2.1
  let m3 := lp.2.2.2
  let fix : Array Pt × Nat :=
    if val A3 d L = T then (swp A3 L J3, J3)
    else (swp A3 (J3 + 1) R, J3 + 1)
  let A4 := fix.1
  let J4 := fix.2
  if m3 then
    let cl := clusterLoop T d (R + 2) A4 (J4 + 1) (R + 1)
    (cl.1, J4, cl.2)
  else (A4, J4, J4 + 1)

/-! ## `_select` / `Select` (vtkPKdTree.cxx lines 899-1041)

The Floyd-Rivest sampling step (lines 906-921, taken when
`R - L > 600`) recursively runs `_select` on a sample subinterval
`[LL, RR]` with `L ≤ LL` and `RR ≤ R` (both clamped by
`vtkMath::Max/Min`); its bounds are computed with C `float`
transcendentals (`log`, `exp`, `sqrt`), which have no exact shallow
embedding.  Its entire effect on the array is a rearrangement of a
subinterval of `[L, R]`, so the model takes an oracle `orc` for that
step and every theorem assumes only `permWithin L R A (orc n L R A)`:
the theorems therefore hold for any actual behaviour of the sampling
recursion.  The identity oracle `orcId` instantiates the theorems. -/

/-- Oracle used to instantiate the selection theorems: the sampling
step that leaves the array unchanged. -/
def orcId : Nat → Nat → Nat → Array Pt → Array Pt := fun _ _ _ A => A

/-- The `while (R > L)` loop of `_select` (lines 904-958), with the
partitioning of `[L, R]` about the value at `K` done by
`PartitionAboutMyValue` (the global semantics of `PartitionSubArray`
for the sub-group owning `[L, R]`): `I = idx[0]`, `J = idx[1]`;
`if (K >= J) L = J; else if (K >= I) stop; else R = I - 1`.
`n` counts the iterations (feeding the oracle); `none` means the fuel
ran out, and fuel `R - L + 1` is proved sufficient. -/
def selectLoop (d : Nat) (orc : Nat → Nat → Nat → Array Pt → Array Pt) :
    Nat → Nat → Array Pt → Nat → Nat → Nat → Option (Array Pt)
  | 0, _, _, _, _, _ => none
  | fuel + 1, n, A, L, R, K =>
    if L < R then
      let A0 := if 600 < R - L then orc n L R A else A
      let pr := pamv A0 L R K d
      if pr.2.2 ≤ K then selectLoop d orc fuel (n + 1) pr.1 pr.2.2 R K
      else if pr.2.1 ≤ K then some pr.1
      else selectLoop d orc fuel (n + 1) pr.1 L (pr.2.1 - 1) K
    else some A

/-- The backward scan of `Select` (lines 1022-1031) rolling the split
index left over the run of values equal to `Kval`:
`for (idx = start - 1; idx >= 0; idx--) { if (*pt < Kval) break;
  firstKval--; }` (single-process view: `finish = StartVal[me] = 0`).
Structural on `idx`. -/
def rollGo (A : Array Pt) (d : Nat) (Kval : Int) : Nat → Nat → Nat
  | 0, cur => if val A d 0 < Kval then cur else cur - 1
  | idx + 1, cur =>
    if val A d (idx + 1) < Kval then cur else rollGo A d Kval idx (cur - 1)

/-- `Select(dim, L, R)` (lines 960-1041) on the global array: runs
`_select` with `K = (R + L) / 2 + 1`, then rolls `K` left over the run
of values equal to the value at `K` (lines 979-1040; single-process
view of the broadcast/reduce-min).  Returns the rearranged array and
the returned split index. -/
def select (orc : Nat → Nat → Nat → Array Pt → Array Pt)
    (A : Array Pt) (L R d : Nat) : Array Pt × Nat :=
  let K := (R + L) / 2 + 1
  let B := (selectLoop d orc (R + 1 - L) 0 A L R K).getD A
  if K = L then (B, K)
  else
    let Kval := val B d K
    let Kleftval := val B d (K - 1)
    if Kleftval ≠ Kval then (B, K)
    else
      let start := K - 1
      let first := if start = 0 then start else rollGo B d Kval (start - 1) start
      (B, first)

/-- The three-way partition postcondition common to both partition
routines: the elements of `[L, R]` are permuted (everything outside is
untouched), `L ≤ I ≤ J ≤ R + 1`, and afterwards every value at an index
in `[L, I)` is strictly below `T` along `d`, every value in `[I, J)`
equals `T`, and every value in `[J, R]` is strictly above `T`. -/
def ThreeWay (A B : Array Pt) (L R I J : Nat) (T : Int) (d : Nat) : Prop :=
  permWithin L R A B ∧ L ≤ I ∧ I ≤ J ∧ J ≤ R + 1 ∧
  (∀ g, L ≤ g → g < I → val B d g < T) ∧
  (∀ g, I ≤ g → g < J → val B d g = T) ∧
  (∀ g, J ≤ g → g ≤ R → T < val B d g)

/-! ## Global index lists and `WhoHas` (lines 2350-2374 and 1043-1072) -/

/-- `EndVal[i]`: `EndVal[0] = NumCells[0] - 1`,
`EndVal[i] = EndVal[i-1] + NumCells[i]` (lines 2361, 2368). -/
def endVal (counts : List Int) : Nat → Int
  | 0 => counts.getD 0 0 - 1
  | i + 1 => endVal counts i + counts.getD (i + 1) 0

/-- `StartVal[i]`: `StartVal[0] = 0`, `StartVal[i] = EndVal[i-1] + 1`
(lines 2360, 2367). -/
def startVal (counts : List Int) : Nat → Int
  | 0 => 0
  | i + 1 => endVal counts i + 1

/-- `TotalNumCells` as accumulated by the loop (lines 2363-2370):
`TotalNumCells = NumCells[0]`, then `+= NumCells[i]` for `i ≥ 1`;
`totalAux counts i` is the value after processing index `i`. -/
def totalAux (counts : List Int) : Nat → Int
  | 0 => counts.getD 0 0
  | i + 1 => totalAux counts i + counts.getD (i + 1) 0

/-- `TotalNumCells` for `P = counts.length` processes. -/
def totalNumCells (counts : List Int) : Int :=
  totalAux counts (counts.length - 1)

/-- `_whoHas(L, R, pos)` (lines 1043-1064): binary search for the
process whose `[StartVal, EndVal]` interval contains `pos`.
`fuel ≥ R + 1 - L` suffices. -/
def whoHasAux (startV : Nat → Int) : Nat → Nat → Nat → Int → Nat
  | 0, L, _, _ => L
  | fuel + 1, L, R, pos =>
    if L = R then L
    else
      let M := (L + R) / 2
      if pos < startV M then whoHasAux startV fuel L (M - 1) pos
      else if pos < startV (M + 1) then M
      else whoHasAux startV fuel (M + 1) R pos

/-- `WhoHas(pos)` (lines 1065-1072): `-1` for an out-of-range global
index, else the binary search over `[0, NumProcesses - 1]`. -/
def whoHas (counts : List Int) (pos : Int) : Int :=
  if pos < 0 ∨ totalNumCells counts ≤ pos then -1
  else (whoHasAux (startVal counts) counts.length 0 (counts.length - 1) pos : Int)

/-! ## `DivideRegion` point-count accounting (lines 700-852) -/

/-- A k-d tree skeleton carrying only `num_points` per node. -/
inductive CountTree where
  | leaf (n : Int)
  | node (n : Int) (l r : CountTree)
deriving DecidableEq, Repr

/-- `num_points` of the root of a subtree. -/
def rootCount : CountTree → Int
  | .leaf n => n
  | .node n _ _ => n

/-- Sum of the `num_points` of all terminal leaves. -/
def leafSum : CountTree → Int
  | .leaf n => n
  | .node _ l r => leafSum l + leafSum r

/-- Every internal node's `num_points` equals the sum of its
children's. -/
def internalSumOK : CountTree → Bool
  | .leaf _ => true
  | .node n l r =>
    decide (n = rootCount l + rootCount r) && internalSumOK l && internalSumOK r

/-- The point-count skeleton produced by the breadth-first recursion of
`BuildLocator` / `DivideRegion` (lines 664-687 and 700-852) for a node
with `num_points = n` over the index range `[L, L + n - 1]` at the
given level.  `dt` abstracts `DivideTest` (stop: the node is a leaf);
`sel` abstracts the split index `midpt` produced by `Select` (with the
retry and coincident-point fallback of lines 777-807 folded in).  The
special case `n < 2` (lines 708-757) gives the left child all `n`
points and the right `0`, with `midpt = L`; otherwise the left child
gets `midpt - L` points over `[L, midpt - 1]` and the right
`R - midpt + 1` over `[midpt, R]` (lines 835, 841).  `fuel` bounds the
tree depth. -/
def buildTree (dt : Int → Nat → Bool) (sel : Nat → Nat → Nat) :
    Nat → Nat → Int → Nat → CountTree
  | 0, _, n, _ => .leaf n
  | fuel + 1, L, n, level =>
    if ¬ dt n level then .leaf n
    else if n < 2 then
      .node n (buildTree dt sel fuel L n (level + 1))
        (buildTree dt sel fuel L 0 (level + 1))
    else
      let R := L + n.toNat - 1
      let m := sel L R
      .node n (buildTree dt sel fuel L ((m : Int) - (L : Int)) (level + 1))
        (buildTree dt sel fuel m ((R : Int) - (m : Int) + 1) (level + 1))

/-! ## Split-dimension retry and coincident-points fallback
(lines 775-807) -/

/-- The retry loop of `DivideRegion` (lines 777-807): after the first
`Select` along `maxdim` returned `midpt < L + 1`, try the remaining
dimensions `0, 1, 2` in order, skipping `maxdim` and dimensions not in
the `ValidDirections` mask; if all are exhausted fall back to
`midpt = (L + R) / 2 + 1` on `maxdim`.  `sel dm L R` abstracts the
result of `Select(dm, L, R)`.  Returns `(dim, midpt)`. -/
def tryDims (sel : Nat → Nat → Nat → Nat) (validDirs maxdim L R : Nat) :
    List Nat → Nat × Nat
  | [] => (maxdim, (L + R) / 2 + 1)
  | dm :: rest =>
    if dm = maxdim ∨ validDirs &&& (1 <<< dm) = 0 then
      tryDims sel validDirs maxdim L R rest
    else
      let m := sel dm L R
      if L + 1 ≤ m then (dm, m) else tryDims sel validDirs maxdim L R rest

/-- `midpt` computation of `DivideRegion` (lines 775-807): the first
`Select` along `maxdim`, then the retry loop.  Returns `(dim, midpt)`. -/
def findCut (sel : Nat → Nat → Nat → Nat) (validDirs maxdim L R : Nat) :
    Nat × Nat :=
  let m0 := sel maxdim L R
  if L + 1 ≤ m0 then (maxdim, m0)
  else tryDims sel validDirs maxdim L R [0, 1, 2]

/-! ## `CheckFixRegionBoundaries` (lines 2119-2159) -/

/-- A triple of doubles (modelled by `ℚ`: the routine only copies
components and compares differences with `0.0`). -/
structure V3 where
  x : Rat
  y : Rat
  z : Rat
deriving DecidableEq, Repr

/-- Component of a `V3` along dimension `d`. -/
def vg (v : V3) (d : Nat) : Rat :=
  if d = 0 then v.x else if d = 1 then v.y else v.z

/-- Build a `V3` from its three components. -/
def vmk (f : Nat → Rat) : V3 := ⟨f 0, f 1, f 2⟩

/-- A region-bounds tree: every node carries its min and max bounds,
internal nodes also their split dimension. -/
inductive RTree where
  | lf (mn mx : V3)
  | nd (dim : Nat) (mn mx : V3) (l r : RTree)
deriving DecidableEq, Repr

/-- Min bounds of the root node. -/
def RTree.rmn : RTree → V3
  | .lf mn _ => mn
  | .nd _ mn _ _ _ => mn

/-- Max bounds of the root node. -/
def RTree.rmx : RTree → V3
  | .lf _ mx => mx
  | .nd _ _ mx _ _ => mx

/-- Replace the root node's bounds (the in-place writes through
`GetMinBounds` / `GetMaxBounds`). -/
def setBox : RTree → V3 → V3 → RTree
  | .lf _ _, mn, mx => .lf mn mx
  | .nd d _ _ l r, mn, mx => .nd d mn mx l r

/-- `CheckFixRegionBoundaries(tree)` (lines 2119-2159) with the
in-place child-bounds writes made explicit: the node is rebuilt with
bounds `(mn, mx)` (at the top call its own bounds, below the values its
parent wrote into it), and for each dimension the writes force
`lmin[dim] = min[dim]` and `rmax[dim] = max[dim]`; off the split
dimension also `lmax[dim] = max[dim]` and `rmin[dim] = min[dim]`; on
the split dimension `lmax[dim] = rmin[dim]`; then recurse into both
children.  Each assignment is guarded by `(a - b) != 0.0` exactly as in
the source. -/
def checkFixAt : RTree → V3 → V3 → RTree
  | .lf _ _, mn, mx => .lf mn mx
  | .nd dim _ _ l r, mn, mx =>
    let lmn := vmk fun d =>
      if vg l.rmn d - vg mn d ≠ 0 then vg mn d else vg l.rmn d
    let rmx := vmk fun d =>
      if vg r.rmx d - vg mx d ≠ 0 then vg mx d else vg r.rmx d
    let lmx := vmk fun d =>
      if d ≠ dim then (if vg l.rmx d - vg mx d ≠ 0 then vg mx d else vg l.rmx d)
      else (if vg l.rmx d - vg r.rmn d ≠ 0 then vg r.rmn d else vg l.rmx d)
    let rmn := vmk fun d =>
      if d ≠ dim then (if vg r.rmn d - vg mn d ≠ 0 then vg mn d else vg r.rmn d)
      else vg r.rmn d
    .nd dim mn mx (checkFixAt l lmn lmx) (checkFixAt r rmn rmx)

/-- `CheckFixRegionBoundaries` applied to a whole tree (the root's own
bounds are never modified). -/
def checkFix (t : RTree) : RTree := checkFixAt t t.rmn t.rmx

/-- The property claimed of the fixed tree, at every internal node. -/
def goodFix : RTree → Bool
  | .lf _ _ => true
  | .nd dim mn mx l r =>
    ((List.range 3).all fun d =>
      decide (vg l.rmn d = vg mn d) && decide (vg r.rmx d = vg mx d) &&
        (if d ≠ dim then
          decide (vg l.rmx d = vg mx d) && decide (vg r.rmn d = vg mn d)
         else decide (vg l.rmx d = vg r.rmn d))) &&
      goodFix l && goodFix r

/-! ## Round-robin region assignment (lines 2932-2956, 3085-3108) -/

/-- The assignment loop of `AssignRegionsRoundRobin` (lines 2946-2952):
`RegionAssignmentMap[i] = procID` with
`procID = (procID == nProcesses - 1) ? 0 : procID + 1`. -/
def rrGo (P : Nat) : Nat → Nat → List Nat
  | 0, _ => []
  | k + 1, procID => procID :: rrGo P k (if procID = P - 1 then 0 else procID + 1)

/-- `RegionAssignmentMap` after `AssignRegionsRoundRobin` with `P`
processes and `R` regions. -/
def regionAssignmentMapRR (P R : Nat) : List Nat := rrGo P R 0

/-- The filling loop of `BuildRegionListsForProcesses` (lines 3096-3105):
region `r` is appended at position `count[proc]` of
`ProcessAssignmentMap[proc]`, i.e. appended in increasing region
order. -/
def buildListsGo : List (List Nat) → Nat → List Nat → List (List Nat)
  | acc, _, [] => acc
  | acc, r, proc :: rest =>
    buildListsGo (acc.set proc (acc.getD proc [] ++ [r])) (r + 1) rest

/-- `ProcessAssignmentMap` after `BuildRegionListsForProcesses` for `P`
processes from a given `RegionAssignmentMap`. -/
def buildRegionLists (P : Nat) (map : List Nat) : List (List Nat) :=
  buildListsGo (List.replicate P []) 0 map

/-! ## Query guards (lines 3346-3376, 3412-3421, 3422-3434) -/

/-- The query-relevant state of a `vtkPKdTree`: the lookup tables, the
table dimensions, and whether a tree exists (`Top != nullptr`). -/
structure QState where
  regionAssignmentMap : List Int
  numRegionsAssigned : List Int
  processAssignmentMap : List (List Int)
  dataLocationMap : List Int
  numProcesses : Int
  numRegions : Int
  hasTree : Bool
deriving DecidableEq, Repr

/-- `GetProcessAssignedToRegion(regionId)` (lines 3412-3421). -/
def getProcessAssignedToRegion (s : QState) (regionId : Int) : Int :=
  if s.regionAssignmentMap = [] ∨ regionId < 0 ∨ s.numRegions ≤ regionId then -1
  else s.regionAssignmentMap.getD regionId.toNat 0

/-- `HasData(processId, regionId)` (lines 3422-3434). -/
def hasData (s : QState) (processId regionId : Int) : Int :=
  if s.dataLocationMap = [] ∨ processId < 0 ∨ s.numProcesses ≤ processId ∨
      regionId < 0 ∨ s.numRegions ≤ regionId then 0
  else s.dataLocationMap.getD (s.numRegions * processId + regionId).toNat 0

/-- `GetRegionAssignmentList(procId, list)` (lines 3346-3376),
parametrised by the effect `upd` of `UpdateRegionAssignment`; both
assignment routines return immediately when `Top == nullptr`
(lines 2936-2939 and 3005-3008), which the theorems state as the
hypothesis `s.hasTree = false → upd s = s`.  Returns the resulting
state, the returned count and the filled output list. -/
def getRegionAssignmentList (upd : QState → QState) (s : QState)
    (procId : Int) : QState × Int × List Int :=
  if procId < 0 ∨ s.numProcesses ≤ procId then (s, 0, [])
  else if s.regionAssignmentMap = [] then
    let s1 := upd s
    if s1.regionAssignmentMap = [] then (s1, 0, [])
    else (s1, s1.numRegionsAssigned.getD procId.toNat 0,
      s1.processAssignmentMap.getD procId.toNat [])
  else (s, s.numRegionsAssigned.getD procId.toNat 0,
    s.processAssignmentMap.getD procId.toNat [])

/-! ## `PackData` / `UnpackData` (lines 1974-2035) -/

/-- The scalar fields of one `vtkKdNode`: split dimension,
`num_points`, region bounds (min, max) and data bounds (min, max). -/
structure KdInfo where
  dim : Int
  numPoints : Int
  mnB : V3
  mxB : V3
  mnD : V3
  mxD : V3
deriving DecidableEq, Repr

/-- A `vtkKdNode` tree: scalar fields plus optional children (both
non-null or both null). -/
inductive KdN where
  | mk (info : KdInfo) (children : Option (KdN × KdN))

/-- Scalar fields of a node. -/
def KdN.info : KdN → KdInfo
  | .mk i _ => i

/-- Children of a node. -/
def KdN.children : KdN → Option (KdN × KdN)
  | .mk _ c => c

/-- C cast `(int)` of a double: truncation toward zero. -/
def qtrunc (q : Rat) : Int :=
  if q < 0 then -(Rat.floor (-q)) else Rat.floor q

/-- `PackData(kd, data)` (lines 1974-2003): the 27 doubles, in source
order: `dim`, both children's `num_points`, then for each axis the
eight child-bounds components in the loop order of lines 1992-2002
(the loop is unrolled here).  `none` for a childless node (the C
callers guard on `GetLeft() != nullptr`). -/
def packData (kd : KdN) : Option (List Rat) :=
  match kd.children with
  | none => none
  | some (l, r) =>
    some [(kd.info.dim : Rat), (l.info.numPoints : Rat), (r.info.numPoints : Rat),
      l.info.mnB.x, l.info.mxB.x, l.info.mnD.x, l.info.mxD.x,
      r.info.mnB.x, r.info.mxB.x, r.info.mnD.x, r.info.mxD.x,
      l.info.mnB.y, l.info.mxB.y, l.info.mnD.y, l.info.mxD.y,
      r.info.mnB.y, r.info.mxB.y, r.info.mnD.y, r.info.mxD.y,
      l.info.mnB.z, l.info.mxB.z, l.info.mnD.z, l.info.mxD.z,
      r.info.mnB.z, r.info.mxB.z, r.info.mnD.z, r.info.mxD.z]

/-- The sorted list of the coordinates along `d` of the subarray
`[L, R]` (used to state the order statistics computed by `Select`). -/
def sortedVals (A : Array Pt) (d L R : Nat) : List Int :=
  List.insertionSort (fun a b => a ≤ b) ((sub A L R).map fun p => pc p d)

/-- `UnpackData(kd, data)` (lines 2004-2035): set the node's dimension
and the children's `num_points`, region bounds and data bounds from the
27 doubles; component `lmin[i]` sits at index `3 + 8·i`, etc.  Identity
on a childless node (the C callers guard on `GetLeft() != nullptr`). -/
def unpackData (kd : KdN) (data : List Rat) : KdN :=
  match kd with
  | .mk info none => .mk info none
  | .mk info (some (l, r)) =>
    let upd : KdN → Int → V3 → V3 → V3 → V3 → KdN := fun n np mnB mxB mnD mxD =>
      .mk ⟨n.info.dim, np, mnB, mxB, mnD, mxD⟩ n.children
    .mk { info with dim := qtrunc (data.getD 0 0) }
      (some (upd l (qtrunc (data.getD 1 0))
          ⟨data.getD 3 0, data.getD 11 0, data.getD 19 0⟩
          ⟨data.getD 4 0, data.getD 12 0, data.getD 20 0⟩
          ⟨data.getD 5 0, data.getD 13 0, data.getD 21 0⟩
          ⟨data.getD 6 0, data.getD 14 0, data.getD 22 0⟩,
        upd r (qtrunc (data.getD 2 0))
          ⟨data.getD 7 0, data.getD 15 0, data.getD 23 0⟩
          ⟨data.getD 8 0, data.getD 16 0, data.getD 24 0⟩
          ⟨data.getD 9 0, data.getD 17 0, data.getD 25 0⟩
          ⟨data.getD 10 0, data.getD 18 0, data.getD 26 0⟩))

/-! # Theorems -/

/-! ## Array infrastructure -/

theorem size_swp (A : Array Pt) (i j : Nat) : (swp A i j).size = A.size := by
  unfold swp; split <;> simp

theorem get_eq_getElem {A : Array Pt} {g : Nat} (h : g < A.size) :
    get A g = A[g] := by
  simp [get, Array.getD, h]

theorem get_oob {A : Array Pt} {g : Nat} (h : ¬ g < A.size) :
    get A g = ⟨0, 0, 0⟩ := by
  simp [get, Array.getD, h]

theorem get_swp_left {A : Array Pt} {i j : Nat}
    (hi : i < A.size) (hj : j < A.size) : get (swp A i j) i = get A j := by
  unfold swp
  rw [dif_pos ⟨hi, hj⟩, get_eq_getElem (by simpa using hi),
    get_eq_getElem hj, Array.getElem_swap]
  simp

theorem get_swp_right {A : Array Pt} {i j : Nat}
    (hi : i < A.size) (hj : j < A.size) : get (swp A i j) j = get A i := by
  unfold swp
  rw [dif_pos ⟨hi, hj⟩, get_eq_getElem (by simpa using hj),
    get_eq_getElem hi, Array.getElem_swap]
  by_cases h : j = i <;> simp [h]

theorem get_swp_ne {A : Array Pt} {i j : Nat} (g : Nat)
    (hgi : g ≠ i) (hgj : g ≠ j) : get (swp A i j) g = get A g := by
  unfold swp
  split
  · next h =>
    by_cases hg : g < A.size
    · rw [get_eq_getElem (by simpa using hg), get_eq_getElem hg,
        Array.getElem_swap]
      simp [hgi, hgj]
    · rw [get_oob (by simpa using hg), get_oob hg]
  · rfl

theorem val_swp_left {A : Array Pt} {i j : Nat} (d : Nat)
    (hi : i < A.size) (hj : j < A.size) : val (swp A i j) d i = val A d j := by
  simp [val, get_swp_left hi hj]

theorem val_swp_right {A : Array Pt} {i j : Nat} (d : Nat)
    (hi : i < A.size) (hj : j < A.size) : val (swp A i j) d j = val A d i := by
  simp [val, get_swp_right hi hj]

theorem val_swp_ne {A : Array Pt} {i j : Nat} (d g : Nat)
    (hgi : g ≠ i) (hgj : g ≠ j) : val (swp A i j) d g = val A d g := by
  simp [val, get_swp_ne g hgi hgj]

theorem val_eq_of_get_eq {A B : Array Pt} {g h : Nat} (d : Nat)
    (he : get A g = get B h) : val A d g = val B d h := by
  simp [val, he]

theorem length_subLen (A : Array Pt) (a n : Nat) : (subLen A a n).length = n := by
  simp [subLen]

theorem subLen_add (A : Array Pt) (a n1 n2 : Nat) :
    subLen A a (n1 + n2) = subLen A a n1 ++ subLen A (a + n1) n2 := by
  simp only [subLen, List.range_add, List.map_append, List.map_map]
  congr 1
  apply List.map_congr_left
  intro i _
  simp [Nat.add_assoc, Nat.add_comm n1 i, Nat.add_left_comm]

theorem subLen_congr {A B : Array Pt} {a n : Nat}
    (h : ∀ g, a ≤ g → g < a + n → get A g = get B g) :
    subLen A a n = subLen B a n := by
  simp only [subLen]
  apply List.map_congr_left
  intro i hi
  exact h (a + i) (Nat.le_add_right _ _) (by simpa using List.mem_range.1 hi)

theorem sub_congr {A B : Array Pt} {L R : Nat}
    (h : ∀ g, L ≤ g → g ≤ R → get A g = get B g) : sub A L R = sub B L R := by
  apply subLen_congr
  intro g hg1 hg2
  exact h g hg1 (by omega)

theorem subLen_one (A : Array Pt) (a : Nat) : subLen A a 1 = [get A a] := rfl

/-- Extensionality through `get`. -/
theorem array_ext_get {A B : Array Pt} (hsz : A.size = B.size)
    (h : ∀ k, k < A.size → get A k = get B k) : A = B := by
  refine Array.ext _ _ hsz ?_
  intro k hk1 hk2
  have := h k hk1
  rwa [get_eq_getElem hk1, get_eq_getElem hk2] at this

theorem swp_self (A : Array Pt) (a : Nat) : swp A a a = A := by
  by_cases ha : a < A.size
  · apply array_ext_get (by simp [size_swp])
    intro k hk
    have hk1 : k < (swp A a a).size := by simpa [size_swp] using hk
    by_cases hka : k = a
    · subst hka; exact get_swp_left ha ha
    · exact get_swp_ne k hka hka
  · unfold swp
    rw [dif_neg (by intro h; exact ha h.1)]

theorem swp_comm (A : Array Pt) (i j : Nat) : swp A j i = swp A i j := by
  by_cases h : i < A.size ∧ j < A.size
  · apply array_ext_get (by simp [size_swp])
    intro k hk
    have hk2 : k < A.size := by simpa [size_swp] using hk
    by_cases hki : k = i
    · subst hki; rw [get_swp_right h.2 h.1, get_swp_left h.1 h.2]
    · by_cases hkj : k = j
      · subst hkj; rw [get_swp_left h.2 h.1, get_swp_right h.1 h.2]
      · rw [get_swp_ne k hkj hki, get_swp_ne k hki hkj]
  · unfold swp
    rw [dif_neg (by intro hc; exact h ⟨hc.2, hc.1⟩),
      dif_neg (by intro hc; exact h hc)]

/-- `[L, R]` split at two interior indices `a < b`. -/
theorem sub_split3 (X : Array Pt) {L a b R : Nat}
    (h1 : L ≤ a) (h2 : a < b) (h3 : b ≤ R) :
    sub X L R = subLen X L (a - L) ++ get X a ::
      (subLen X (a + 1) (b - (a + 1)) ++ get X b :: subLen X (b + 1) (R - b)) := by
  have e : R + 1 - L = (a - L) + (1 + ((b - (a + 1)) + (1 + (R - b)))) := by omega
  rw [sub, e, subLen_add, subLen_add]
  have ha : L + (a - L) = a := by omega
  rw [ha, subLen_one, subLen_add]
  have hb : a + 1 + (b - (a + 1)) = b := by omega
  rw [hb, subLen_add, subLen_one]
  simp

theorem permWithin_refl (L R : Nat) (A : Array Pt) : permWithin L R A A :=
  ⟨⟨rfl, fun _ _ => rfl⟩, List.Perm.refl _⟩

theorem permWithin_trans {L R : Nat} {A B C : Array Pt}
    (h1 : permWithin L R A B) (h2 : permWithin L R B C) : permWithin L R A C :=
  ⟨⟨h1.1.1.trans h2.1.1, fun g hg => (h1.1.2 g hg).trans (h2.1.2 g hg)⟩,
    h1.2.trans h2.2⟩

/-- A permutation within `[I, J]` is one within any containing `[L, R]`. -/
theorem permWithin_mono {I J L R : Nat} {A B : Array Pt}
    (h : permWithin I J A B) (hLI : L ≤ I) (hIJ : I ≤ J + 1) (hJR : J ≤ R) :
    permWithin L R A B := by
  refine ⟨⟨h.1.1, fun g hg => h.1.2 g (by omega)⟩, ?_⟩
  have hs : ∀ X : Array Pt, sub X L R =
      subLen X L (I - L) ++ subLen X I (J + 1 - I) ++ subLen X (J + 1) (R - J) := by
    intro X
    have h1 : R + 1 - L = (I - L) + ((J + 1 - I) + (R - J)) := by omega
    have h2 : L + (I - L) = I := by omega
    have h3 : I + (J + 1 - I) = J + 1 := by omega
    rw [sub, h1, subLen_add, h2, subLen_add, h3, ← List.append_assoc]
  rw [hs A, hs B]
  have e1 : subLen A L (I - L) = subLen B L (I - L) := by
    apply subLen_congr; intro g hg1 hg2; exact h.1.2 g (by omega)
  have e3 : subLen A (J + 1) (R - J) = subLen B (J + 1) (R - J) := by
    apply subLen_congr; intro g hg1 hg2; exact h.1.2 g (by omega)
  have hmid : (subLen A I (J + 1 - I)).Perm (subLen B I (J + 1 - I)) := h.2
  rw [e1, e3]
  exact (hmid.append_left _).append_right _

/-- Swapping two in-range, in-interval entries is a permutation within
the interval. -/
theorem permWithin_swp {L R i j : Nat} (A : Array Pt)
    (hi : i < A.size) (hj : j < A.size)
    (hLi : L ≤ i) (hiR : i ≤ R) (hLj : L ≤ j) (hjR : j ≤ R) :
    permWithin L R A (swp A i j) := by
  have hperm : ∀ a b : Nat, a < b → L ≤ a → b ≤ R → a < A.size → b < A.size →
      permWithin L R A (swp A a b) := by
    intro a b hab hLa hbR ha hb
    refine ⟨⟨by simp [size_swp],
      fun g hg => (get_swp_ne g (by omega) (by omega)).symm⟩, ?_⟩
    rw [sub_split3 A hLa hab hbR, sub_split3 (swp A a b) hLa hab hbR]
    have e1 : subLen (swp A a b) L (a - L) = subLen A L (a - L) := by
      apply subLen_congr; intro g hg1 hg2; exact get_swp_ne g (by omega) (by omega)
    have e2 : subLen (swp A a b) (a + 1) (b - (a + 1)) = subLen A (a + 1) (b - (a + 1)) := by
      apply subLen_congr; intro g hg1 hg2; exact get_swp_ne g (by omega) (by omega)
    have e3 : subLen (swp A a b) (b + 1) (R - b) = subLen A (b + 1) (R - b) := by
      apply subLen_congr; intro g hg1 hg2; exact get_swp_ne g (by omega) (by omega)
    rw [e1, e2, e3, get_swp_left ha hb, get_swp_right ha hb]
    apply List.Perm.append_left
    have p1 : (get A a :: (subLen A (a + 1) (b - (a + 1)) ++ get A b ::
        subLen A (b + 1) (R - b))).Perm
        (get A a :: get A b :: (subLen A (a + 1) (b - (a + 1)) ++
          subLen A (b + 1) (R - b))) := List.Perm.cons _ List.perm_middle
    have p2 := List.Perm.swap (get A b) (get A a)
      (subLen A (a + 1) (b - (a + 1)) ++ subLen A (b + 1) (R - b))
    have p3 : (get A b :: get A a :: (subLen A (a + 1) (b - (a + 1)) ++
        subLen A (b + 1) (R - b))).Perm
        (get A b :: (subLen A (a + 1) (b - (a + 1)) ++ get A a ::
          subLen A (b + 1) (R - b))) := List.Perm.cons _ List.perm_middle.symm
    exact (p1.trans p2).trans p3
  rcases Nat.lt_trichotomy i j with hij | hij | hij
  · exact hperm i j hij hLi hjR hi hj
  · subst hij; rw [swp_self]; exact permWithin_refl _ _ _
  · rw [← swp_comm]
    exact hperm j i hij hLj hiR hj hi

/-! ## Scan lemmas for `PartitionAboutMyValue` -/

theorem scanJm_spec (A : Array Pt) (T : Int) (d L I : Nat) (hLI : L ≤ I) :
    ∀ (J : Nat) (m : Bool), I < J →
    I ≤ (scanJm A T d L I J m).1 ∧ (scanJm A T d L I J m).1 + 1 ≤ J ∧
    (∀ g, (scanJm A T d L I J m).1 < g → g < J → T ≤ val A d g) ∧
    ((scanJm A T d L I J m).1 = I ∨ val A d (scanJm A T d L I J m).1 < T) ∧
    ((scanJm A T d L I J m).2 = false → m = false ∧
      ∀ g, (scanJm A T d L I J m).1 < g → g < J → val A d g ≠ T) ∧
    (m = true → (scanJm A T d L I J m).2 = true) := by
  intro J
  induction J with
  | zero => intro m h; omega
  | succ J ih =>
    intro m hIJ
    by_cases h1 : I < J
    · by_cases h2 : val A d J < T
      · simp only [scanJm, if_pos h1, if_pos h2]
        refine ⟨by omega, by omega, by intro g hg1 hg2; omega, Or.inr h2, ?_, fun h => h⟩
        intro hm
        exact ⟨hm, by intro g hg1 hg2; omega⟩
      · simp only [scanJm, if_pos h1, if_neg h2]
        obtain ⟨c1, c2, c3, c4, c5, c6⟩ :=
          ih (m || (decide (L < J) && decide (val A d J = T))) h1
        refine ⟨c1, by omega, ?_, c4, ?_, ?_⟩
        · intro g hg1 hg2
          rcases Nat.lt_or_ge g J with h | h
          · exact c3 g hg1 h
          · have : g = J := by omega
            subst this; omega
        · intro hfalse
          obtain ⟨hm, hreg⟩ := c5 hfalse
          have hLJ : L < J := by omega
          have hm2 : m = false ∧ val A d J ≠ T := by
            constructor
            · cases m with
              | false => rfl
              | true => simp at hm
            · intro hv
              simp [hLJ, hv] at hm
          refine ⟨hm2.1, ?_⟩
          intro g hg1 hg2
          rcases Nat.lt_or_ge g J with h | h
          · exact hreg g hg1 h
          · have : g = J := by omega
            subst this
            exact hm2.2
        · intro hm
          exact c6 (by simp [hm])
    · simp only [scanJm, if_neg h1]
      have hIJ2 : I = J := by omega
      subst hIJ2
      refine ⟨le_refl _, by omega, by intro g hg1 hg2; omega, Or.inl rfl, ?_, fun h => h⟩
      intro h
      exact ⟨h, by intro g hg1 hg2; omega⟩

theorem scanIm_spec (A : Array Pt) (T : Int) (d J : Nat) :
    ∀ (fuel : Nat) (I : Nat) (m : Bool), I < J → J ≤ I + 1 + fuel →
    I + 1 ≤ (scanIm A T d J fuel I m).1 ∧ (scanIm A T d J fuel I m).1 ≤ J ∧
    (∀ g, I < g → g < (scanIm A T d J fuel I m).1 → val A d g < T) ∧
    ((scanIm A T d J fuel I m).1 = J ∨ T ≤ val A d (scanIm A T d J fuel I m).1) ∧
    ((scanIm A T d J fuel I m).2 = false → m = false ∧
      ((scanIm A T d J fuel I m).1 < J → val A d (scanIm A T d J fuel I m).1 ≠ T)) ∧
    (m = true → (scanIm A T d J fuel I m).2 = true) := by
  intro fuel
  induction fuel with
  | zero =>
    intro I m hIJ hfu
    have : J = I + 1 := by omega
    simp only [scanIm]
    refine ⟨le_refl _, by omega, by intro g hg1 hg2; omega, Or.inl this.symm, ?_, fun h => h⟩
    intro h
    exact ⟨h, fun hc => absurd hc (by omega)⟩
  | succ fuel ih =>
    intro I m hIJ hfu
    by_cases h1 : I + 1 < J
    · by_cases h2 : T ≤ val A d (I + 1)
      · simp only [scanIm, if_pos h1, if_pos h2]
        refine ⟨le_refl _, by omega, by intro g hg1 hg2; omega, Or.inr h2, ?_,
          fun h => by simp [h]⟩
        intro hfalse
        simp only [Bool.or_eq_false_iff] at hfalse
        refine ⟨hfalse.1, fun _ => ?_⟩
        simpa using hfalse.2
      · simp only [scanIm, if_pos h1, if_neg h2]
        obtain ⟨c1, c2, c3, c4, c5, c6⟩ := ih (I + 1) m h1 (by omega)
        refine ⟨by omega, c2, ?_, c4, c5, c6⟩
        intro g hg1 hg2
        by_cases hgI : g = I + 1
        · subst hgI; omega
        · exact c3 g (by omega) hg2
    · simp only [scanIm, if_neg h1]
      have : J = I + 1 := by omega
      refine ⟨le_refl _, by omega, by intro g hg1 hg2; omega, Or.inl this.symm, ?_, fun h => h⟩
      intro h
      exact ⟨h, fun hc => absurd hc (by omega)⟩

/-! ## The duplicate-clustering pass -/

theorem scanNeq_spec (A : Array Pt) (T : Int) (d J : Nat) :
    ∀ (fuel i : Nat), i ≤ J → J ≤ i + fuel →
    i ≤ scanNeq A T d J fuel i ∧ scanNeq A T d J fuel i ≤ J ∧
    (∀ g, i ≤ g → g < scanNeq A T d J fuel i → val A d g = T) ∧
    (scanNeq A T d J fuel i < J → val A d (scanNeq A T d J fuel i) ≠ T) := by
  intro fuel
  induction fuel with
  | zero =>
    intro i h1 h2
    have : i = J := by omega
    simp only [scanNeq]
    exact ⟨le_refl _, h1, by intro g hg1 hg2; omega, by omega⟩
  | succ fuel ih =>
    intro i h1 h2
    by_cases hiJ : i < J
    · by_cases hv : val A d i ≠ T
      · simp only [scanNeq, if_pos hiJ, if_pos hv]
        exact ⟨le_refl _, h1, by intro g hg1 hg2; omega, fun _ => hv⟩
      · simp only [scanNeq, if_pos hiJ, if_neg hv]
        push_neg at hv
        obtain ⟨c1, c2, c3, c4⟩ := ih (i + 1) (by omega) (by omega)
        refine ⟨by omega, c2, ?_, c4⟩
        intro g hg1 hg2
        rcases Nat.eq_or_lt_of_le hg1 with h | h
        · subst h; exact hv
        · exact c3 g h hg2
    · simp only [scanNeq, if_neg hiJ]
      exact ⟨le_refl _, h1, by intro g hg1 hg2; omega, by omega⟩

theorem scanEqDown_spec (A : Array Pt) (T : Int) (d I : Nat) :
    ∀ (J : Nat), I < J →
    I ≤ scanEqDown A T d I J ∧ scanEqDown A T d I J + 1 ≤ J ∧
    (∀ g, scanEqDown A T d I J < g → g < J → val A d g ≠ T) ∧
    (scanEqDown A T d I J = I ∨ val A d (scanEqDown A T d I J) = T) := by
  intro J
  induction J with
  | zero => intro h; omega
  | succ J ih =>
    intro hIJ
    by_cases h1 : I < J
    · by_cases h2 : val A d J = T
      · simp only [scanEqDown, if_pos h1, if_pos h2]
        exact ⟨by omega, by omega, by intro g hg1 hg2; omega, Or.inr h2⟩
      · simp only [scanEqDown, if_pos h1, if_neg h2]
        obtain ⟨c1, c2, c3, c4⟩ := ih h1
        refine ⟨c1, by omega, ?_, c4⟩
        intro g hg1 hg2
        rcases Nat.lt_or_ge g J with h | h
        · exact c3 g hg1 h
        · have : g = J := by omega
          subst this; exact h2
    · simp only [scanEqDown, if_neg h1]
      have : I = J := by omega
      subst this
      exact ⟨le_refl _, by omega, by intro g hg1 hg2; omega, Or.inl rfl⟩

theorem clusterLoop_spec (T : Int) (d : Nat) :
    ∀ (fuel : Nat) (A : Array Pt) (start J : Nat),
    start ≤ J → J < fuel + start → J ≤ A.size →
    start ≤ (clusterLoop T d fuel A start J).2 ∧
    (clusterLoop T d fuel A start J).2 ≤ J ∧
    (clusterLoop T d fuel A start J).1.size = A.size ∧
    (∀ g, g < start ∨ J ≤ g →
      get (clusterLoop T d fuel A start J).1 g = get A g) ∧
    permWithin start (J - 1) A (clusterLoop T d fuel A start J).1 ∧
    ((∀ g, start ≤ g → g < J → T ≤ val A d g) →
      (∀ g, start ≤ g → g < (clusterLoop T d fuel A start J).2 →
        val (clusterLoop T d fuel A start J).1 d g = T) ∧
      (∀ g, (clusterLoop T d fuel A start J).2 ≤ g → g < J →
        T < val (clusterLoop T d fuel A start J).1 d g)) := by
  intro fuel
  induction fuel with
  | zero => intro A start J h1 h2; omega
  | succ fuel ih =>
    intro A start J h1 h2 hsz
    simp only [clusterLoop, if_pos h1]
    obtain ⟨n1, n2, n3, n4⟩ := scanNeq_spec A T d J (J - start) start h1 (by omega)
    set I1 := scanNeq A T d J (J - start) start with hI1
    by_cases hI1J : I1 = J
    · rw [if_pos hI1J]
      dsimp only
      refine ⟨by omega, by omega, rfl, fun g hg => rfl, permWithin_refl _ _ _, ?_⟩
      intro hge
      refine ⟨fun g hg1 hg2 => n3 g hg1 (by omega), fun g hg1 hg2 => ?_⟩
      omega
    · rw [if_neg hI1J]
      have hI1J2 : I1 < J := by omega
      obtain ⟨e1, e2, e3, e4⟩ := scanEqDown_spec A T d I1 J hI1J2
      set J1 := scanEqDown A T d I1 J with hJ1
      by_cases hswap : I1 < J1
      · rw [if_pos hswap]
        have hI1sz : I1 < A.size := by omega
        have hJ1sz : J1 < A.size := by omega
        have hszA1 : (swp A I1 J1).size = A.size := size_swp A I1 J1
        obtain ⟨r1, r2, r3, r4, r5, r6⟩ :=
          ih (swp A I1 J1) (I1 + 1) J1 (by omega) (by omega) (by omega)
        set A1 := swp A I1 J1 with hA1
        set rr := clusterLoop T d fuel A1 (I1 + 1) J1 with hrr
        have houts : ∀ g, g < start ∨ J ≤ g → get rr.1 g = get A g := by
          intro g hg
          have h1g : get rr.1 g = get A1 g := r4 g (by omega)
          rw [h1g, hA1]
          exact get_swp_ne g (by omega) (by omega)
        refine ⟨by omega, by omega, by rw [r3, hszA1], houts, ?_, ?_⟩
        · -- permutation within [start, J-1]
          have p1 : permWithin start (J - 1) A A1 :=
            permWithin_swp A hI1sz hJ1sz (by omega) (by omega) (by omega) (by omega)
          have p2 : permWithin start (J - 1) A1 rr.1 :=
            permWithin_mono r5 (by omega) (by omega) (by omega)
          exact permWithin_trans p1 p2
        · intro hge
          have hJ1T : val A d J1 = T := by
            rcases e4 with h | h
            · omega
            · exact h
          have hgeA1 : ∀ g, I1 + 1 ≤ g → g < J1 → T ≤ val A1 d g := by
            intro g hg1 hg2
            rw [hA1, val_swp_ne d g (by omega) (by omega)]
            exact hge g (by omega) (by omega)
          obtain ⟨q1, q2⟩ := r6 hgeA1
          constructor
          · intro g hg1 hg2
            rcases Nat.lt_or_ge g I1 with hc | hc
            · have hgv : get rr.1 g = get A g := by
                have h1g : get rr.1 g = get A1 g := r4 g (by omega)
                rw [h1g, hA1]
                exact get_swp_ne g (by omega) (by omega)
              rw [val_eq_of_get_eq d hgv]
              exact n3 g hg1 hc
            · rcases Nat.eq_or_lt_of_le hc with hc2 | hc2
              · have hgv : get rr.1 g = get A J1 := by
                  have h1g : get rr.1 g = get A1 g := r4 g (by omega)
                  rw [h1g, hA1, ← hc2]
                  exact get_swp_left hI1sz hJ1sz
                rw [val_eq_of_get_eq d hgv]
                exact hJ1T
              · exact q1 g (by omega) hg2
          · intro g hg1 hg2
            rcases Nat.lt_or_ge g J1 with hc | hc
            · exact q2 g hg1 hc
            · rcases Nat.eq_or_lt_of_le hc with hc2 | hc2
              · have hgv : get rr.1 g = get A I1 := by
                  have h1g : get rr.1 g = get A1 g := r4 g (by omega)
                  rw [h1g, hA1, ← hc2]
                  exact get_swp_right hI1sz hJ1sz
                rw [val_eq_of_get_eq d hgv]
                have hne := n4 hI1J2
                have hge1 := hge I1 n1 (by omega)
                omega
              · have hgv : get rr.1 g = get A g := by
                  have h1g : get rr.1 g = get A1 g := r4 g (by omega)
                  rw [h1g, hA1]
                  exact get_swp_ne g (by omega) (by omega)
                rw [val_eq_of_get_eq d hgv]
                have hne := e3 g hc2 hg2
                have hge1 := hge g (by omega) hg2
                omega
      · rw [if_neg hswap]
        dsimp only
        have hJ1I1 : J1 = I1 := by omega
        refine ⟨n1, by omega, rfl, fun g hg => rfl, permWithin_refl _ _ _, ?_⟩
        intro hge
        refine ⟨fun g hg1 hg2 => n3 g hg1 (by omega), ?_⟩
        intro g hg1 hg2
        rcases Nat.eq_or_lt_of_le hg1 with h | h
        · subst h
          have hne := n4 hI1J2
          have hge1 := hge I1 n1 hI1J2
          omega
        · have hne := e3 g (by omega) hg2
          have hge1 := hge g (by omega) hg2
          omega

/-! ## The main loop of `PartitionAboutMyValue` -/

/-- Invariant lemma for `pamvLoop`.  The entry state is either the very
first iteration (`I = L`, `J = R`, where the value at `J` may equal `T`
and positions `L`/`R` hold the pivot) or an inner iteration.  At exit
the loop has always `I = J =: e`; `[L+1, e)` is strictly below `T`,
`(e, R]` is at least `T`, the bottom value sits at `L` or at `e = L`,
the pivot is at `L` or at `R`, and if `manyTValues` is still false the
whole of `[L, R]` holds at most one value equal to `T`. -/
theorem pamvLoop_spec (T : Int) (d L R : Nat) :
    ∀ (fuel : Nat) (A : Array Pt) (I J : Nat) (m : Bool),
    R < A.size → J - I ≤ fuel → L ≤ I → I < J → J ≤ R →
    ((I = L ∧ J = R ∧ (m = false → ¬(val A d L = T ∧ val A d R = T))) ∨
      (L + 1 ≤ I ∧ J + 1 ≤ R ∧ val A d J < T ∧ val A d L ≤ T ∧
        (m = false → val A d I ≠ T))) →
    T ≤ val A d I → val A d J ≤ T →
    (∀ g, L + 1 ≤ g → g < I → val A d g < T) →
    (∀ g, J < g → g ≤ R → T ≤ val A d g) →
    (val A d L = T ∨ val A d R = T) →
    (m = false → ∀ g h, g ≠ h →
      ((L ≤ g ∧ g ≤ I) ∨ (J < g ∧ g ≤ R)) →
      ((L ≤ h ∧ h ≤ I) ∨ (J < h ∧ h ≤ R)) →
      val A d g = T → val A d h = T → False) →
    ∃ B e m2, pamvLoop T d L fuel A I J m = (B, e, e, m2) ∧
      B.size = A.size ∧
      (∀ g, g < I ∨ J < g → get B g = get A g) ∧
      permWithin I J A B ∧
      I ≤ e ∧ e < J ∧
      (∀ g, L + 1 ≤ g → g < e → val B d g < T) ∧
      (val B d e < T ∨ e = L) ∧
      val B d e ≤ T ∧
      (∀ g, e < g → g ≤ R → T ≤ val B d g) ∧
      val B d L ≤ T ∧
      (val B d L = T ∨ val B d R = T) ∧
      (m2 = false → ∀ g h, g ≠ h → L ≤ g → g ≤ R → L ≤ h → h ≤ R →
        val B d g = T → val B d h = T → False) ∧
      (m = true → m2 = true) := by
  intro fuel
  induction fuel with
  | zero => intro A I J m hsz hfu hLI hIJ hJR; omega
  | succ fuel ih =>
    intro A I J m hsz hfu hLI hIJ hJR hshape hvI hvJ hleft hright hpiv hone
    have hIsz : I < A.size := by omega
    have hJsz : J < A.size := by omega
    simp only [pamvLoop]
    rw [if_pos hIJ]
    have hszA1 : (swp A I J).size = A.size := size_swp A I J
    have hvA1I : val (swp A I J) d I = val A d J := val_swp_left d hIsz hJsz
    have hvA1J : val (swp A I J) d J = val A d I := val_swp_right d hIsz hJsz
    have hvA1ne : ∀ g, g ≠ I → g ≠ J → val (swp A I J) d g = val A d g :=
      fun g h1 h2 => val_swp_ne d g h1 h2
    have hgA1ne : ∀ g, g ≠ I → g ≠ J → get (swp A I J) g = get A g :=
      fun g h1 h2 => get_swp_ne g h1 h2
    obtain ⟨jm1, jm2, jm3, jm4, jm5, jm6⟩ :=
      scanJm_spec (swp A I J) T d L I hLI J m hIJ
    set A1 := swp A I J with hA1
    set JM := scanJm A1 T d L I J m with hJMdef
    have hvA1L : val A1 d L ≤ T := by
      rcases hshape with ⟨hIL, hJR2, hx⟩ | ⟨hLI2, hJR2, hJlt, hvL, hx⟩
      · rw [← hIL, hvA1I]; exact hvJ
      · rw [hvA1ne L (by omega) (by omega)]; exact hvL
    have hpivA1 : val A1 d L = T ∨ val A1 d R = T := by
      rcases hshape with ⟨hIL, hJR2, hx⟩ | ⟨hLI2, hJR2, hx⟩
      · rcases hpiv with h | h
        · right; rw [← hJR2, hvA1J, hIL]; exact h
        · left; rw [← hIL, hvA1I, hJR2]; exact h
      · rw [hvA1ne L (by omega) (by omega), hvA1ne R (by omega) (by omega)]
        exact hpiv
    by_cases hIJM : I = JM.1
    · rw [if_pos hIJM]
      refine ⟨A1, I, JM.2, by rw [← hIJM], hszA1, ?_, ?_, le_refl _, hIJ, ?_, ?_, ?_, ?_,
        hvA1L, hpivA1, ?_, jm6⟩
      · intro g hg
        exact hgA1ne g (by omega) (by omega)
      · exact permWithin_swp A hIsz hJsz (le_refl _) (by omega) (by omega) (le_refl _)
      · intro g hg1 hg2
        rw [hvA1ne g (by omega) (by omega)]
        exact hleft g hg1 hg2
      · rcases hshape with ⟨hIL, hx1, hx2⟩ | ⟨hx1, hx2, hJlt, hx3, hx4⟩
        · right; exact hIL
        · left; rw [hvA1I]; exact hJlt
      · rw [hvA1I]; exact hvJ
      · intro g hg1 hg2
        rcases Nat.lt_or_ge g J with h | h
        · exact jm3 g (by omega) h
        · rcases Nat.eq_or_lt_of_le h with h2 | h2
          · rw [← h2, hvA1J]; exact hvI
          · rw [hvA1ne g (by omega) (by omega)]
            exact hright g h2 hg2
      · intro hm2 g h hgh hg1 hg2 hh1 hh2 hgT hhT
        obtain ⟨hm, hreg⟩ := jm5 hm2
        have hclass : ∀ x, L ≤ x → x ≤ R → val A1 d x = T →
            (((L ≤ x ∧ x ≤ I) ∨ (J < x ∧ x ≤ R)) ∧ val A d x = T ∧ x ≠ I ∧ x ≠ J) ∨
            (x = I ∧ val A d J = T) ∨ (x = J ∧ val A d I = T) := by
          intro x hx1 hx2 hxT
          by_cases hxI : x = I
          · right; left
            refine ⟨hxI, ?_⟩
            rw [← hvA1I, ← hxI]; exact hxT
          · by_cases hxJ : x = J
            · right; right
              refine ⟨hxJ, ?_⟩
              rw [← hvA1J, ← hxJ]; exact hxT
            · left
              have hv : val A d x = T := by rw [← hvA1ne x hxI hxJ]; exact hxT
              refine ⟨?_, hv, hxI, hxJ⟩
              by_cases hmid : I < x ∧ x < J
              · exact absurd hxT (hreg x (by omega) (by omega))
              · rcases Nat.lt_or_ge x J with hc | hc
                · left; exact ⟨hx1, by omega⟩
                · right; exact ⟨by omega, hx2⟩
        rcases hshape with ⟨hIL, hJR2, hnot⟩ | ⟨hLI2, hJR2, hJlt, hvL, hmI⟩
        · rcases hclass g hg1 hg2 hgT with ⟨hsg, hvg, hgI2, hgJ2⟩ | ⟨hgI2, hvg⟩ | ⟨hgJ2, hvg⟩ <;>
            rcases hclass h hh1 hh2 hhT with ⟨hsh, hvh, hhI2, hhJ2⟩ | ⟨hhI2, hvh⟩ | ⟨hhJ2, hvh⟩
          · exact hone hm g h hgh hsg hsh hvg hvh
          · rcases hsg with hsg | hsg <;> omega
          · rcases hsg with hsg | hsg <;> omega
          · rcases hsh with hsh | hsh <;> omega
          · omega
          · exact hnot hm ⟨by rwa [hIL] at hvh, by rwa [hJR2] at hvg⟩
          · rcases hsh with hsh | hsh <;> omega
          · exact hnot hm ⟨by rwa [hIL] at hvg, by rwa [hJR2] at hvh⟩
          · omega
        · rcases hclass g hg1 hg2 hgT with ⟨hsg, hvg, hgI2, hgJ2⟩ | ⟨hgI2, hvg⟩ | ⟨hgJ2, hvg⟩
          · rcases hclass h hh1 hh2 hhT with ⟨hsh, hvh, hhI2, hhJ2⟩ | ⟨hhI2, hvh⟩ | ⟨hhJ2, hvh⟩
            · exact hone hm g h hgh hsg hsh hvg hvh
            · exact absurd hvh (by omega)
            · exact hmI hm hvh
          · exact absurd hvg (by omega)
          · exact hmI hm hvg
    · rw [if_neg hIJM]
      have hIJM2 : I < JM.1 := by omega
      obtain ⟨im1, im2, im3, im4, im5, im6⟩ :=
        scanIm_spec A1 T d JM.1 (JM.1 - I) I JM.2 hIJM2 (by omega)
      set IM := scanIm A1 T d JM.1 (JM.1 - I) I JM.2 with hIMdef
      have hvJM : val A1 d JM.1 < T := by
        rcases jm4 with h | h
        · omega
        · exact h
      have hleftA1 : ∀ g, L + 1 ≤ g → g < IM.1 → val A1 d g < T := by
        intro g hg1 hg2
        rcases Nat.lt_or_ge g I with h | h
        · rw [hvA1ne g (by omega) (by omega)]
          exact hleft g hg1 h
        · rcases Nat.eq_or_lt_of_le h with h2 | h2
          · rw [← h2, hvA1I]
            rcases hshape with ⟨hIL, hx1, hx2⟩ | ⟨hx1, hx2, hJlt, hx3, hx4⟩
            · omega
            · exact hJlt
          · exact im3 g h2 hg2
      have hclass2 : JM.2 = false → ∀ x, L ≤ x → x ≤ R → ¬(IM.1 < x ∧ x < JM.1) →
          val A1 d x = T →
          (((L ≤ x ∧ x ≤ I) ∨ (J < x ∧ x ≤ R)) ∧ val A d x = T ∧ x ≠ I ∧ x ≠ J) ∨
          (x = I ∧ val A d J = T) ∨ (x = J ∧ val A d I = T) ∨
          (x = IM.1 ∧ IM.1 < JM.1) := by
        intro hJM2f x hx1 hx2 hxmid hxT
        obtain ⟨hm, hreg⟩ := jm5 hJM2f
        by_cases hxI : x = I
        · right; left
          refine ⟨hxI, ?_⟩
          rw [← hvA1I, ← hxI]; exact hxT
        · by_cases hxJ : x = J
          · right; right; left
            refine ⟨hxJ, ?_⟩
            rw [← hvA1J, ← hxJ]; exact hxT
          · by_cases hxIM : x = IM.1 ∧ IM.1 < JM.1
            · right; right; right; exact hxIM
            · left
              have hv : val A d x = T := by rw [← hvA1ne x hxI hxJ]; exact hxT
              refine ⟨?_, hv, hxI, hxJ⟩
              by_cases hmid : I < x ∧ x < J
              · exfalso
                rcases Nat.lt_or_ge x IM.1 with hc | hc
                · have := im3 x (by omega) hc
                  omega
                · rcases Nat.eq_or_lt_of_le hc with hc2 | hc2
                  · -- IM.1 = x but not (x = IM.1 ∧ IM.1 < JM.1): so IM.1 = JM.1
                    have hxeq : x = JM.1 := by omega
                    rw [hxeq] at hxT
                    omega
                  · -- IM.1 < x, and the caller rules out x < JM.1
                    rcases Nat.eq_or_lt_of_le (show JM.1 ≤ x by omega) with hc4 | hc4
                    · rw [← hc4] at hxT
                      omega
                    · exact hreg x hc4 (by omega) hxT
              · rcases Nat.lt_or_ge x J with hc | hc
                · left; exact ⟨hx1, by omega⟩
                · right; exact ⟨by omega, hx2⟩
      by_cases hIMJM : IM.1 = JM.1
      · have hloopexit : pamvLoop T d L fuel A1 IM.1 JM.1 IM.2 =
            (A1, IM.1, JM.1, IM.2) := by
          cases fuel with
          | zero => rfl
          | succ fuel2 =>
            simp only [pamvLoop]
            rw [hIMJM, if_neg (lt_irrefl JM.1)]
        rw [hloopexit]
        refine ⟨A1, IM.1, IM.2, by rw [hIMJM], hszA1, ?_, ?_, by omega, by omega,
          ?_, ?_, ?_, ?_, hvA1L, hpivA1, ?_, fun hm => im6 (jm6 hm)⟩
        · intro g hg
          exact hgA1ne g (by omega) (by omega)
        · exact permWithin_swp A hIsz hJsz (le_refl _) (by omega) (by omega) (le_refl _)
        · exact hleftA1
        · left; rw [hIMJM]; exact hvJM
        · rw [hIMJM]; omega
        · intro g hg1 hg2
          rcases Nat.lt_or_ge g J with h | h
          · refine jm3 g ?_ h
            omega
          · rcases Nat.eq_or_lt_of_le h with h2 | h2
            · rw [← h2, hvA1J]; exact hvI
            · rw [hvA1ne g (by omega) (by omega)]
              exact hright g h2 hg2
        · intro hm2 g h hgh hg1 hg2 hh1 hh2 hgT hhT
          have hJM2f : JM.2 = false := (im5 hm2).1
          have hm : m = false := (jm5 hJM2f).1
          rcases hshape with ⟨hIL, hJR2, hnot⟩ | ⟨hLI2, hJR2, hJlt, hvL, hmI⟩ <;>
            rcases hclass2 hJM2f g hg1 hg2 (by omega) hgT
              with ⟨hsg, hvg, hgI2, hgJ2⟩ | ⟨hgI2, hvg⟩ | ⟨hgJ2, hvg⟩ | ⟨hx1, hx2⟩ <;>
            rcases hclass2 hJM2f h hh1 hh2 (by omega) hhT
              with ⟨hsh, hvh, hhI2, hhJ2⟩ | ⟨hhI2, hvh⟩ | ⟨hhJ2, hvh⟩ | ⟨hy1, hy2⟩
          all_goals first
            | exact hone hm g h hgh hsg hsh hvg hvh
            | exact hnot hm ⟨by rw [← hIL]; exact hvh, by rw [← hJR2]; exact hvg⟩
            | exact hnot hm ⟨by rw [← hIL]; exact hvg, by rw [← hJR2]; exact hvh⟩
            | exact hmI hm hvh
            | exact hmI hm hvg
            | omega
      · have hIMJM2 : IM.1 < JM.1 := by omega
        have hvIM : T ≤ val A1 d IM.1 := by
          rcases im4 with h | h
          · omega
          · exact h
        have himne : IM.2 = false → val A1 d IM.1 ≠ T :=
          fun hm2 => (im5 hm2).2 hIMJM2
        have hrightA1 : ∀ g, JM.1 < g → g ≤ R → T ≤ val A1 d g := by
          intro g hg1 hg2
          rcases Nat.lt_or_ge g J with h | h
          · exact jm3 g hg1 h
          · rcases Nat.eq_or_lt_of_le h with h2 | h2
            · rw [← h2, hvA1J]; exact hvI
            · rw [hvA1ne g (by omega) (by omega)]
              exact hright g h2 hg2
        have honeA1 : IM.2 = false → ∀ g h, g ≠ h →
            ((L ≤ g ∧ g ≤ IM.1) ∨ (JM.1 < g ∧ g ≤ R)) →
            ((L ≤ h ∧ h ≤ IM.1) ∨ (JM.1 < h ∧ h ≤ R)) →
            val A1 d g = T → val A1 d h = T → False := by
          intro hm2 g h hgh hsg hsh hgT hhT
          have hJM2f : JM.2 = false := (im5 hm2).1
          have hm : m = false := (jm5 hJM2f).1
          have himne2 : val A1 d IM.1 ≠ T := himne hm2
          have hgb : L ≤ g ∧ g ≤ R := by rcases hsg with hsg | hsg <;>
            exact ⟨by omega, by omega⟩
          have hhb : L ≤ h ∧ h ≤ R := by rcases hsh with hsh | hsh <;>
            exact ⟨by omega, by omega⟩
          rcases hshape with ⟨hIL, hJR2, hnot⟩ | ⟨hLI2, hJR2, hJlt, hvL, hmI⟩ <;>
            rcases hclass2 hJM2f g hgb.1 hgb.2 (by rcases hsg with hsg | hsg <;> omega) hgT
              with ⟨hpg, hvg, hgI2, hgJ2⟩ | ⟨hgI2, hvg⟩ | ⟨hgJ2, hvg⟩ | ⟨hx1, hx2⟩ <;>
            rcases hclass2 hJM2f h hhb.1 hhb.2 (by rcases hsh with hsh | hsh <;> omega) hhT
              with ⟨hph, hvh, hhI2, hhJ2⟩ | ⟨hhI2, hvh⟩ | ⟨hhJ2, hvh⟩ | ⟨hy1, hy2⟩
          all_goals first
            | exact hone hm g h hgh hpg hph hvg hvh
            | exact hnot hm ⟨by rw [← hIL]; exact hvh, by rw [← hJR2]; exact hvg⟩
            | exact hnot hm ⟨by rw [← hIL]; exact hvg, by rw [← hJR2]; exact hvh⟩
            | exact hmI hm hvh
            | exact hmI hm hvg
            | exact himne2 (by rw [← hx1]; exact hgT)
            | exact himne2 (by rw [← hy1]; exact hhT)
            | omega
        obtain ⟨B, e, m2, hres, hBsz, hBout, hBperm, he1, he2, hbleft, hbval, hbval2,
            hbright, hbL, hbpiv, hbone, hbmono⟩ :=
          ih A1 IM.1 JM.1 IM.2 (by omega) (by omega) (by omega) hIMJM2 (by omega)
            (Or.inr ⟨by omega, by omega, hvJM, hvA1L, fun hm2 => himne hm2⟩)
            hvIM (le_of_lt hvJM) hleftA1 hrightA1 hpivA1 honeA1
        rw [hres]
        refine ⟨B, e, m2, rfl, by rw [hBsz, hszA1], ?_, ?_, by omega, by omega,
          hbleft, hbval, hbval2, hbright, hbL, hbpiv, hbone,
          fun hm => hbmono (im6 (jm6 hm))⟩
        · intro g hg
          rw [hBout g (by omega)]
          exact hgA1ne g (by omega) (by omega)
        · have p1 : permWithin I J A A1 :=
            permWithin_swp A hIsz hJsz (le_refl _) (by omega) (by omega) (le_refl _)
          have p2 : permWithin I J A1 B :=
            permWithin_mono hBperm (by omega) (by omega) (by omega)
          exact permWithin_trans p1 p2

/-! ## `PartitionAboutMyValue`: top-level specification -/

/-- The final clustering-or-not step shared by the end of
`PartitionAboutMyValue`: given the state after the final exchange
(lines 1760-1776) — `[L, v0)` strictly below `T`, the value at `v0`
equal to `T`, `(v0, R]` at least `T`, and, when `manyTValues` is false,
`(v0, R]` strictly above `T` — the returned pair bounds the equal run. -/
theorem pamv_tail_spec (T : Int) (d L R : Nat) (A C0 : Array Pt) (v0 : Nat) (m2 : Bool)
    (hsz : R < C0.size)
    (hperm : permWithin L R A C0)
    (hLv : L ≤ v0) (hvR : v0 ≤ R)
    (hleft : ∀ g, L ≤ g → g < v0 → val C0 d g < T)
    (hv0 : val C0 d v0 = T)
    (hright : ∀ g, v0 < g → g ≤ R → T ≤ val C0 d g)
    (hgt : m2 = false → ∀ g, v0 < g → g ≤ R → T < val C0 d g) :
    ∃ C I J,
      (if m2 = true then
        ((clusterLoop T d (R + 2) C0 (v0 + 1) (R + 1)).1, v0,
          (clusterLoop T d (R + 2) C0 (v0 + 1) (R + 1)).2)
       else (C0, v0, v0 + 1)) = (C, I, J) ∧
      ThreeWay A C L R I J T d ∧ I < J := by
  cases m2 with
  | false =>
    rw [if_neg (by simp)]
    refine ⟨C0, v0, v0 + 1, rfl, ⟨hperm, hLv, by omega, by omega, hleft, ?_, ?_⟩, by omega⟩
    · intro g hg1 hg2
      have : g = v0 := by omega
      rw [this]; exact hv0
    · intro g hg1 hg2
      exact hgt rfl g (by omega) hg2
  | true =>
    rw [if_pos rfl]
    obtain ⟨c1, c2, c3, c4, c5, c6⟩ :=
      clusterLoop_spec T d (R + 2) C0 (v0 + 1) (R + 1) (by omega) (by omega) (by omega)
    set cl := clusterLoop T d (R + 2) C0 (v0 + 1) (R + 1) with hcl
    obtain ⟨q1, q2⟩ := c6 (fun g hg1 hg2 => hright g (by omega) (by omega))
    refine ⟨cl.1, v0, cl.2, rfl, ⟨?_, hLv, by omega, by omega, ?_, ?_, ?_⟩, by omega⟩
    · have p2 : permWithin L R C0 cl.1 := by
        have : permWithin (v0 + 1) (R + 1 - 1) C0 cl.1 := c5
        exact permWithin_mono this (by omega) (by omega) (by omega)
      exact permWithin_trans hperm p2
    · intro g hg1 hg2
      rw [val_eq_of_get_eq d (c4 g (by omega))]
      exact hleft g hg1 hg2
    · intro g hg1 hg2
      rcases Nat.eq_or_lt_of_le hg1 with h | h
      · rw [← h, val_eq_of_get_eq d (c4 v0 (by omega))]
        exact hv0
      · exact q1 g (by omega) hg2
    · intro g hg1 hg2
      exact q2 g hg1 (by omega)

/-- The final exchange of `PartitionAboutMyValue` (lines 1760-1776):
from the loop exit state, the branch on whether the value at `L` equals
`T` places one pivot copy at the start of the `≥ T` region. -/
theorem pamv_fix_spec (T : Int) (d L R : Nat) (A B : Array Pt) (e : Nat) (m2 : Bool)
    (hsz : R < B.size)
    (hperm : permWithin L R A B)
    (hLe : L ≤ e) (heR : e < R)
    (hleft : ∀ g, L + 1 ≤ g → g < e → val B d g < T)
    (hvale : val B d e < T ∨ e = L)
    (hvaleLe : val B d e ≤ T)
    (hright : ∀ g, e < g → g ≤ R → T ≤ val B d g)
    (hvL : val B d L ≤ T)
    (hpiv : val B d L = T ∨ val B d R = T)
    (hone : m2 = false → ∀ g h, g ≠ h → L ≤ g → g ≤ R → L ≤ h → h ≤ R →
      val B d g = T → val B d h = T → False) :
    R < (if val B d L = T then (swp B L e, e) else (swp B (e + 1) R, e + 1)).1.size ∧
    permWithin L R A (if val B d L = T then (swp B L e, e) else (swp B (e + 1) R, e + 1)).1 ∧
    L ≤ (if val B d L = T then (swp B L e, e) else (swp B (e + 1) R, e + 1)).2 ∧
    (if val B d L = T then (swp B L e, e) else (swp B (e + 1) R, e + 1)).2 ≤ R ∧
    (∀ g, L ≤ g → g < (if val B d L = T then (swp B L e, e) else (swp B (e + 1) R, e + 1)).2 →
      val (if val B d L = T then (swp B L e, e) else (swp B (e + 1) R, e + 1)).1 d g < T) ∧
    val (if val B d L = T then (swp B L e, e) else (swp B (e + 1) R, e + 1)).1 d
      (if val B d L = T then (swp B L e, e) else (swp B (e + 1) R, e + 1)).2 = T ∧
    (∀ g, (if val B d L = T then (swp B L e, e) else (swp B (e + 1) R, e + 1)).2 < g → g ≤ R →
      T ≤ val (if val B d L = T then (swp B L e, e) else (swp B (e + 1) R, e + 1)).1 d g) ∧
    (m2 = false → ∀ g,
      (if val B d L = T then (swp B L e, e) else (swp B (e + 1) R, e + 1)).2 < g → g ≤ R →
      T < val (if val B d L = T then (swp B L e, e) else (swp B (e + 1) R, e + 1)).1 d g) := by
  have hLsz : L < B.size := by omega
  have hesz : e < B.size := by omega
  have he1sz : e + 1 < B.size := by omega
  by_cases hBL : val B d L = T
  · rw [if_pos hBL]
    have hC0L : ∀ g, g ≠ L → g ≠ e → val (swp B L e) d g = val B d g :=
      fun g h1 h2 => val_swp_ne d g h1 h2
    refine ⟨by rw [size_swp]; exact hsz, ?_, hLe, by omega, ?_, ?_, ?_, ?_⟩
    · exact permWithin_trans hperm
        (permWithin_swp B hLsz hesz (le_refl _) (by omega) hLe (by omega))
    · intro g hg1 hg2
      rcases Nat.eq_or_lt_of_le hg1 with h | h
      · rw [← h, val_swp_left d hLsz hesz]
        rcases hvale with hv | hv
        · exact hv
        · omega
      · rw [hC0L g (by omega) (by omega)]
        exact hleft g (by omega) hg2
    · rw [val_swp_right d hLsz hesz]
      exact hBL
    · intro g hg1 hg2
      rw [hC0L g (by omega) (by omega)]
      exact hright g hg1 hg2
    · intro hm g hg1 hg2
      rw [hC0L g (by omega) (by omega)]
      have hge := hright g hg1 hg2
      have hne : val B d g ≠ T := by
        intro hv
        exact hone hm g L (by omega) (by omega) hg2 (le_refl _) (by omega) hv hBL
      omega
  · rw [if_neg hBL]
    have hBR : val B d R = T := by
      rcases hpiv with h | h
      · exact absurd h hBL
      · exact h
    have hBLlt : val B d L < T := by omega
    have hRsz : R < B.size := hsz
    have hC0L : ∀ g, g ≠ e + 1 → g ≠ R → val (swp B (e + 1) R) d g = val B d g :=
      fun g h1 h2 => val_swp_ne d g h1 h2
    refine ⟨by rw [size_swp]; exact hsz, ?_, by omega, by omega, ?_, ?_, ?_, ?_⟩
    · exact permWithin_trans hperm
        (permWithin_swp B he1sz hRsz (by omega) (by omega) (by omega) (le_refl _))
    · intro g hg1 hg2
      rw [hC0L g (by omega) (by omega)]
      rcases Nat.eq_or_lt_of_le hg1 with h | h
      · rw [← h]; exact hBLlt
      · by_cases hge : g = e
        · rw [hge]
          rcases hvale with hv | hv
          · exact hv
          · rw [hv]; exact hBLlt
        · exact hleft g (by omega) (by omega)
    · rw [val_swp_left d he1sz hRsz]
      exact hBR
    · intro g hg1 hg2
      rcases Nat.eq_or_lt_of_le hg2 with h | h
      · rw [h, val_swp_right d he1sz hRsz]
        exact hright (e + 1) (by omega) (by omega)
      · rw [hC0L g (by omega) (by omega)]
        exact hright g (by omega) (by omega)
    · intro hm g hg1 hg2
      have hone2 := hone hm
      rcases Nat.eq_or_lt_of_le hg2 with h | h
      · rw [h, val_swp_right d he1sz hRsz]
        have hge := hright (e + 1) (by omega) (by omega)
        have hne : val B d (e + 1) ≠ T := by
          intro hv
          exact hone2 (e + 1) R (by omega) (by omega) (by omega) (by omega) (le_refl _) hv hBR
        omega
      · rw [hC0L g (by omega) (by omega)]
        have hge := hright g (by omega) (by omega)
        have hne : val B d g ≠ T := by
          intro hv
          exact hone2 g R (by omega) (by omega) (by omega) (by omega) (le_refl _) hv hBR
        omega

/-- `PartitionAboutMyValue` satisfies the three-way partition
postcondition with a non-empty equal-to-pivot block. -/
theorem pamv_spec (A : Array Pt) (L R K d : Nat)
    (hLK : L ≤ K) (hKR : K ≤ R) (hsz : R < A.size) :
    ∃ B I J, pamv A L R K d = (B, I, J) ∧
      ThreeWay A B L R I J (val A d K) d ∧ I < J := by
  have hKsz : K < A.size := by omega
  have hLsz : L < A.size := by omega
  rcases Nat.eq_or_lt_of_le (show L ≤ R by omega) with hLR | hLR
  · -- single-element range: L = K = R
    have hKL : K = L := by omega
    subst hKL
    rw [← hLR]
    have h1 : swp A K K = A := swp_self A K
    have hloop : pamvLoop (val A d K) d K 1 A K K true = (A, K, K, true) := by
      simp only [pamvLoop]
      rw [if_neg (lt_irrefl K)]
    have hclst : clusterLoop (val A d K) d (K + 2) A (K + 1) (K + 1) = (A, K + 1) := by
      simp [clusterLoop, scanNeq]
    refine ⟨A, K, K + 1, ?_, ⟨permWithin_refl _ _ _, le_refl _, by omega, by omega,
      ?_, ?_, ?_⟩, by omega⟩
    · simp [pamv, h1, hloop, hclst]
    · intro g hg1 hg2
      omega
    · intro g hg1 hg2
      have : g = K := by omega
      rw [this]
    · intro g hg1 hg2
      omega
  · -- general case
    set T := val A d K with hT
    have hA1L : val (swp A L K) d L = T := val_swp_left d hLsz hKsz
    have hA1sz : (swp A L K).size = A.size := size_swp A L K
    have hA1perm : permWithin L R A (swp A L K) :=
      permWithin_swp A hLsz hKsz (le_refl _) (by omega) hLK hKR
    set A1 := swp A L K with hA1def
    have hRsz1 : R < A1.size := by omega
    have hLsz1 : L < A1.size := by omega
    -- common processing once the loop entry state (A2, m0) is fixed
    have main : ∀ (A2 : Array Pt) (m0 : Bool),
        R < A2.size →
        permWithin L R A A2 →
        T ≤ val A2 d L → val A2 d R ≤ T →
        (val A2 d L = T ∨ val A2 d R = T) →
        (m0 = false → ¬(val A2 d L = T ∧ val A2 d R = T)) →
        ∃ B I J,
          (let lp := pamvLoop T d L (R - L + 1) A2 L R m0
           let fx : Array Pt × Nat :=
             if val lp.1 d L = T then (swp lp.1 L lp.2.2.1, lp.2.2.1)
             else (swp lp.1 (lp.2.2.1 + 1) R, lp.2.2.1 + 1)
           if lp.2.2.2 = true then
             ((clusterLoop T d (R + 2) fx.1 (fx.2 + 1) (R + 1)).1, fx.2,
               (clusterLoop T d (R + 2) fx.1 (fx.2 + 1) (R + 1)).2)
           else (fx.1, fx.2, fx.2 + 1)) = (B, I, J) ∧
          ThreeWay A B L R I J T d ∧ I < J := by
      intro A2 m0 hsz2 hperm2 hvL2 hvR2 hpiv2 hnot2
      obtain ⟨B, e, m2, hres, hBsz, hBout, hBperm, he1, he2, hbleft, hbval, hbval2,
          hbright, hbL, hbpiv, hbone, hbmono⟩ :=
        pamvLoop_spec T d L R (R - L + 1) A2 L R m0 hsz2 (by omega) (le_refl _) hLR
          (le_refl _) (Or.inl ⟨rfl, rfl, hnot2⟩) hvL2 hvR2
          (fun g hg1 hg2 => absurd hg1 (by omega))
          (fun g hg1 hg2 => absurd hg1 (by omega)) hpiv2
          (fun hm g h hgh hsg hsh hvg hvh => by
            have hgL : g = L := by rcases hsg with hsg | hsg <;> omega
            have hhL : h = L := by rcases hsh with hsh | hsh <;> omega
            omega)
      simp only [hres]
      have hpermAB : permWithin L R A B :=
        permWithin_trans hperm2 hBperm
      obtain ⟨f1, f2, f3, f4, f5, f6, f7, f8⟩ :=
        pamv_fix_spec T d L R A B e m2 (by omega) hpermAB (by omega) (by omega)
          hbleft hbval hbval2 hbright hbL hbpiv hbone
      exact pamv_tail_spec T d L R A _ _ m2 f1 f2 f3 f4
        (fun g hg1 hg2 => f5 g hg1 hg2) f6 f7 f8
    -- branch on the set-up of lines 1694-1712
    by_cases hcase : T ≤ val A1 d R
    · by_cases hcase2 : val A1 d R = T
      · -- the value at R already equals T: manyTValues starts true
        have hres := main A1 true hRsz1 hA1perm (by rw [hA1L]) (by omega)
          (by left; exact hA1L) (by intro h; exact absurd h (by simp))
        obtain ⟨B, I, J, hres2, hthree, hIJ⟩ := hres
        refine ⟨B, I, J, ?_, hthree, hIJ⟩
        rw [← hres2]
        simp only [pamv, ← hA1def, ← hT]
        rw [if_pos hcase, if_pos hcase2]
      · -- the value at R is strictly above T: exchange R and L
        have hgtR : T < val A1 d R := by omega
        have hA2sz : (swp A1 R L).size = A1.size := size_swp A1 R L
        have hA2L : val (swp A1 R L) d L = val A1 d R := val_swp_right d hRsz1 hLsz1
        have hA2R : val (swp A1 R L) d R = val A1 d L := val_swp_left d hRsz1 hLsz1
        have hA2perm : permWithin L R A (swp A1 R L) :=
          permWithin_trans hA1perm
            (permWithin_swp A1 hRsz1 hLsz1 (by omega) (le_refl _) (le_refl _) (by omega))
        have hres := main (swp A1 R L) false (by omega) hA2perm
          (by rw [hA2L]; omega) (by rw [hA2R, hA1L]) (by right; rw [hA2R]; exact hA1L)
          (by intro h hx; rw [hA2L] at hx; omega)
        obtain ⟨B, I, J, hres2, hthree, hIJ⟩ := hres
        refine ⟨B, I, J, ?_, hthree, hIJ⟩
        rw [← hres2]
        simp only [pamv, ← hA1def, ← hT]
        rw [if_pos hcase, if_neg hcase2]
    · -- the value at R is strictly below T
      have hltR : val A1 d R < T := by omega
      have hres := main A1 false hRsz1 hA1perm (by rw [hA1L]) (by omega)
        (by left; exact hA1L) (by intro h hx; omega)
      obtain ⟨B, I, J, hres2, hthree, hIJ⟩ := hres
      refine ⟨B, I, J, ?_, hthree, hIJ⟩
      rw [← hres2]
      simp only [pamv, ← hA1def, ← hT]
      rw [if_neg hcase]

/-! ## `PartitionAboutOtherValue`: scan lemmas -/

/-- Forward scan of the main loop (lines 1582-1593): stops at the first
value `≥ T`, counting a pivot hit; positions skipped are `< T`. -/
theorem scanIp_spec (A : Array Pt) (T : Int) (d J : Nat) :
    ∀ (fuel I c : Nat), I < J → J - I ≤ fuel + 1 →
    I < (scanIp A T d J fuel I c).1 ∧ (scanIp A T d J fuel I c).1 ≤ J ∧
    (∀ g, I < g → g < (scanIp A T d J fuel I c).1 → val A d g < T) ∧
    ((scanIp A T d J fuel I c).1 < J → T ≤ val A d (scanIp A T d J fuel I c).1) ∧
    c ≤ (scanIp A T d J fuel I c).2 ∧
    ((scanIp A T d J fuel I c).2 = c → (scanIp A T d J fuel I c).1 < J →
      val A d (scanIp A T d J fuel I c).1 ≠ T) := by
  intro fuel
  induction fuel with
  | zero =>
    intro I c hIJ hfuel
    simp only [scanIp]
    exact ⟨by omega, by omega, fun g hg1 hg2 => absurd hg2 (by omega),
      fun h => absurd h (by omega), le_refl c, fun _ h => absurd h (by omega)⟩
  | succ f ih =>
    intro I c hIJ hfuel
    simp only [scanIp]
    by_cases h1 : I + 1 < J
    · rw [if_pos h1]
      by_cases h2 : T ≤ val A d (I + 1)
      · rw [if_pos h2]
        refine ⟨by omega, by omega, fun g hg1 hg2 => absurd hg2 (by omega),
          fun _ => h2, ?_, ?_⟩
        · by_cases h3 : val A d (I + 1) = T
          · rw [if_pos h3]; omega
          · rw [if_neg h3]
        · intro hc _ h3
          rw [if_pos h3] at hc
          omega
      · rw [if_neg h2]
        obtain ⟨a1, a2, a3, a4, a5, a6⟩ := ih (I + 1) c h1 (by omega)
        refine ⟨by omega, a2, ?_, a4, a5, a6⟩
        intro g hg1 hg2
        by_cases hg : g = I + 1
        · rw [hg]; omega
        · exact a3 g (by omega) hg2
    · rw [if_neg h1]
      exact ⟨by omega, by omega, fun g hg1 hg2 => absurd hg2 (by omega),
        fun h => absurd h (by omega), le_refl c, fun _ h => absurd h (by omega)⟩

/-- Backward scan of the main loop (lines 1597-1608): stops above `I` at
the first value `< T`; skipped positions are `≥ T`, with pivot hits
counted, so an unchanged count means no pivot was skipped. -/
theorem scanJp_spec (A : Array Pt) (T : Int) (d I : Nat) :
    ∀ (J c : Nat), I < J →
    I ≤ (scanJp A T d I J c).1 ∧ (scanJp A T d I J c).1 < J ∧
    (∀ g, (scanJp A T d I J c).1 < g → g < J → T ≤ val A d g) ∧
    (I < (scanJp A T d I J c).1 → val A d (scanJp A T d I J c).1 < T) ∧
    c ≤ (scanJp A T d I J c).2 ∧
    ((scanJp A T d I J c).2 = c → ∀ g, (scanJp A T d I J c).1 < g → g < J →
      val A d g ≠ T) := by
  intro J
  induction J with
  | zero => intro c h; exact absurd h (Nat.not_lt_zero I)
  | succ J ih =>
    intro c hIJ
    simp only [scanJp]
    by_cases h1 : I < J
    · rw [if_pos h1]
      by_cases h2 : val A d J < T
      · rw [if_pos h2]
        exact ⟨by omega, by omega, fun g hg1 hg2 => absurd hg2 (by omega),
          fun _ => h2, le_refl c, fun _ g hg1 hg2 => absurd hg2 (by omega)⟩
      · rw [if_neg h2]
        obtain ⟨a1, a2, a3, a4, a5, a6⟩ :=
          ih (if val A d J = T then c + 1 else c) h1
        have hcc : c ≤ (if val A d J = T then c + 1 else c) := by
          split <;> omega
        refine ⟨a1, by omega, ?_, a4, by omega, ?_⟩
        · intro g hg1 hg2
          by_cases hg : g = J
          · rw [hg]; omega
          · exact a3 g hg1 (by omega)
        · intro hc g hg1 hg2
          have hc2 : (if val A d J = T then c + 1 else c) = c := by omega
          have hJT : val A d J ≠ T := by
            intro hT
            rw [if_pos hT] at hc2
            omega
          by_cases hg : g = J
          · rw [hg]; exact hJT
          · have : (scanJp A T d I J (if val A d J = T then c + 1 else c)).2 =
                (if val A d J = T then c + 1 else c) := by omega
            exact a6 this g hg1 (by omega)
    · rw [if_neg h1]
      have hI : I = J := by omega
      exact ⟨by omega, by omega, fun g hg1 hg2 => absurd hg2 (by omega),
        fun h => absurd h (by omega), le_refl c,
        fun _ g hg1 hg2 => absurd hg2 (by omega)⟩

/-- Pre-scan of lines 1512-1530 (`Lval ≥ T`, `Rval ≥ T`): skipped
positions are `≥ T` and each is tallied once as `= T` or `> T`, giving
the exact-sum bookkeeping used by the all-equal / all-greater early
returns. -/
theorem scanJpre_spec (A : Array Pt) (T : Int) (d I : Nat) :
    ∀ (J : Nat) (c : Nat × Nat), I < J →
    I ≤ (scanJpre A T d I J c).1 ∧ (scanJpre A T d I J c).1 < J ∧
    (∀ g, (scanJpre A T d I J c).1 < g → g < J → T ≤ val A d g) ∧
    (I < (scanJpre A T d I J c).1 → val A d (scanJpre A T d I J c).1 < T) ∧
    c.1 ≤ (scanJpre A T d I J c).2.1 ∧ c.2 ≤ (scanJpre A T d I J c).2.2 ∧
    (scanJpre A T d I J c).2.1 + (scanJpre A T d I J c).2.2 =
      c.1 + c.2 + (J - 1 - (scanJpre A T d I J c).1) ∧
    ((scanJpre A T d I J c).2.1 = c.1 →
      ∀ g, (scanJpre A T d I J c).1 < g → g < J → val A d g ≠ T) ∧
    ((scanJpre A T d I J c).2.2 = c.2 →
      ∀ g, (scanJpre A T d I J c).1 < g → g < J → val A d g = T) := by
  intro J
  induction J with
  | zero => intro c h; exact absurd h (Nat.not_lt_zero I)
  | succ J ih =>
    intro c hIJ
    simp only [scanJpre]
    by_cases h1 : I < J
    · rw [if_pos h1]
      by_cases h2 : val A d J < T
      · rw [if_pos h2]
        dsimp only
        exact ⟨by omega, by omega, fun g hg1 hg2 => absurd hg2 (by omega),
          fun _ => h2, le_refl _, le_refl _, by omega,
          fun _ g hg1 hg2 => absurd hg2 (by omega),
          fun _ g hg1 hg2 => absurd hg2 (by omega)⟩
      · rw [if_neg h2]
        set c' := if val A d J = T then (c.1 + 1, c.2) else (c.1, c.2 + 1)
          with hc'
        obtain ⟨a1, a2, a3, a4, a5, a6, a7, a8, a9⟩ := ih c' h1
        have hcc1 : c.1 ≤ c'.1 := by rw [hc']; split <;> simp
        have hcc2 : c.2 ≤ c'.2 := by rw [hc']; split <;> simp
        have hsum : c'.1 + c'.2 = c.1 + c.2 + 1 := by
          rw [hc']; split <;> simp <;> omega
        refine ⟨a1, by omega, ?_, a4, by omega, by omega, by omega, ?_, ?_⟩
        · intro g hg1 hg2
          by_cases hg : g = J
          · rw [hg]; omega
          · exact a3 g hg1 (by omega)
        · intro hc g hg1 hg2
          have hc2 : c'.1 = c.1 := by omega
          have hJT : val A d J ≠ T := by
            intro hT
            rw [hc', if_pos hT] at hc2
            simp at hc2
          by_cases hg : g = J
          · rw [hg]; exact hJT
          · exact a8 (by omega) g hg1 (by omega)
        · intro hc g hg1 hg2
          have hc2 : c'.2 = c.2 := by omega
          have hJT : val A d J = T := by
            by_contra hT
            rw [hc', if_neg hT] at hc2
            simp at hc2
          by_cases hg : g = J
          · rw [hg]; exact hJT
          · exact a9 (by omega) g hg1 (by omega)
    · rw [if_neg h1]
      dsimp only
      exact ⟨by omega, by omega, fun g hg1 hg2 => absurd hg2 (by omega),
        fun h => absurd h (by omega), le_refl _, le_refl _, by omega,
        fun _ g hg1 hg2 => absurd hg2 (by omega),
        fun _ g hg1 hg2 => absurd hg2 (by omega)⟩

/-- Pre-scan of lines 1533-1547 (`Lval < T`, `Rval < T`): advances over
values `< T`, counting each, and tallies a pivot hit at the stopping
position; the less-than count is exact. -/
theorem scanIpre_spec (A : Array Pt) (T : Int) (d J : Nat) :
    ∀ (fuel I : Nat) (c : Nat × Nat), I < J → J - I ≤ fuel + 1 →
    I < (scanIpre A T d J fuel I c).1 ∧ (scanIpre A T d J fuel I c).1 ≤ J ∧
    (∀ g, I < g → g < (scanIpre A T d J fuel I c).1 → val A d g < T) ∧
    ((scanIpre A T d J fuel I c).1 < J →
      T ≤ val A d (scanIpre A T d J fuel I c).1) ∧
    (scanIpre A T d J fuel I c).2.2 = c.2 + ((scanIpre A T d J fuel I c).1 - I - 1) ∧
    ((scanIpre A T d J fuel I c).1 < J → (scanIpre A T d J fuel I c).2.1 =
      c.1 + (if val A d (scanIpre A T d J fuel I c).1 = T then 1 else 0)) ∧
    ((scanIpre A T d J fuel I c).1 = J → (scanIpre A T d J fuel I c).2.1 = c.1) := by
  intro fuel
  induction fuel with
  | zero =>
    intro I c hIJ hfuel
    simp only [scanIpre]
    exact ⟨by omega, by omega, fun g hg1 hg2 => absurd hg2 (by omega),
      fun h => absurd h (by omega), by omega,
      fun h => absurd h (by omega), fun _ => trivial⟩
  | succ f ih =>
    intro I c hIJ hfuel
    simp only [scanIpre]
    by_cases h1 : I + 1 < J
    · simp only [if_pos h1]
      by_cases h2 : T ≤ val A d (I + 1)
      · simp only [if_pos h2]
        refine ⟨by omega, by omega, fun g hg1 hg2 => absurd hg2 (by omega),
          fun _ => h2, by omega, fun _ => ?_, fun h => absurd h (by omega)⟩
        split <;> omega
      · simp only [if_neg h2]
        obtain ⟨a1, a2, a3, a4, a5, a6, a7⟩ := ih (I + 1) (c.1, c.2 + 1) h1 (by omega)
        refine ⟨by omega, a2, ?_, a4, by omega, fun h => a6 h, fun h => a7 h⟩
        intro g hg1 hg2
        by_cases hg : g = I + 1
        · rw [hg]; omega
        · exact a3 g (by omega) hg2
    · simp only [if_neg h1]
      exact ⟨by omega, by omega, fun g hg1 hg2 => absurd hg2 (by omega),
        fun h => absurd h (by omega), by omega,
        fun h => absurd h (by omega), fun _ => trivial⟩

/-- Main exchange loop of `PartitionAboutOtherValue` (lines 1575-1609):
invariant lemma.  On entry the value at `I` is `≥ T`, the value at `J`
is `< T` when `I < J`, everything left of `I` is `< T`, everything right
of `J` is `≥ T`, and a zero running count means no pivot value occurs in
the settled positions.  On exit both indices coincide at the boundary of
the `< T` prefix, and a zero final count means the pivot value is absent
from all of `[L, R]`. -/
theorem paovLoop_spec (T : Int) (d L R : Nat) :
    ∀ (fuel : Nat) (A : Array Pt) (I J c : Nat),
    R < A.size → J - I ≤ fuel → L ≤ I → I ≤ J → J ≤ R →
    T ≤ val A d I →
    (I < J → val A d J < T) →
    (∀ g, L ≤ g → g < I → val A d g < T) →
    (∀ g, J < g → g ≤ R → T ≤ val A d g) →
    (c = 0 → ∀ g, (L ≤ g ∧ g ≤ I) ∨ (J ≤ g ∧ g ≤ R) → val A d g ≠ T) →
    ∃ B e c2, paovLoop T d fuel A I J c = (B, e, e, c2) ∧
      B.size = A.size ∧
      (∀ g, g < I ∨ J < g → get B g = get A g) ∧
      permWithin I J A B ∧
      I ≤ e ∧ e ≤ J ∧
      (∀ g, L ≤ g → g < e → val B d g < T) ∧
      (∀ g, e ≤ g → g ≤ R → T ≤ val B d g) ∧
      (c2 = 0 → ∀ g, L ≤ g → g ≤ R → val B d g ≠ T) ∧ c ≤ c2 := by
  intro fuel
  induction fuel with
  | zero =>
    intro A I J c hsz hfuel hLI hIJ hJR hvI hvJ hleft hright hc0
    have hIJ2 : I = J := by omega
    refine ⟨A, I, c, ?_, rfl, fun g _ => rfl, permWithin_refl _ _ _,
      le_refl I, by omega, hleft, ?_, ?_, le_refl c⟩
    · simp only [paovLoop]
      rw [hIJ2]
    · intro g hg1 hg2
      rcases Nat.eq_or_lt_of_le hg1 with h | h
      · rw [← h]; exact hvI
      · exact hright g (by omega) hg2
    · intro hc g hg1 hg2
      exact hc0 hc g (by omega)
  | succ f ih =>
    intro A I J c hsz hfuel hLI hIJ hJR hvI hvJ hleft hright hc0
    rcases Nat.eq_or_lt_of_le hIJ with hIJ2 | hIJ2
    · -- guard fails: I = J
      refine ⟨A, I, c, ?_, rfl, fun g _ => rfl, permWithin_refl _ _ _,
        le_refl I, by omega, hleft, ?_, ?_, le_refl c⟩
      · simp only [paovLoop]
        rw [if_neg (by omega)]
        rw [hIJ2]
      · intro g hg1 hg2
        rcases Nat.eq_or_lt_of_le hg1 with h | h
        · rw [← h]; exact hvI
        · exact hright g (by omega) hg2
      · intro hc g hg1 hg2
        exact hc0 hc g (by omega)
    · -- an exchange iteration
      have hJsz : J < A.size := by omega
      have hIsz : I < A.size := by omega
      have hvJ2 := hvJ hIJ2
      set A1 := swp A I J with hA1
      have hA1sz : A1.size = A.size := size_swp A I J
      have hA1I : val A1 d I = val A d J := val_swp_left d hIsz hJsz
      have hA1J : val A1 d J = val A d I := val_swp_right d hIsz hJsz
      have hA1ne : ∀ g, g ≠ I → g ≠ J → val A1 d g = val A d g :=
        fun g h1 h2 => val_swp_ne d g h1 h2
      have hA1perm : permWithin I J A A1 :=
        permWithin_swp A hIsz hJsz (le_refl _) (by omega) (by omega) (le_refl _)
      obtain ⟨s1, s2, s3, s4, s5, s6⟩ :=
        scanIp_spec A1 T d J (J - I) I c hIJ2 (by omega)
      set IM := scanIp A1 T d J (J - I) I c with hIM
      by_cases hbrk : IM.1 = J
      · -- the forward scan ran into J: both indices settle at J
        refine ⟨A1, J, IM.2, ?_, hA1sz, ?_, hA1perm, by omega, le_refl J,
          ?_, ?_, ?_, s5⟩
        · simp only [paovLoop]
          rw [if_pos hIJ2, ← hIM, if_pos hbrk, hbrk]
        · intro g hg
          exact get_swp_ne g (by omega) (by omega)
        · intro g hg1 hg2
          by_cases hgI : g = I
          · rw [hgI, hA1I]; exact hvJ2
          · by_cases hgI2 : g < I
            · rw [hA1ne g (by omega) (by omega)]
              exact hleft g hg1 hgI2
            · rw [← hbrk] at hg2
              exact s3 g (by omega) hg2
        · intro g hg1 hg2
          rcases Nat.eq_or_lt_of_le hg1 with h | h
          · rw [← h, hA1J]; exact hvI
          · rw [hA1ne g (by omega) (by omega)]
            exact hright g (by omega) hg2
        · intro hc g hg1 hg2
          have hc' : c = 0 := by omega
          have hold := hc0 hc'
          by_cases hgI : g = I
          · rw [hgI, hA1I]
            exact hold J (by omega)
          · by_cases hgJ : g = J
            · rw [hgJ, hA1J]
              exact hold I (by omega)
            · rw [hA1ne g hgI hgJ]
              by_cases hgmid : I < g ∧ g < J
              · have h5 := s3 g hgmid.1 (by omega)
                rw [hA1ne g hgI hgJ] at h5
                omega
              · exact hold g (by omega)
      · -- the forward scan stopped strictly inside: backward scan and recurse
        have hIMJ : IM.1 < J := by omega
        have hvIM : T ≤ val A1 d IM.1 := s4 hIMJ
        obtain ⟨t1, t2, t3, t4, t5, t6⟩ :=
          scanJp_spec A1 T d IM.1 J IM.2 hIMJ
        set JM := scanJp A1 T d IM.1 J IM.2 with hJM
        have hrec := ih A1 IM.1 JM.1 JM.2 (by omega) (by omega) (by omega) t1
          (by omega) hvIM t4
          (by
            intro g hg1 hg2
            by_cases hgI : g = I
            · rw [hgI, hA1I]; exact hvJ2
            · by_cases hgI2 : g < I
              · rw [hA1ne g (by omega) (by omega)]
                exact hleft g hg1 hgI2
              · exact s3 g (by omega) hg2)
          (by
            intro g hg1 hg2
            by_cases hgJ : g = J
            · rw [hgJ, hA1J]; exact hvI
            · by_cases hgJ2 : J < g
              · rw [hA1ne g (by omega) (by omega)]
                exact hright g hgJ2 hg2
              · exact t3 g hg1 (by omega))
          (by
            intro hc g hg
            have hc'' : IM.2 = c ∧ c = 0 := by omega
            have hold := hc0 hc''.2
            rcases hg with ⟨hg1, hg2⟩ | ⟨hg1, hg2⟩
            · -- g ≤ IM.1
              by_cases hgI : g = I
              · rw [hgI, hA1I]
                exact hold J (by omega)
              · by_cases hgI2 : g < I
                · rw [hA1ne g (by omega) (by omega)]
                  exact hold g (by omega)
                · rcases Nat.eq_or_lt_of_le hg2 with h | h
                  · rw [h]
                    exact s6 (by omega) hIMJ
                  · have := s3 g (by omega) h
                    omega
            · -- JM.1 ≤ g
              by_cases hgJ : g = J
              · rw [hgJ, hA1J]
                exact hold I (by omega)
              · by_cases hgJ2 : J < g
                · rw [hA1ne g (by omega) (by omega)]
                  exact hold g (by omega)
                · rcases Nat.eq_or_lt_of_le hg1 with h | h
                  · rw [← h]
                    by_cases hJI : IM.1 < JM.1
                    · have := t4 hJI
                      omega
                    · have hJI2 : JM.1 = IM.1 := by omega
                      rw [hJI2]
                      exact s6 (by omega) hIMJ
                  · exact t6 (by omega) g h (by omega))
        obtain ⟨B, e, c2, heq, hBsz, hBout, hBperm, he1, he2, hbleft, hbright,
          hbc0, hbmono⟩ := hrec
        refine ⟨B, e, c2, ?_, by omega, ?_, ?_, by omega, by omega, hbleft,
          hbright, hbc0, by omega⟩
        · simp only [paovLoop]
          rw [if_pos hIJ2, ← hIM, if_neg hbrk, ← hJM]
          exact heq
        · intro g hg
          rw [hBout g (by omega)]
          exact get_swp_ne g (by omega) (by omega)
        · exact permWithin_trans hA1perm
            (permWithin_mono hBperm (by omega) (by omega) (by omega))

/-- When the pre-scan bound `J ≤ I + 1` nothing is examined and the
backward pre-scan returns `J - 1` with the counts untouched. -/
theorem scanJpre_stop (A : Array Pt) (T : Int) (d I J : Nat) (c : Nat × Nat)
    (h : J ≤ I + 1) : scanJpre A T d I J c = (J - 1, c) := by
  cases J with
  | zero => rfl
  | succ J =>
    simp only [scanJpre]
    rw [if_neg (by omega)]
    simp

/-- Lines 1612-1661 of `PartitionAboutOtherValue`: after the main loop
both indices rest at `e`, with `[L, e)` strictly below `T` and `[e, R]`
at least `T`.  A zero pivot count returns the empty middle `(e, e)`;
otherwise the clustering pass gathers the pivot run starting at `e`. -/
theorem paov_tail_spec (T : Int) (d L R : Nat) (A B : Array Pt) (e cnt : Nat)
    (hsz : R < B.size)
    (hperm : permWithin L R A B)
    (hLe : L ≤ e) (heR : e ≤ R)
    (hleft : ∀ g, L ≤ g → g < e → val B d g < T)
    (hright : ∀ g, e ≤ g → g ≤ R → T ≤ val B d g)
    (hc0 : cnt = 0 → ∀ g, L ≤ g → g ≤ R → val B d g ≠ T) :
    ∃ C I J,
      (if cnt = 0 then (B, e, e)
       else ((clusterLoop T d (R + 2) B e (R + 1)).1, e,
         (clusterLoop T d (R + 2) B e (R + 1)).2)) = (C, I, J) ∧
      ThreeWay A C L R I J T d ∧ I ≤ J := by
  by_cases hc : cnt = 0
  · rw [if_pos hc]
    refine ⟨B, e, e, rfl, ⟨hperm, hLe, le_refl e, by omega, hleft,
      fun g hg1 hg2 => absurd hg1 (by omega), ?_⟩, le_refl e⟩
    intro g hg1 hg2
    have h1 := hright g hg1 hg2
    have h2 := hc0 hc g (by omega) hg2
    omega
  · rw [if_neg hc]
    obtain ⟨c1, c2, c3, c4, c5, c6⟩ :=
      clusterLoop_spec T d (R + 2) B e (R + 1) (by omega) (by omega) (by omega)
    obtain ⟨q1, q2⟩ := c6 (fun g hg1 hg2 => hright g hg1 (by omega))
    refine ⟨_, e, (clusterLoop T d (R + 2) B e (R + 1)).2, rfl,
      ⟨?_, hLe, by omega, by omega, ?_, q1, ?_⟩, by omega⟩
    · exact permWithin_trans hperm (permWithin_mono c5 hLe (by omega) (by omega))
    · intro g hg1 hg2
      rw [val_eq_of_get_eq d (c4 g (Or.inl hg2))]
      exact hleft g hg1 hg2
    · intro g hg1 hg2
      exact q2 g hg1 (by omega)

/-- `PartitionAboutOtherValue` satisfies the three-way partition
postcondition about an externally supplied value (empty middle allowed). -/
theorem paov_spec (A : Array Pt) (L R : Nat) (T : Int) (d : Nat)
    (hsz : R < A.size) (hLR : L ≤ R + 1) :
    ∃ B I J, paov A L R T d = (B, I, J) ∧
      ThreeWay A B L R I J T d ∧ I ≤ J := by
  by_cases hE : R + 1 - L = 0
  · refine ⟨A, L, L, ?_, ⟨permWithin_refl _ _ _, le_refl _, le_refl _, by omega,
      fun g h1 h2 => absurd h2 (by omega), fun g h1 h2 => absurd h2 (by omega),
      fun g h1 h2 => absurd h1 (by omega)⟩, le_refl L⟩
    simp only [paov, if_pos hE]
  · have hLR2 : L ≤ R := by omega
    rcases Nat.eq_or_lt_of_le hLR2 with hLReq | hLRlt
    · -- single-element range
      subst hLReq
      rcases lt_trichotomy (val A d L) T with hv | hv | hv
      · -- the one value is below T
        refine ⟨A, L + 1, L + 1, ?_, ⟨permWithin_refl _ _ _, by omega, le_refl _,
          by omega, ?_, fun g h1 h2 => absurd h2 (by omega),
          fun g h1 h2 => absurd h1 (by omega)⟩, le_refl _⟩
        · simp only [paov]
          rw [if_neg hE]
          simp only [if_neg (show ¬(T ≤ val A d L ∧ T ≤ val A d L) from
            fun h => absurd h.1 (by omega))]
          simp only [if_pos (show val A d L < T ∧ val A d L < T from ⟨hv, hv⟩)]
          rw [Nat.sub_self]
          simp only [scanIpre]
          rw [if_neg (show ¬((if val A d L = T then 0 else if T < val A d L then 0
            else 1) + (if val A d L = T then 0 else if T < val A d L then 0
            else 1) = L + 1 - L) from by split_ifs <;> omega)]
          rw [if_neg (show ¬((if val A d L = T then 1 else 0) +
            (if val A d L = T then 1 else 0) = L + 1 - L) from by
              split_ifs <;> omega)]
          rw [if_neg (show ¬((if val A d L = T then 0 else if T < val A d L then 1
            else 0) + (if val A d L = T then 0 else if T < val A d L then 1
            else 0) = L + 1 - L) from by split_ifs <;> omega)]
          rw [show L - (L + 1) + 1 = 1 from by omega]
          simp only [paovLoop]
          rw [if_neg (show ¬(L + 1 < L) from by omega)]
          dsimp only
          rw [if_pos (show (if val A d L = T then 1 else 0) +
            (if val A d L = T then 1 else 0) = 0 from by split_ifs <;> omega)]
        · intro g h1 h2
          have : g = L := by omega
          rw [this]; exact hv
      · -- the one value equals T
        have hclst : clusterLoop T d (L + 2) A L (L + 1) = (A, L + 1) := by
          simp [clusterLoop, scanNeq, hv]
        refine ⟨A, L, L + 1, ?_, ⟨permWithin_refl _ _ _, le_refl _, by omega,
          by omega, fun g h1 h2 => absurd h2 (by omega), ?_,
          fun g h1 h2 => absurd h2 (by omega)⟩, by omega⟩
        · simp only [paov]
          rw [if_neg hE]
          simp only [if_pos (show T ≤ val A d L ∧ T ≤ val A d L from
            ⟨by omega, by omega⟩)]
          rw [scanJpre_stop A T d L L _ (by omega)]
          dsimp only
          rw [if_neg (show ¬((if val A d L = T then 0 else if T < val A d L then 0
            else 1) + (if val A d L = T then 0 else if T < val A d L then 0
            else 1) = L + 1 - L) from by split_ifs <;> omega)]
          rw [if_neg (show ¬((if val A d L = T then 1 else 0) +
            (if val A d L = T then 1 else 0) = L + 1 - L) from by
              split_ifs <;> omega)]
          rw [if_neg (show ¬((if val A d L = T then 0 else if T < val A d L then 1
            else 0) + (if val A d L = T then 0 else if T < val A d L then 1
            else 0) = L + 1 - L) from by split_ifs <;> omega)]
          rw [show L - 1 - L + 1 = 1 from by omega]
          simp only [paovLoop]
          rw [if_neg (show ¬(L < L - 1) from by omega)]
          dsimp only
          rw [if_neg (show ¬((if val A d L = T then 1 else 0) +
            (if val A d L = T then 1 else 0) = 0) from by
              intro hc
              split_ifs at hc <;> omega)]
          rw [hclst]
        · intro g h1 h2
          have : g = L := by omega
          rw [this]; exact hv
      · -- the one value is above T
        refine ⟨A, L, L, ?_, ⟨permWithin_refl _ _ _, le_refl _, le_refl _,
          by omega, fun g h1 h2 => absurd h2 (by omega),
          fun g h1 h2 => absurd h2 (by omega), ?_⟩, le_refl _⟩
        · simp only [paov]
          rw [if_neg hE]
          simp only [if_pos (show T ≤ val A d L ∧ T ≤ val A d L from
            ⟨by omega, by omega⟩)]
          rw [scanJpre_stop A T d L L _ (by omega)]
          dsimp only
          rw [if_neg (show ¬((if val A d L = T then 0 else if T < val A d L then 0
            else 1) + (if val A d L = T then 0 else if T < val A d L then 0
            else 1) = L + 1 - L) from by split_ifs <;> omega)]
          rw [if_neg (show ¬((if val A d L = T then 1 else 0) +
            (if val A d L = T then 1 else 0) = L + 1 - L) from by
              split_ifs <;> omega)]
          rw [if_neg (show ¬((if val A d L = T then 0 else if T < val A d L then 1
            else 0) + (if val A d L = T then 0 else if T < val A d L then 1
            else 0) = L + 1 - L) from by split_ifs <;> omega)]
          rw [show L - 1 - L + 1 = 1 from by omega]
          simp only [paovLoop]
          rw [if_neg (show ¬(L < L - 1) from by omega)]
          dsimp only
          rw [if_pos (show (if val A d L = T then 1 else 0) +
            (if val A d L = T then 1 else 0) = 0 from by split_ifs <;> omega)]
        · intro g h1 h2
          have : g = L := by omega
          rw [this]; exact hv
    · -- general range with at least two values
      have hLsz : L < A.size := by omega
      have hRsz : R < A.size := hsz
      have main : ∀ (A2 : Array Pt) (I0 J0 nT : Nat),
          R < A2.size → permWithin L R A A2 → L ≤ I0 → I0 ≤ J0 → J0 ≤ R →
          T ≤ val A2 d I0 → (I0 < J0 → val A2 d J0 < T) →
          (∀ g, L ≤ g → g < I0 → val A2 d g < T) →
          (∀ g, J0 < g → g ≤ R → T ≤ val A2 d g) →
          (nT = 0 → ∀ g, (L ≤ g ∧ g ≤ I0) ∨ (J0 ≤ g ∧ g ≤ R) →
            val A2 d g ≠ T) →
          ∃ B I J,
            (let lp := paovLoop T d (J0 - I0 + 1) A2 I0 J0 nT
             if lp.2.2.2 = 0 then (lp.1, lp.2.1, lp.2.1)
             else ((clusterLoop T d (R + 2) lp.1 lp.2.1 (R + 1)).1, lp.2.1,
               (clusterLoop T d (R + 2) lp.1 lp.2.1 (R + 1)).2)) = (B, I, J) ∧
            ThreeWay A B L R I J T d ∧ I ≤ J := by
        intro A2 I0 J0 nT hsz2 hperm2 hLI hIJ hJR hvI hvJ hl hr hc
        obtain ⟨B, e, c2, heq, hBsz, hBout, hBperm, he1, he2, hbl, hbr, hbc,
            hbm⟩ :=
          paovLoop_spec T d L R (J0 - I0 + 1) A2 I0 J0 nT hsz2 (by omega) hLI
            hIJ hJR hvI hvJ hl hr hc
        simp only [heq]
        exact paov_tail_spec T d L R A B e c2 (by omega)
          (permWithin_trans hperm2 (permWithin_mono hBperm hLI (by omega) hJR))
          (by omega) (by omega) hbl hbr hbc
      simp only [paov]
      rw [if_neg hE]
      by_cases hb1 : T ≤ val A d L ∧ T ≤ val A d R
      · -- both boundary values at least T: backward pre-scan
        simp only [if_pos hb1]
        obtain ⟨a1, a2, a3, a4, a5, a6, a7, a8, a9⟩ :=
          scanJpre_spec A T d L R
            ((if val A d L = T then 1 else 0) + (if val A d R = T then 1 else 0),
             (if val A d L = T then 0 else if T < val A d L then 1 else 0) +
               (if val A d R = T then 0 else if T < val A d R then 1 else 0))
            hLRlt
        set s := scanJpre A T d L R
            ((if val A d L = T then 1 else 0) + (if val A d R = T then 1 else 0),
             (if val A d L = T then 0 else if T < val A d L then 1 else 0) +
               (if val A d R = T then 0 else if T < val A d R then 1 else 0))
          with hs
        dsimp only at a5 a6 a7 a8 a9 ⊢
        have hTG2 : ((if val A d L = T then 1 else 0) +
            (if val A d R = T then 1 else 0)) +
            ((if val A d L = T then 0 else if T < val A d L then 1 else 0) +
             (if val A d R = T then 0 else if T < val A d R then 1 else 0)) = 2 := by
          rcases hb1 with ⟨h1, h2⟩
          split_ifs <;> omega
        rw [if_neg (show ¬((if val A d L = T then 0 else if T < val A d L then 0
          else 1) + (if val A d R = T then 0 else if T < val A d R then 0
          else 1) = R + 1 - L) from by
            rcases hb1 with ⟨h1, h2⟩
            split_ifs <;> omega)]
        by_cases hX2 : s.2.1 = R + 1 - L
        · -- every value equals T
          rw [if_pos hX2]
          have hs1L : s.1 = L ∧ s.2.2 =
              (if val A d L = T then 0 else if T < val A d L then 1 else 0) +
              (if val A d R = T then 0 else if T < val A d R then 1 else 0) := by
            constructor <;> omega
          have hnG0 : (if val A d L = T then 0 else if T < val A d L then 1
              else 0) + (if val A d R = T then 0 else if T < val A d R then 1
              else 0) = 0 := by omega
          have hLT : val A d L = T := by
            rcases hb1 with ⟨h1, h2⟩
            by_contra h
            rw [if_neg h, if_pos (show T < val A d L from by omega)] at hnG0
            omega
          have hRT : val A d R = T := by
            rcases hb1 with ⟨h1, h2⟩
            by_contra h
            rw [if_neg h, if_pos (show T < val A d R from by omega)] at hnG0
            omega
          have hmid := a9 (by omega)
          refine ⟨A, L, R + 1, rfl, ⟨permWithin_refl _ _ _, le_refl _, by omega,
            by omega, fun g h1 h2 => absurd h2 (by omega), ?_,
            fun g h1 h2 => absurd h1 (by omega)⟩, by omega⟩
          intro g hg1 hg2
          rcases Nat.eq_or_lt_of_le hg1 with h | h
          · rw [← h]; exact hLT
          · by_cases hgR : g = R
            · rw [hgR]; exact hRT
            · exact hmid g (by omega) (by omega)
        · rw [if_neg hX2]
          by_cases hX3 : s.2.2 = R + 1 - L
          · -- every value exceeds T
            rw [if_pos hX3]
            have hs1L : s.1 = L ∧ s.2.1 =
                (if val A d L = T then 1 else 0) +
                (if val A d R = T then 1 else 0) := by
              constructor <;> omega
            have hnT0 : (if val A d L = T then 1 else 0) +
                (if val A d R = T then 1 else 0) = 0 := by omega
            have hLne : val A d L ≠ T := by
              intro h; rw [if_pos h] at hnT0; omega
            have hRne : val A d R ≠ T := by
              intro h; rw [if_pos h] at hnT0; omega
            have hmid := a8 (by omega)
            refine ⟨A, L, L, rfl, ⟨permWithin_refl _ _ _, le_refl _, le_refl _,
              by omega, fun g h1 h2 => absurd h2 (by omega),
              fun g h1 h2 => absurd h2 (by omega), ?_⟩, le_refl _⟩
            intro g hg1 hg2
            rcases Nat.eq_or_lt_of_le hg1 with h | h
            · rw [← h]
              have := hb1.1
              omega
            · by_cases hgR : g = R
              · rw [hgR]
                have := hb1.2
                omega
              · have h3 := a3 g (by omega) (by omega)
                have h4 := hmid g (by omega) (by omega)
                omega
          · -- main loop
            rw [if_neg hX3]
            refine main A L s.1 s.2.1 hsz (permWithin_refl _ _ _) (le_refl L) a1
              (by omega) hb1.1 (fun h => a4 h)
              (fun g h1 h2 => absurd h2 (by omega)) ?_ ?_
            · intro g h1 h2
              rcases Nat.eq_or_lt_of_le h2 with h | h
              · rw [h]; exact hb1.2
              · exact a3 g h1 h
            · intro hcc g hg
              have hnT0 : (if val A d L = T then 1 else 0) +
                  (if val A d R = T then 1 else 0) = 0 := by omega
              have hLne : val A d L ≠ T := by
                intro h; rw [if_pos h] at hnT0; omega
              have hRne : val A d R ≠ T := by
                intro h; rw [if_pos h] at hnT0; omega
              rcases hg with ⟨hg1, hg2⟩ | ⟨hg1, hg2⟩
              · have : g = L := by omega
                rw [this]; exact hLne
              · rcases Nat.eq_or_lt_of_le hg1 with h | h
                · rw [← h]
                  by_cases hLs : L < s.1
                  · have := a4 hLs
                    omega
                  · have h0 : s.1 = L := by omega
                    rw [h0]; exact hLne
                · by_cases hgR : g = R
                  · rw [hgR]; exact hRne
                  · exact a8 (by omega) g h (by omega)
      · simp only [if_neg hb1]
        by_cases hb2 : val A d L < T ∧ val A d R < T
        · -- both boundary values below T: forward pre-scan
          simp only [if_pos hb2]
          obtain ⟨b1, b2, b3, b4, b5, b6, b7⟩ :=
            scanIpre_spec A T d R (R - L) L
              ((if val A d L = T then 1 else 0) +
                 (if val A d R = T then 1 else 0),
               (if val A d L = T then 0 else if T < val A d L then 0 else 1) +
                 (if val A d R = T then 0 else if T < val A d R then 0 else 1))
              hLRlt (by omega)
          set s := scanIpre A T d R (R - L) L
              ((if val A d L = T then 1 else 0) +
                 (if val A d R = T then 1 else 0),
               (if val A d L = T then 0 else if T < val A d L then 0 else 1) +
                 (if val A d R = T then 0 else if T < val A d R then 0 else 1))
            with hs
          dsimp only at b5 b6 b7 ⊢
          have hnL2 : (if val A d L = T then 0 else if T < val A d L then 0
              else 1) + (if val A d R = T then 0 else if T < val A d R then 0
              else 1) = 2 := by
            rcases hb2 with ⟨h1, h2⟩
            split_ifs <;> omega
          have hnT00 : (if val A d L = T then 1 else 0) +
              (if val A d R = T then 1 else 0) = 0 := by
            rcases hb2 with ⟨h1, h2⟩
            split_ifs <;> omega
          by_cases hX1 : s.2.2 = R + 1 - L
          · -- every value is below T
            rw [if_pos hX1]
            have hI1R : s.1 = R := by omega
            refine ⟨A, R + 1, R + 1, rfl, ⟨permWithin_refl _ _ _, by omega,
              le_refl _, le_refl _, ?_, fun g h1 h2 => absurd h1 (by omega),
              fun g h1 h2 => absurd h1 (by omega)⟩, le_refl _⟩
            intro g hg1 hg2
            rcases Nat.eq_or_lt_of_le hg1 with h | h
            · rw [← h]; exact hb2.1
            · by_cases hgR : g = R
              · rw [hgR]; exact hb2.2
              · exact b3 g (by omega) (by omega)
          · rw [if_neg hX1]
            have hI1R : s.1 < R := by omega
            have h6 := b6 hI1R
            rw [if_neg (show ¬(s.2.1 = R + 1 - L) from by
              have h9 : (if val A d s.1 = T then 1 else 0) ≤ 1 := by
                split <;> omega
              omega)]
            rw [if_neg (show ¬((if val A d L = T then 0 else
              if T < val A d L then 1 else 0) + (if val A d R = T then 0 else
              if T < val A d R then 1 else 0) = R + 1 - L) from by
                rcases hb2 with ⟨h1, h2⟩
                split_ifs <;> omega)]
            refine main A s.1 R s.2.1 hsz (permWithin_refl _ _ _) (by omega) b2
              (le_refl R) (b4 hI1R) (fun _ => hb2.2) ?_
              (fun g h1 h2 => absurd h1 (by omega)) ?_
            · intro g h1 h2
              rcases Nat.eq_or_lt_of_le h1 with h | h
              · rw [← h]; exact hb2.1
              · exact b3 g h h2
            · intro hcc g hg
              rcases hg with ⟨hg1, hg2⟩ | ⟨hg1, hg2⟩
              · rcases Nat.eq_or_lt_of_le hg2 with h | h
                · rw [h]
                  intro hT
                  rw [if_pos hT] at h6
                  omega
                · rcases Nat.eq_or_lt_of_le hg1 with h2 | h2
                  · rw [← h2]
                    have := hb2.1
                    omega
                  · have := b3 g h2 h
                    omega
              · have : g = R := by omega
                rw [this]
                have := hb2.2
                omega
        · simp only [if_neg hb2]
          by_cases hb3 : val A d L < T
          · -- left below, right at least T: one exchange then the main loop
            simp only [if_pos hb3]
            have hRge : T ≤ val A d R := by
              by_contra h
              exact hb2 ⟨hb3, by omega⟩
            rw [if_neg (show ¬((if val A d L = T then 0 else
              if T < val A d L then 0 else 1) + (if val A d R = T then 0 else
              if T < val A d R then 0 else 1) = R + 1 - L) from by
                split_ifs <;> omega)]
            rw [if_neg (show ¬((if val A d L = T then 1 else 0) +
              (if val A d R = T then 1 else 0) = R + 1 - L) from by
                split_ifs <;> omega)]
            rw [if_neg (show ¬((if val A d L = T then 0 else
              if T < val A d L then 1 else 0) + (if val A d R = T then 0 else
              if T < val A d R then 1 else 0) = R + 1 - L) from by
                split_ifs <;> omega)]
            refine main (swp A L R) L R
              ((if val A d L = T then 1 else 0) +
                (if val A d R = T then 1 else 0))
              (by rw [size_swp]; exact hsz)
              (permWithin_swp A hLsz hRsz (le_refl _) (by omega) (by omega)
                (le_refl _))
              (le_refl _) (by omega) (le_refl _)
              (by rw [val_swp_left d hLsz hRsz]; exact hRge)
              (fun _ => by rw [val_swp_right d hLsz hRsz]; exact hb3)
              (fun g h1 h2 => absurd h2 (by omega))
              (fun g h1 h2 => absurd h1 (by omega)) ?_
            intro hcc g hg
            have hLne : val A d L ≠ T := by omega
            have hRne : val A d R ≠ T := by
              intro h
              rw [if_pos h] at hcc
              omega
            have hgLR : g = L ∨ g = R := by
              rcases hg with ⟨h1, h2⟩ | ⟨h1, h2⟩ <;> omega
            rcases hgLR with h | h
            · rw [h, val_swp_left d hLsz hRsz]; exact hRne
            · rw [h, val_swp_right d hLsz hRsz]; exact hLne
          · -- left at least T, right below: loop fixes it directly
            simp only [if_neg hb3]
            have hLge : T ≤ val A d L := by omega
            have hRlt : val A d R < T := by
              by_contra h
              exact hb1 ⟨hLge, by omega⟩
            rw [if_neg (show ¬((if val A d L = T then 0 else
              if T < val A d L then 0 else 1) + (if val A d R = T then 0 else
              if T < val A d R then 0 else 1) = R + 1 - L) from by
                split_ifs <;> omega)]
            rw [if_neg (show ¬((if val A d L = T then 1 else 0) +
              (if val A d R = T then 1 else 0) = R + 1 - L) from by
                split_ifs <;> omega)]
            rw [if_neg (show ¬((if val A d L = T then 0 else
              if T < val A d L then 1 else 0) + (if val A d R = T then 0 else
              if T < val A d R then 1 else 0) = R + 1 - L) from by
                split_ifs <;> omega)]
            refine main A L R
              ((if val A d L = T then 1 else 0) +
                (if val A d R = T then 1 else 0))
              hsz (permWithin_refl _ _ _) (le_refl _) (by omega) (le_refl _)
              hLge (fun _ => hRlt)
              (fun g h1 h2 => absurd h2 (by omega))
              (fun g h1 h2 => absurd h1 (by omega)) ?_
            intro hcc g hg
            have hLne : val A d L ≠ T := by
              intro h
              rw [if_pos h] at hcc
              omega
            have hRne : val A d R ≠ T := by omega
            have hgLR : g = L ∨ g = R := by
              rcases hg with ⟨h1, h2⟩ | ⟨h1, h2⟩ <;> omega
            rcases hgLR with h | h
            · rw [h]; exact hLne
            · rw [h]; exact hRne

/-- C1: the three-way partition routines `PartitionAboutMyValue` (pivot
value taken at index `K`, hence present, so the middle block is
non-empty) and `PartitionAboutOtherValue` (externally supplied pivot,
possibly absent, so `I = J` is allowed) permute the subarray `[L, R]`
in place and return `L ≤ I ≤ J ≤ R + 1` with every value in `[L, I)`
strictly below the pivot along `d`, every value in `[I, J)` equal to it,
and every value in `[J, R]` strictly above it; a zero-length subarray
returns `I = J = L`. -/
theorem C1_partition_three_way (A : Array Pt) (d : Nat) :
    (∀ L R K, L ≤ K → K ≤ R → R < A.size →
      ∃ B I J, pamv A L R K d = (B, I, J) ∧
        ThreeWay A B L R I J (val A d K) d ∧ I < J) ∧
    (∀ L R (T : Int), R < A.size → L ≤ R + 1 →
      ∃ B I J, paov A L R T d = (B, I, J) ∧
        ThreeWay A B L R I J T d ∧ I ≤ J) ∧
    (∀ L R (T : Int), R + 1 = L → paov A L R T d = (A, L, L)) := by
  refine ⟨fun L R K h1 h2 h3 => pamv_spec A L R K d h1 h2 h3,
    fun L R T h1 h2 => paov_spec A L R T d h1 h2,
    fun L R T h => ?_⟩
  simp only [paov, if_pos (show R + 1 - L = 0 from by omega)]

theorem C1_partition_three_way_witness :
    (∃ B I J, pamv (#[⟨5, 0, 0⟩, ⟨3, 0, 0⟩, ⟨9, 0, 0⟩] : Array Pt) 0 2 1 0 =
        (B, I, J) ∧
      ThreeWay (#[⟨5, 0, 0⟩, ⟨3, 0, 0⟩, ⟨9, 0, 0⟩] : Array Pt) B 0 2 I J
        (val (#[⟨5, 0, 0⟩, ⟨3, 0, 0⟩, ⟨9, 0, 0⟩] : Array Pt) 0 1) 0 ∧ I < J) ∧
    (∃ B I J, paov (#[⟨5, 0, 0⟩, ⟨3, 0, 0⟩, ⟨9, 0, 0⟩] : Array Pt) 0 2 4 0 =
        (B, I, J) ∧
      ThreeWay (#[⟨5, 0, 0⟩, ⟨3, 0, 0⟩, ⟨9, 0, 0⟩] : Array Pt) B 0 2 I J 4 0 ∧
        I ≤ J) ∧
    paov (#[⟨5, 0, 0⟩, ⟨3, 0, 0⟩, ⟨9, 0, 0⟩] : Array Pt) 3 2 4 0 =
      (#[⟨5, 0, 0⟩, ⟨3, 0, 0⟩, ⟨9, 0, 0⟩], 3, 3) :=
  ⟨(C1_partition_three_way _ 0).1 0 2 1 (by decide) (by decide) (by decide),
   (C1_partition_three_way _ 0).2.1 0 2 4 (by decide) (by decide),
   (C1_partition_three_way _ 0).2.2 3 2 4 (by decide)⟩

/-! ## `_select` / `Select`: lemmas -/

/-- A value inside the permuted window is some value of the original
window: permutations preserve the multiset of `[L, R]`. -/
theorem permWithin_val_mem {L R : Nat} {B C : Array Pt} (h : permWithin L R B C)
    (d g : Nat) (hg1 : L ≤ g) (hg2 : g ≤ R) :
    ∃ g', L ≤ g' ∧ g' ≤ R ∧ val C d g = val B d g' := by
  have hmem : get C g ∈ sub C L R := by
    rw [sub, subLen]
    refine List.mem_map.mpr ⟨g - L, List.mem_range.mpr (by omega), ?_⟩
    rw [show L + (g - L) = g from by omega]
  have hmem2 : get C g ∈ sub B L R := (h.2.mem_iff).mpr hmem
  rw [sub, subLen] at hmem2
  obtain ⟨i, hi, hval⟩ := List.mem_map.mp hmem2
  have hi2 := List.mem_range.mp hi
  exact ⟨L + i, by omega, by omega, val_eq_of_get_eq d hval.symm⟩

/-- The `while (R > L)` loop of `_select` (lines 904-958): with fuel
exceeding the window width it terminates, and it ends with the whole
original window three-way partitioned around the value landing at `K`.
The settled prefix/suffix invariants mirror lines 945-957: after
`L = J` everything left of the window is strictly below every window
value, after `R = I - 1` everything right of it is strictly above. -/
theorem selectLoop_spec (d : Nat) (orc : Nat → Nat → Nat → Array Pt → Array Pt)
    (horc : ∀ n a b B, permWithin a b B (orc n a b B))
    (A : Array Pt) (L0 R0 K : Nat) :
    ∀ (fuel n : Nat) (B : Array Pt) (L R : Nat),
    R0 < B.size → B.size = A.size → R - L < fuel →
    L0 ≤ L → L ≤ K → K ≤ R → R ≤ R0 →
    permWithin L0 R0 A B →
    (∀ g, L0 ≤ g → g < L → ∀ h, L ≤ h → h ≤ R → val B d g < val B d h) →
    (∀ g, R < g → g ≤ R0 → ∀ h, L ≤ h → h ≤ R → val B d h < val B d g) →
    ∃ C I J, selectLoop d orc fuel n B L R K = some C ∧
      C.size = A.size ∧ permWithin L0 R0 A C ∧
      L0 ≤ I ∧ I ≤ K ∧ K < J ∧ J ≤ R0 + 1 ∧
      (∀ g, L0 ≤ g → g < I → val C d g < val C d K) ∧
      (∀ g, I ≤ g → g < J → val C d g = val C d K) ∧
      (∀ g, J ≤ g → g ≤ R0 → val C d K < val C d g) := by
  intro fuel
  induction fuel with
  | zero => intro n B L R _ _ hfuel _ _ _ _ _ _ _; omega
  | succ fuel ih =>
    intro n B L R hszB hBA hfuel hL0L hLK hKR hRR0 hperm hInvL hInvR
    by_cases hLR : L < R
    · simp only [selectLoop]
      rw [if_pos hLR]
      set A0 := if 600 < R - L then orc n L R B else B with hA0
      have hpermBA0 : permWithin L R B A0 := by
        rw [hA0]
        split
        · exact horc n L R B
        · exact permWithin_refl _ _ _
      have hA0sz : A0.size = B.size := hpermBA0.1.1.symm
      obtain ⟨P, I, J, hpr, hthree, hIJ⟩ :=
        pamv_spec A0 L R K d hLK hKR (by omega)
      obtain ⟨hpermA0P, hLI, hIJ2, hJR1, hreg1, hreg2, hreg3⟩ := hthree
      have hpermBP : permWithin L R B P := permWithin_trans hpermBA0 hpermA0P
      have hPsz : P.size = B.size := hpermBP.1.1.symm
      have houtP : ∀ g, g < L ∨ R < g → get P g = get B g :=
        fun g hg => (hpermBP.1.2 g hg).symm
      have hpermAP : permWithin L0 R0 A P :=
        permWithin_trans hperm
          (permWithin_mono hpermBP hL0L (by omega) hRR0)
      -- the value at K after partitioning is the pivot value
      obtain ⟨k1, hk1a, hk1b, hk1c⟩ := permWithin_val_mem hpermBP d K hLK hKR
      simp only [hpr]
      by_cases hKJ : J ≤ K
      · rw [if_pos hKJ]
        refine ih (n + 1) P J R (by omega) (by omega) (by omega) (by omega)
          hKJ hKR hRR0 hpermAP ?_ ?_
        · intro g hg1 hg2 h hh1 hh2
          have hPh : val A0 d K < val P d h := hreg3 h hh1 hh2
          by_cases hgL : g < L
          · have hPg : val P d g = val B d g :=
              val_eq_of_get_eq d (houtP g (Or.inl hgL))
          -- the pivot value is a window value of B
            obtain ⟨k2, hk2a, hk2b, hk2c⟩ :=
              permWithin_val_mem hpermBA0 d K hLK hKR
            have := hInvL g hg1 hgL k2 hk2a hk2b
            rw [hPg]
            omega
          · by_cases hgI : g < I
            · have := hreg1 g (by omega) hgI
              omega
            · have := hreg2 g (by omega) hg2
              omega
        · intro g hg1 hg2 h hh1 hh2
          have hPg : val P d g = val B d g :=
            val_eq_of_get_eq d (houtP g (Or.inr hg1))
          obtain ⟨h1, hh1a, hh1b, hh1c⟩ :=
            permWithin_val_mem hpermBP d h (by omega) hh2
          have := hInvR g hg1 hg2 h1 hh1a hh1b
          rw [hPg, hh1c]
          exact this
      · rw [if_neg hKJ]
        by_cases hKI : I ≤ K
        · rw [if_pos hKI]
          obtain ⟨k2, hk2a, hk2b, hk2c⟩ :=
            permWithin_val_mem hpermBA0 d K hLK hKR
          have hPK : val P d K = val A0 d K := hreg2 K hKI (by omega)
          refine ⟨P, I, J, rfl, by omega, hpermAP, by omega, hKI, by omega,
            by omega, ?_, ?_, ?_⟩
          · intro g hg1 hg2
            rw [hPK]
            by_cases hgL : g < L
            · have hPg : val P d g = val B d g :=
                val_eq_of_get_eq d (houtP g (Or.inl hgL))
              have := hInvL g hg1 hgL k2 hk2a hk2b
              rw [hPg]
              omega
            · have := hreg1 g (by omega) hg2
              omega
          · intro g hg1 hg2
            rw [hPK]
            exact hreg2 g hg1 hg2
          · intro g hg1 hg2
            rw [hPK]
            by_cases hgR : g ≤ R
            · exact hreg3 g hg1 hgR
            · have hPg : val P d g = val B d g :=
                val_eq_of_get_eq d (houtP g (Or.inr (by omega)))
              have := hInvR g (by omega) hg2 k2 hk2a hk2b
              rw [hPg]
              omega
        · rw [if_neg hKI]
          have hIK : K < I := by omega
          refine ih (n + 1) P L (I - 1) (by omega) (by omega) (by omega) hL0L
            hLK (by omega) (by omega) hpermAP ?_ ?_
          · intro g hg1 hg2 h hh1 hh2
            have hPg : val P d g = val B d g :=
              val_eq_of_get_eq d (houtP g (Or.inl hg2))
            obtain ⟨h1, hh1a, hh1b, hh1c⟩ :=
              permWithin_val_mem hpermBP d h hh1 (by omega)
            have := hInvL g hg1 hg2 h1 hh1a hh1b
            rw [hPg, hh1c]
            exact this
          · intro g hg1 hg2 h hh1 hh2
            have hPh : val P d h < val A0 d K := hreg1 h hh1 (by omega)
            by_cases hgR : R < g
            · have hPg : val P d g = val B d g :=
                val_eq_of_get_eq d (houtP g (Or.inr hgR))
              obtain ⟨k2, hk2a, hk2b, hk2c⟩ :=
                permWithin_val_mem hpermBA0 d K hLK hKR
              have := hInvR g hgR hg2 k2 hk2a hk2b
              rw [hPg]
              omega
            · by_cases hgJ : J ≤ g
              · have := hreg3 g hgJ (by omega)
                omega
              · have := hreg2 g (by omega) (by omega)
                omega
    · -- the window is a single element
      have hLRK : L = K ∧ R = K := by omega
      refine ⟨B, K, K + 1, ?_, hBA, hperm, by omega, le_refl K, by omega,
        by omega, ?_, ?_, ?_⟩
      · simp only [selectLoop]
        rw [if_neg hLR]
      · intro g hg1 hg2
        exact hInvL g hg1 (by omega) K (by omega) (by omega)
      · intro g hg1 hg2
        have : g = K := by omega
        rw [this]
      · intro g hg1 hg2
        exact hInvR g (by omega) hg2 K (by omega) (by omega)

/-- In a sorted list the entry at position `n` equals `v` exactly when
`n` lies between the count of entries `< v` and the count of entries
`≤ v`. -/
theorem sorted_getD_eq {S : List Int} (hs : List.Sorted (fun a b => a ≤ b) S)
    (v : Int) :
    ∀ n, S.countP (fun a => decide (a < v)) ≤ n →
    n < S.countP (fun a => decide (a ≤ v)) → S.getD n 0 = v := by
  induction S with
  | nil => intro n h1 h2; simp at h2
  | cons x rest ih =>
    intro n h1 h2
    obtain ⟨hall, hrest⟩ := List.sorted_cons.mp hs
    rw [List.countP_cons] at h1 h2
    rcases lt_trichotomy x v with hx | hx | hx
    · rw [if_pos (show decide (x < v) = true from by simpa using hx)] at h1
      rw [if_pos (show decide (x ≤ v) = true from by
        simpa using le_of_lt hx)] at h2
      cases n with
      | zero => omega
      | succ n =>
        rw [List.getD_cons_succ]
        exact ih hrest n (by omega) (by omega)
    · cases n with
      | zero => rw [List.getD_cons_zero]; exact hx
      | succ n =>
        rw [List.getD_cons_succ]
        have hz : rest.countP (fun a => decide (a < v)) = 0 := by
          rw [List.countP_eq_zero]
          intro a ha
          have := hall a ha
          simp only [decide_eq_true_eq]
          omega
        rw [if_pos (show decide (x ≤ v) = true from by
          simpa using le_of_eq hx)] at h2
        exact ih hrest n (by omega) (by omega)
    · exfalso
      have hz : rest.countP (fun a => decide (a ≤ v)) = 0 := by
        rw [List.countP_eq_zero]
        intro a ha
        have := hall a ha
        simp only [decide_eq_true_eq]
        omega
      rw [if_neg (show ¬(decide (x ≤ v) = true) from by
        simpa using hx.not_le)] at h2
      omega

/-- Counting a prefix property over `map f (range n)`. -/
theorem countP_map_range (p : Int → Bool) (f : Nat → Int) :
    ∀ n m, m ≤ n → (∀ i, i < n → (p (f i) = true ↔ i < m)) →
    ((List.range n).map f).countP p = m := by
  intro n
  induction n with
  | zero =>
    intro m h1 h2
    simp only [List.range_zero, List.map_nil, List.countP_nil]
    omega
  | succ n ih =>
    intro m h1 h2
    rw [List.range_succ, List.map_append, List.countP_append]
    by_cases hm : m = n + 1
    · subst hm
      have hp : p (f n) = true := (h2 n (by omega)).mpr (by omega)
      rw [ih n (le_refl n) (fun i hi => by
        constructor
        · intro _; omega
        · intro _; exact (h2 i (by omega)).mpr (by omega))]
      simp [hp]
    · have hp : ¬(p (f n) = true) := by
        intro hp
        have := (h2 n (by omega)).mp hp
        omega
      rw [ih m (by omega) (fun i hi => h2 i (by omega))]
      simp [List.countP_cons, hp]

/-- The coordinate list of the subarray: `sub` then `pc` is the map of
`val` over the index range. -/
theorem sub_map_pc (C : Array Pt) (d L R : Nat) :
    (sub C L R).map (fun p => pc p d) =
      (List.range (R + 1 - L)).map (fun i => val C d (L + i)) := by
  rw [sub, subLen, List.map_map]
  rfl

/-- A three-way partitioned window puts its pivot value at the sorted
position `K - L`. -/
theorem sortedVals_getD (C : Array Pt) (d L R K I J : Nat)
    (hLI : L ≤ I) (hIK : I ≤ K) (hKJ : K < J) (hJR : J ≤ R + 1)
    (hreg1 : ∀ g, L ≤ g → g < I → val C d g < val C d K)
    (hreg2 : ∀ g, I ≤ g → g < J → val C d g = val C d K)
    (hreg3 : ∀ g, J ≤ g → g ≤ R → val C d K < val C d g) :
    (sortedVals C d L R).getD (K - L) 0 = val C d K := by
  have hperm : (sortedVals C d L R).Perm
      ((List.range (R + 1 - L)).map (fun i => val C d (L + i))) := by
    rw [← sub_map_pc]
    exact List.perm_insertionSort _ _
  have hc1 : ((List.range (R + 1 - L)).map
      (fun i => val C d (L + i))).countP
        (fun a => decide (a < val C d K)) = I - L := by
    refine countP_map_range _ _ _ _ (by omega) ?_
    intro i hi
    simp only [decide_eq_true_eq]
    constructor
    · intro h
      by_contra h2
      have hIL : I ≤ L + i := by omega
      by_cases h3 : L + i < J
      · have := hreg2 (L + i) hIL h3
        omega
      · have := hreg3 (L + i) (by omega) (by omega)
        omega
    · intro h
      exact hreg1 (L + i) (by omega) (by omega)
  have hc2 : ((List.range (R + 1 - L)).map
      (fun i => val C d (L + i))).countP
        (fun a => decide (a ≤ val C d K)) = J - L := by
    refine countP_map_range _ _ _ _ (by omega) ?_
    intro i hi
    simp only [decide_eq_true_eq]
    constructor
    · intro h
      by_contra h2
      have := hreg3 (L + i) (by omega) (by omega)
      omega
    · intro h
      by_cases h3 : L + i < I
      · have := hreg1 (L + i) (by omega) h3
        omega
      · have := hreg2 (L + i) (by omega) (by omega)
        omega
  refine sorted_getD_eq (show List.Sorted (fun a b => a ≤ b)
      (sortedVals C d L R) from List.sorted_insertionSort _ _)
    (val C d K) (K - L) ?_ ?_
  · rw [hperm.countP_eq, hc1]
    omega
  · rw [hperm.countP_eq, hc2]
    omega

/-- Sorting the window coordinates is invariant under permutations of
the window. -/
theorem sortedVals_perm_eq {A C : Array Pt} {L R : Nat}
    (h : permWithin L R A C) (d : Nat) :
    sortedVals A d L R = sortedVals C d L R := by
  have hp : ((sub A L R).map fun p => pc p d).Perm
      ((sub C L R).map fun p => pc p d) := h.2.map _
  exact List.eq_of_perm_of_sorted
    (((List.perm_insertionSort _ _).trans hp).trans
      (List.perm_insertionSort _ _).symm)
    (List.sorted_insertionSort _ _) (List.sorted_insertionSort _ _)

/-- The rollback scan of `Select` (lines 1022-1031): starting one below
`idx + 1`, it returns the least index bounding the run of values `≥ Kval`
reaching down from `idx`, stopping at a strictly smaller value or at
global index 0 — not at `L`. -/
theorem rollGo_spec (A : Array Pt) (d : Nat) (v : Int) :
    ∀ idx, rollGo A d v idx (idx + 1) ≤ idx + 1 ∧
      (∀ j, rollGo A d v idx (idx + 1) ≤ j → j ≤ idx → v ≤ val A d j) ∧
      (0 < rollGo A d v idx (idx + 1) →
        val A d (rollGo A d v idx (idx + 1) - 1) < v) := by
  intro idx
  induction idx with
  | zero =>
    simp only [rollGo]
    by_cases h : val A d 0 < v
    · rw [if_pos h]
      exact ⟨le_refl _, fun j hj1 hj2 => absurd hj1 (by omega),
        fun _ => by simpa using h⟩
    · rw [if_neg h]
      refine ⟨by omega, ?_, by omega⟩
      intro j hj1 hj2
      have hj : j = 0 := by omega
      rw [hj]
      omega
  | succ idx ih =>
    simp only [rollGo]
    by_cases h : val A d (idx + 1) < v
    · rw [if_pos h]
      exact ⟨le_refl _, fun j hj1 hj2 => absurd hj1 (by omega),
        fun _ => by simpa using h⟩
    · rw [if_neg h]
      rw [show idx + 1 + 1 - 1 = idx + 1 from rfl]
      obtain ⟨i1, i2, i3⟩ := ih
      refine ⟨by omega, ?_, i3⟩
      intro j hj1 hj2
      rcases Nat.eq_or_lt_of_le hj2 with h2 | h2
      · rw [h2]; omega
      · exact i2 j hj1 (by omega)

/-- `Select(dim, L, R)` (lines 960-1041), amended: the selection loop
places the `(K - L + 1)`-th smallest coordinate at `K = (R+L)/2 + 1`
and partitions `[L, R]` around it, and the rollback returns `K' ≤ K`
with `[L, K')` strictly below the pivot value, `[max(K', L), K]` equal
to it, and a strictly smaller value just left of `K'` whenever
`K' > L`.  (`K'` itself may land below `L`: the rollback of lines
1022-1031 stops at a smaller value or at global index 0, not at `L`.) -/
theorem select_spec (orc : Nat → Nat → Nat → Array Pt → Array Pt)
    (horc : ∀ n a b B, permWithin a b B (orc n a b B))
    (A : Array Pt) (L R d : Nat) (hsz : R < A.size) (hLR : L < R) :
    ∃ C r, select orc A L R d = (C, r) ∧
      permWithin L R A C ∧
      val C d ((R + L) / 2 + 1) =
        (sortedVals A d L R).getD ((R + L) / 2 + 1 - L) 0 ∧
      r ≤ (R + L) / 2 + 1 ∧
      (∀ g, L ≤ g → g < r → val C d g < val C d ((R + L) / 2 + 1)) ∧
      (∀ g, L ≤ g → r ≤ g → g ≤ (R + L) / 2 + 1 →
        val C d g = val C d ((R + L) / 2 + 1)) ∧
      (L < r → val C d (r - 1) < val C d ((R + L) / 2 + 1)) := by
  set K := (R + L) / 2 + 1 with hK
  have hLK : L ≤ K := by omega
  have hKR : K ≤ R := by omega
  have hKL : L < K := by omega
  obtain ⟨C, I, J, heq, hCsz, hperm, hLI, hIK, hKJ, hJR, hreg1, hreg2, hreg3⟩ :=
    selectLoop_spec d orc horc A L R K (R + 1 - L) 0 A L R hsz rfl (by omega)
      (le_refl L) hLK hKR (le_refl R) (permWithin_refl _ _ _)
      (fun g hg1 hg2 h hh1 hh2 => absurd hg2 (by omega))
      (fun g hg1 hg2 h hh1 hh2 => absurd hg1 (by omega))
  have hsort : (sortedVals A d L R).getD (K - L) 0 = val C d K := by
    rw [sortedVals_perm_eq hperm d]
    exact sortedVals_getD C d L R K I J hLI hIK hKJ (by omega) hreg1 hreg2 hreg3
  simp only [select]
  rw [← hK]
  simp only [heq, Option.getD_some]
  rw [if_neg (show ¬(K = L) from by omega)]
  by_cases hne : val C d (K - 1) ≠ val C d K
  · rw [if_pos hne]
    have hIK2 : I = K := by
      by_contra hI
      exact hne (hreg2 (K - 1) (by omega) (by omega))
    refine ⟨C, K, rfl, hperm, hsort.symm, le_refl K, ?_, ?_, ?_⟩
    · intro g hg1 hg2
      exact hreg1 g hg1 (by omega)
    · intro g hg1 hg2 hg3
      have hg : g = K := by omega
      rw [hg]
    · intro _
      exact hreg1 (K - 1) (by omega) (by omega)
  · rw [if_neg hne]
    have hKv : val C d (K - 1) = val C d K := not_not.mp hne
    by_cases hst : K - 1 = 0
    · rw [if_pos hst]
      refine ⟨C, K - 1, rfl, hperm, hsort.symm, by omega, ?_, ?_, ?_⟩
      · intro g hg1 hg2
        exact absurd hg2 (by omega)
      · intro g hg1 hg2 hg3
        rcases Nat.eq_or_lt_of_le hg3 with h | h
        · rw [h]
        · have hg : g = K - 1 := by omega
          rw [hg]
          exact hKv
      · intro h
        exact absurd h (by omega)
    · rw [if_neg hst]
      have hspec := rollGo_spec C d (val C d K) (K - 1 - 1)
      rw [show K - 1 - 1 + 1 = K - 1 from by omega] at hspec
      obtain ⟨r1, r2, r3⟩ := hspec
      refine ⟨C, _, rfl, hperm, hsort.symm, by omega, ?_, ?_, ?_⟩
      · intro g hg1 hg2
        by_cases hgI : g < I
        · exact hreg1 g hg1 hgI
        · exfalso
          have h0 : 0 < rollGo C d (val C d K) (K - 1 - 1) (K - 1) := by omega
          have h3 := r3 h0
          have h4 : val C d (rollGo C d (val C d K) (K - 1 - 1) (K - 1) - 1) =
              val C d K := hreg2 _ (by omega) (by omega)
          omega
      · intro g hg1 hg2 hg3
        rcases Nat.eq_or_lt_of_le hg3 with h | h
        · rw [h]
        · by_cases hgK1 : g = K - 1
          · rw [hgK1]; exact hKv
          · have h5 := r2 g hg2 (by omega)
            have hgI : I ≤ g := by
              by_contra h6
              have := hreg1 g hg1 (by omega)
              omega
            exact hreg2 g hgI (by omega)
      · intro hLr
        exact r3 (by omega)

/-- C2 (corrected): the claimed postcondition fails as stated — the
rollback of lines 1022-1031 scans down to global index 0, not to `L`,
so the returned `K'` can drop below `L` into territory whose values are
unrelated to the pivot.  With points `[9, 5, 5, 5]` and the window
`[1, 3]`, `Select` returns `K' = 0` although the value at index 0 is 9,
not the pivot value 5 found at `K = 3`, violating "every point at
`[K', K]` has coordinate equal to the coordinate at `K`". -/
theorem C2_select_counterexample :
    (select orcId (#[⟨9, 0, 0⟩, ⟨5, 0, 0⟩, ⟨5, 0, 0⟩, ⟨5, 0, 0⟩] : Array Pt)
        1 3 0).2 = 0 ∧
    val (select orcId
        (#[⟨9, 0, 0⟩, ⟨5, 0, 0⟩, ⟨5, 0, 0⟩, ⟨5, 0, 0⟩] : Array Pt)
        1 3 0).1 0 0 = 9 ∧
    val (select orcId
        (#[⟨9, 0, 0⟩, ⟨5, 0, 0⟩, ⟨5, 0, 0⟩, ⟨5, 0, 0⟩] : Array Pt)
        1 3 0).1 0 3 = 5 := by
  decide

/-- C2 (amended): for `L < R`, `Select` permutes `[L, R]`, places the
`(K - L + 1)`-th smallest coordinate along `d` at `K = (R+L)/2 + 1`,
and returns `K' ≤ K` with `[L, K')` strictly below the pivot value,
`[max(K', L), K]` equal to it (the clamp at `L` is the amendment: the
rollback can run past `L`), and the value left of `K'` strictly smaller
whenever `K' > L`.  The recursive Floyd-Rivest sampling step (lines
906-921, `float` transcendentals) enters as an oracle `orc` assumed
only to permute the window it is given. -/
theorem C2_select_postcondition (orc : Nat → Nat → Nat → Array Pt → Array Pt)
    (horc : ∀ n a b B, permWithin a b B (orc n a b B))
    (A : Array Pt) (L R d : Nat) (hsz : R < A.size) (hLR : L < R) :
    ∃ C r, select orc A L R d = (C, r) ∧
      permWithin L R A C ∧
      val C d ((R + L) / 2 + 1) =
        (sortedVals A d L R).getD ((R + L) / 2 + 1 - L) 0 ∧
      r ≤ (R + L) / 2 + 1 ∧
      (∀ g, L ≤ g → g < r → val C d g < val C d ((R + L) / 2 + 1)) ∧
      (∀ g, L ≤ g → r ≤ g → g ≤ (R + L) / 2 + 1 →
        val C d g = val C d ((R + L) / 2 + 1)) ∧
      (L < r → val C d (r - 1) < val C d ((R + L) / 2 + 1)) :=
  select_spec orc horc A L R d hsz hLR

theorem C2_select_postcondition_witness :
    ∃ C r, select orcId (#[⟨3, 0, 0⟩, ⟨1, 0, 0⟩, ⟨2, 0, 0⟩] : Array Pt)
        0 2 0 = (C, r) ∧
      permWithin 0 2 (#[⟨3, 0, 0⟩, ⟨1, 0, 0⟩, ⟨2, 0, 0⟩] : Array Pt) C ∧
      val C 0 ((2 + 0) / 2 + 1) =
        (sortedVals (#[⟨3, 0, 0⟩, ⟨1, 0, 0⟩, ⟨2, 0, 0⟩] : Array Pt) 0 0 2).getD
          ((2 + 0) / 2 + 1 - 0) 0 ∧
      r ≤ (2 + 0) / 2 + 1 ∧
      (∀ g, 0 ≤ g → g < r → val C 0 g < val C 0 ((2 + 0) / 2 + 1)) ∧
      (∀ g, 0 ≤ g → r ≤ g → g ≤ (2 + 0) / 2 + 1 →
        val C 0 g = val C 0 ((2 + 0) / 2 + 1)) ∧
      (0 < r → val C 0 (r - 1) < val C 0 ((2 + 0) / 2 + 1)) :=
  C2_select_postcondition orcId (fun n a b B => permWithin_refl a b B)
    (#[⟨3, 0, 0⟩, ⟨1, 0, 0⟩, ⟨2, 0, 0⟩] : Array Pt) 0 2 0 (by decide) (by decide)

/-- C3: the `while (R > L)` loop of `_select` terminates for every
`L ≤ K ≤ R`: each round the three-way partition has a non-empty
pivot block, so `L = J` strictly raises `L`, `R = I - 1` strictly
lowers `R`, or the loop ends; any fuel exceeding the window width
suffices. -/
theorem C3_select_terminates (orc : Nat → Nat → Nat → Array Pt → Array Pt)
    (horc : ∀ n a b B, permWithin a b B (orc n a b B))
    (A : Array Pt) (L R K d n fuel : Nat)
    (h1 : L ≤ K) (h2 : K ≤ R) (h3 : R < A.size) (hfuel : R - L < fuel) :
    (selectLoop d orc fuel n A L R K).isSome = true := by
  obtain ⟨C, I, J, heq, _⟩ := selectLoop_spec d orc horc A L R K fuel n A L R
    h3 rfl hfuel (le_refl L) h1 h2 (le_refl R) (permWithin_refl _ _ _)
    (fun g hg1 hg2 h hh1 hh2 => absurd hg2 (by omega))
    (fun g hg1 hg2 h hh1 hh2 => absurd hg1 (by omega))
  rw [heq]
  rfl

theorem C3_select_terminates_witness :
    (selectLoop 0 orcId 3 0 (#[⟨3, 0, 0⟩, ⟨1, 0, 0⟩, ⟨2, 0, 0⟩] : Array Pt)
      0 2 2).isSome = true :=
  C3_select_terminates orcId (fun n a b B => permWithin_refl a b B)
    (#[⟨3, 0, 0⟩, ⟨1, 0, 0⟩, ⟨2, 0, 0⟩] : Array Pt) 0 2 2 0 0 3
    (by decide) (by decide) (by decide) (by decide)

/-! ## `DivideRegion` point counts (C4) -/

/-- A subtree's root carries the point count it was built for. -/
theorem rootCount_buildTree (dt : Int → Nat → Bool) (sel : Nat → Nat → Nat)
    (fuel L : Nat) (n : Int) (level : Nat) :
    rootCount (buildTree dt sel fuel L n level) = n := by
  cases fuel with
  | zero => rfl
  | succ f =>
    simp only [buildTree]
    split
    · rfl
    · split
      · rfl
      · rfl

/-- Every internal node's count is the sum of its children's counts. -/
theorem internalSumOK_buildTree (dt : Int → Nat → Bool) (sel : Nat → Nat → Nat) :
    ∀ (fuel L : Nat) (n : Int) (level : Nat),
    internalSumOK (buildTree dt sel fuel L n level) = true := by
  intro fuel
  induction fuel with
  | zero => intro L n level; rfl
  | succ f ih =>
    intro L n level
    simp only [buildTree]
    split
    · rfl
    · split
      · next hn =>
        simp only [internalSumOK, rootCount_buildTree, ih, Bool.and_true,
          decide_eq_true_eq]
        omega
      · next hn =>
        simp only [internalSumOK, rootCount_buildTree, ih, Bool.and_true,
          decide_eq_true_eq]
        omega

/-- The leaf counts sum to the root count. -/
theorem leafSum_buildTree (dt : Int → Nat → Bool) (sel : Nat → Nat → Nat) :
    ∀ (fuel L : Nat) (n : Int) (level : Nat),
    leafSum (buildTree dt sel fuel L n level) = n := by
  intro fuel
  induction fuel with
  | zero => intro L n level; rfl
  | succ f ih =>
    intro L n level
    simp only [buildTree]
    split
    · rfl
    · split
      · next hn =>
        simp only [leafSum, ih]
        omega
      · next hn =>
        simp only [leafSum, ih]
        omega

/-- C4: whenever `DivideRegion` splits a node of `n = num_points` over
`[L, L + n - 1]`, the children's counts add up to `n`: the left child
gets `midpt - L` points and the right `R - midpt + 1` (lines 835, 841),
and in the `n < 2` special case the left gets `n` and the right `0`
(lines 740, 747); consequently in every built tree each internal node's
count is the sum of its children's, and the leaf counts sum to the
root's `N`. -/
theorem C4_divide_region_counts (dt : Int → Nat → Bool)
    (sel : Nat → Nat → Nat) :
    (∀ fuel L (n : Int) level,
      internalSumOK (buildTree dt sel fuel L n level) = true) ∧
    (∀ fuel L (n : Int) level, leafSum (buildTree dt sel fuel L n level) = n) ∧
    (∀ fuel L (n : Int) level, dt n level = true →
      ∃ l r, buildTree dt sel (fuel + 1) L n level = .node n l r ∧
        rootCount l + rootCount r = n ∧
        (n < 2 → rootCount l = n ∧ rootCount r = 0) ∧
        (2 ≤ n →
          rootCount l = (sel L (L + n.toNat - 1) : Int) - (L : Int) ∧
          rootCount r = ((L + n.toNat - 1 : Nat) : Int) -
            (sel L (L + n.toNat - 1) : Int) + 1)) := by
  refine ⟨internalSumOK_buildTree dt sel, leafSum_buildTree dt sel, ?_⟩
  intro fuel L n level hdt
  simp only [buildTree]
  rw [if_neg (not_not_intro hdt)]
  by_cases hn : n < 2
  · rw [if_pos hn]
    exact ⟨_, _, rfl,
      by simp only [rootCount_buildTree]; omega,
      fun _ => by simp [rootCount_buildTree],
      fun h => absurd h (by omega)⟩
  · rw [if_neg hn]
    exact ⟨_, _, rfl,
      by simp only [rootCount_buildTree]; omega,
      fun h => absurd h hn,
      fun _ => by simp [rootCount_buildTree]⟩

theorem C4_divide_region_counts_witness :
    internalSumOK (buildTree (fun _ _ => true) (fun L R => (L + R) / 2 + 1)
      3 0 10 0) = true ∧
    leafSum (buildTree (fun _ _ => true) (fun L R => (L + R) / 2 + 1)
      3 0 10 0) = 10 ∧
    ∃ l r, buildTree (fun _ _ => true) (fun L R => (L + R) / 2 + 1)
        3 0 10 0 = .node 10 l r ∧ rootCount l + rootCount r = 10 := by
  refine ⟨(C4_divide_region_counts _ _).1 3 0 10 0,
    (C4_divide_region_counts _ _).2.1 3 0 10 0, ?_⟩
  obtain ⟨l, r, h1, h2, _⟩ := (C4_divide_region_counts (fun _ _ => true)
    (fun L R => (L + R) / 2 + 1)).2.2 2 0 10 0 rfl
  exact ⟨l, r, h1, h2⟩

/-! ## `BuildGlobalIndexLists` / `WhoHas` (C5) -/

/-- `EndVal[i] = StartVal[i] + NumCells[i] - 1` (lines 2361-2368). -/
theorem endVal_eq (counts : List Int) (i : Nat) :
    endVal counts i = startVal counts i + counts.getD i 0 - 1 := by
  cases i with
  | zero => simp only [endVal, startVal]; omega
  | succ i => simp only [endVal, startVal]; omega

/-- The running total equals the end of the last interval plus one. -/
theorem totalAux_endVal (counts : List Int) :
    ∀ i, totalAux counts i = endVal counts i + 1 := by
  intro i
  induction i with
  | zero => simp only [totalAux, endVal]; omega
  | succ i ih => simp only [totalAux, endVal]; omega

/-- Peeling one more element off a prefix sum. -/
theorem take_sum_succ (l : List Int) :
    ∀ i, (l.take (i + 1)).sum = (l.take i).sum + l.getD i 0 := by
  induction l with
  | nil => intro i; simp
  | cons x xs ih =>
    intro i
    cases i with
    | zero => simp
    | succ i =>
      simp only [List.take_succ_cons, List.sum_cons, List.getD_cons_succ]
      rw [ih i]
      omega

/-- The running total is the prefix sum. -/
theorem totalAux_take (counts : List Int) :
    ∀ i, totalAux counts i = (counts.take (i + 1)).sum := by
  intro i
  induction i with
  | zero =>
    cases counts with
    | nil => simp [totalAux]
    | cons x xs => simp [totalAux]
  | succ i ih =>
    simp only [totalAux]
    rw [ih, take_sum_succ counts (i + 1)]

/-- `TotalNumCells` is the sum of the per-process counts. -/
theorem totalNumCells_sum (counts : List Int) :
    totalNumCells counts = counts.sum := by
  rw [totalNumCells, totalAux_take]
  cases counts with
  | nil => simp
  | cons x xs =>
    rw [show (x :: xs).length - 1 + 1 = (x :: xs).length from by simp]
    rw [List.take_length]

/-- Every `getD` entry of a nonnegative list is nonnegative. -/
theorem getD_nonneg {counts : List Int} (hpos : ∀ x ∈ counts, 0 ≤ x)
    (i : Nat) : 0 ≤ counts.getD i 0 := by
  by_cases h : i < counts.length
  · rw [List.getD_eq_getElem counts 0 h]
    exact hpos _ (counts.getElem_mem h)
  · rw [List.getD_eq_default counts 0 (by omega)]

/-- With nonnegative counts the interval starts are monotone. -/
theorem startVal_mono {counts : List Int} (hpos : ∀ x ∈ counts, 0 ≤ x) :
    ∀ i j, i ≤ j → startVal counts i ≤ startVal counts j := by
  have hstep : ∀ i, startVal counts i ≤ startVal counts (i + 1) := by
    intro i
    have h1 := endVal_eq counts i
    have h2 := getD_nonneg hpos i
    have h3 : startVal counts (i + 1) = endVal counts i + 1 := rfl
    omega
  intro i j hij
  induction j with
  | zero =>
    have : i = 0 := by omega
    rw [this]
  | succ j ih =>
    rcases Nat.eq_or_lt_of_le hij with h | h
    · rw [h]
    · exact le_trans (ih (by omega)) (hstep j)

/-- `_whoHas` (lines 1043-1064): the binary search stays in `[L, R]`
and returns an index whose interval `[StartVal[m], StartVal[m+1])`
contains `pos`, assuming the search window brackets `pos`. -/
theorem whoHasAux_spec (startV : Nat → Int) :
    ∀ (fuel L R : Nat) (pos : Int), R - L < fuel → L ≤ R →
    startV L ≤ pos → pos < startV (R + 1) →
    L ≤ whoHasAux startV fuel L R pos ∧ whoHasAux startV fuel L R pos ≤ R ∧
    startV (whoHasAux startV fuel L R pos) ≤ pos ∧
    pos < startV (whoHasAux startV fuel L R pos + 1) := by
  intro fuel
  induction fuel with
  | zero => intro L R pos h1 h2 _ _; omega
  | succ f ih =>
    intro L R pos h1 h2 h3 h4
    simp only [whoHasAux]
    by_cases hLR : L = R
    · rw [if_pos hLR]
      refine ⟨le_refl _, by omega, h3, ?_⟩
      rw [hLR]
      exact h4
    · rw [if_neg hLR]
      have hMR : (L + R) / 2 < R := by omega
      have hML2 : L ≤ (L + R) / 2 := by omega
      by_cases hc1 : pos < startV ((L + R) / 2)
      · rw [if_pos hc1]
        have hML : L < (L + R) / 2 := by
          rcases Nat.lt_or_ge L ((L + R) / 2) with h | h
          · exact h
          · exfalso
            have he : (L + R) / 2 = L := by omega
            rw [he] at hc1
            omega
        have := ih L ((L + R) / 2 - 1) pos (by omega) (by omega) h3
          (by rw [show (L + R) / 2 - 1 + 1 = (L + R) / 2 from by omega]
              exact hc1)
        exact ⟨this.1, by omega, this.2.2.1, this.2.2.2⟩
      · rw [if_neg hc1]
        by_cases hc2 : pos < startV ((L + R) / 2 + 1)
        · rw [if_pos hc2]
          exact ⟨by omega, by omega, by omega, hc2⟩
        · rw [if_neg hc2]
          obtain ⟨a1, a2, a3, a4⟩ :=
            ih ((L + R) / 2 + 1) R pos (by omega) (by omega) (by omega) h4
          exact ⟨by omega, a2, a3, a4⟩

/-- C5 (corrected): the counterexample to the strict-increase clause —
with the admissible counts `[0, 0]` (both `≥ 0`) neither the interval
starts nor the interval ends are strictly increasing. -/
theorem C5_index_lists_counterexample :
    (∀ x ∈ ([0, 0] : List Int), 0 ≤ x) ∧
    ¬ (startVal [0, 0] 0 < startVal [0, 0] 1) ∧
    ¬ (endVal [0, 0] 0 < endVal [0, 0] 1) := by
  refine ⟨by decide, by decide, by decide⟩

/-- C5 (amended): for nonnegative per-process counts,
`StartVal[0] = 0`, `EndVal[i] = StartVal[i] + NumCells[i] - 1`,
`StartVal[i+1] = EndVal[i] + 1`, `TotalNumCells` is the total count,
the start/end vectors are strictly increasing **provided every count is
positive** (the amendment: zero counts make consecutive entries equal),
and for every global index in range `WhoHas` returns the unique process
whose interval contains it. -/
theorem C5_global_index_lists (counts : List Int)
    (hpos : ∀ x ∈ counts, 0 ≤ x) :
    startVal counts 0 = 0 ∧
    (∀ i, endVal counts i = startVal counts i + counts.getD i 0 - 1) ∧
    (∀ i, startVal counts (i + 1) = endVal counts i + 1) ∧
    totalNumCells counts = counts.sum ∧
    ((∀ i, i < counts.length → 0 < counts.getD i 0) →
      ∀ i, i + 1 < counts.length →
        startVal counts i < startVal counts (i + 1) ∧
        endVal counts i < endVal counts (i + 1)) ∧
    (∀ pos : Int, 0 ≤ pos → pos < totalNumCells counts →
      ∃ p : Nat, whoHas counts pos = (p : Int) ∧ p < counts.length ∧
        startVal counts p ≤ pos ∧ pos ≤ endVal counts p ∧
        (∀ q : Nat, q < counts.length → startVal counts q ≤ pos →
          pos ≤ endVal counts q → q = p)) := by
  refine ⟨rfl, endVal_eq counts, fun i => rfl, totalNumCells_sum counts,
    ?_, ?_⟩
  · intro hall i hi
    have h1 := endVal_eq counts i
    have h2 := endVal_eq counts (i + 1)
    have h3 : startVal counts (i + 1) = endVal counts i + 1 := rfl
    have h4 := hall i (by omega)
    have h5 := hall (i + 1) hi
    constructor <;> omega
  · intro pos hpos1 hpos2
    have hPlen : 0 < counts.length := by
      by_contra h
      have : counts = [] := List.length_eq_zero.mp (by omega)
      rw [this] at hpos2
      simp [totalNumCells, totalAux] at hpos2
      omega
    have hend : startVal counts counts.length = totalNumCells counts := by
      have h1 : counts.length = counts.length - 1 + 1 := by omega
      rw [h1, startVal, ← totalAux_endVal, totalNumCells]
    obtain ⟨m1, m2, m3, m4⟩ := whoHasAux_spec (startVal counts) counts.length
      0 (counts.length - 1) pos (by omega) (by omega) hpos1
      (by rw [show counts.length - 1 + 1 = counts.length from by omega, hend]
          exact hpos2)
    set m := whoHasAux (startVal counts) counts.length 0 (counts.length - 1)
      pos with hm
    have hwho : whoHas counts pos = (m : Int) := by
      rw [whoHas, if_neg (by omega)]
    have hmend : pos ≤ endVal counts m := by
      have := endVal_eq counts m
      have h3 : startVal counts (m + 1) = endVal counts m + 1 := rfl
      omega
    refine ⟨m, hwho, by omega, m3, hmend, ?_⟩
    intro q hq hq1 hq2
    by_cases hqm : q < m
    · exfalso
      have h3 : startVal counts (q + 1) = endVal counts q + 1 := rfl
      have := startVal_mono hpos (q + 1) m (by omega)
      omega
    · by_cases hmq : m < q
      · exfalso
        have h3 : startVal counts (m + 1) = endVal counts m + 1 := rfl
        have := startVal_mono hpos (m + 1) q (by omega)
        omega
      · omega

theorem C5_global_index_lists_witness :
    startVal [2, 3] 0 = 0 ∧
    endVal [2, 3] 1 = startVal [2, 3] 1 + ([2, 3] : List Int).getD 1 0 - 1 ∧
    startVal [2, 3] 1 = endVal [2, 3] 0 + 1 ∧
    totalNumCells [2, 3] = ([2, 3] : List Int).sum ∧
    startVal [2, 3] 0 < startVal [2, 3] 1 ∧
    whoHas [2, 3] 3 = 1 := by
  have h := C5_global_index_lists [2, 3] (by decide)
  refine ⟨h.1, h.2.1 1, h.2.2.1 0, h.2.2.2.1,
    (h.2.2.2.2.1 (by decide) 0 (by decide)).1, ?_⟩
  obtain ⟨p, hp1, hp2, hp3, hp4, hp5⟩ := h.2.2.2.2.2 3 (by decide) (by decide)
  have hp : (1 : Nat) = p := hp5 1 (by decide) (by decide) (by decide)
  rw [hp1, ← hp]
  rfl

/-! ## The coincident-points fallback of `DivideRegion` (C6) -/

/-- The retry loop of lines 777-807: if every tried dimension yields a
split index below `L + 1`, the fallback pair
`(maxdim, (L + R)/2 + 1)` is produced. -/
theorem tryDims_all_fail (sel : Nat → Nat → Nat → Nat)
    (validDirs maxdim L R : Nat) :
    ∀ l : List Nat,
    (∀ dm ∈ l, ¬(dm = maxdim ∨ validDirs &&& (1 <<< dm) = 0) →
      sel dm L R < L + 1) →
    tryDims sel validDirs maxdim L R l = (maxdim, (L + R) / 2 + 1) := by
  intro l
  induction l with
  | nil => intro _; rfl
  | cons dm rest ih =>
    intro hall
    simp only [tryDims]
    by_cases h1 : dm = maxdim ∨ validDirs &&& (1 <<< dm) = 0
    · rw [if_pos h1]
      exact ih (fun d hd h => hall d (List.mem_cons_of_mem _ hd) h)
    · rw [if_neg h1]
      rw [if_neg (by have := hall dm (List.mem_cons_self _ _) h1; omega)]
      exact ih (fun d hd h => hall d (List.mem_cons_of_mem _ hd) h)

/-- C6: when `Select` on the chosen dimension and on every other
permitted dimension returns an index below `L + 1` (all points
coincident along each tried dimension), `DivideRegion` splits
unconditionally at `midpt = (L + R)/2 + 1` on the originally chosen
dimension (lines 790-798); for at least two points (`L < R`) this
midpoint lies in `[L + 1, R]`, so both children receive at least one
point; with ten equal points (`L = 0`, `R = 9`) the split index is 5. -/
theorem C6_coincident_fallback (sel : Nat → Nat → Nat → Nat)
    (validDirs maxdim L R : Nat)
    (h0 : sel maxdim L R < L + 1)
    (hall : ∀ dm ∈ [0, 1, 2], ¬(dm = maxdim ∨ validDirs &&& (1 <<< dm) = 0) →
      sel dm L R < L + 1) :
    findCut sel validDirs maxdim L R = (maxdim, (L + R) / 2 + 1) ∧
    (L < R → L + 1 ≤ (L + R) / 2 + 1 ∧ (L + R) / 2 + 1 ≤ R ∧
      1 ≤ (L + R) / 2 + 1 - L ∧ 1 ≤ R - ((L + R) / 2 + 1) + 1) ∧
    (L = 0 → R = 9 → (L + R) / 2 + 1 = 5) := by
  refine ⟨?_, ?_, ?_⟩
  · simp only [findCut]
    rw [if_neg (by omega)]
    exact tryDims_all_fail sel validDirs maxdim L R [0, 1, 2] hall
  · intro h
    refine ⟨by omega, by omega, by omega, by omega⟩
  · intro h1 h2
    subst h1
    subst h2
    rfl

theorem C6_coincident_fallback_witness :
    findCut (fun _ _ _ => 0) 7 2 0 9 = (2, 5) ∧
    1 ≤ (0 + 9) / 2 + 1 - 0 ∧ 1 ≤ 9 - ((0 + 9) / 2 + 1) + 1 ∧
    (0 + 9) / 2 + 1 = 5 := by
  have h := C6_coincident_fallback (fun _ _ _ => 0) 7 2 0 9 (by decide)
    (fun dm _ _ => Nat.zero_lt_one)
  exact ⟨h.1, (h.2.1 (by decide)).2.2.1, (h.2.1 (by decide)).2.2.2,
    h.2.2 rfl rfl⟩

/-! ## `CheckFixRegionBoundaries` (C7) -/

/-- A guarded write `if ((a - b) != 0.0) a = b` forces `a = b`. -/
theorem forced_eq {a b : Rat} : (if a - b ≠ 0 then b else a) = b := by
  by_cases h : a - b ≠ 0
  · rw [if_pos h]
  · rw [if_neg h]
    have h2 : a - b = 0 := not_not.mp h
    linarith

/-- Components of a built triple, for the three real dimensions. -/
theorem vg_vmk (f : Nat → Rat) (d : Nat) (hd : d < 3) : vg (vmk f) d = f d := by
  match d, hd with
  | 0, _ => rfl
  | 1, _ => rfl
  | 2, _ => rfl

/-- `checkFixAt` installs exactly the bounds passed to it at the root
of its result. -/
theorem rmn_rmx_checkFixAt (t : RTree) (mn mx : V3) :
    (checkFixAt t mn mx).rmn = mn ∧ (checkFixAt t mn mx).rmx = mx := by
  cases t with
  | lf a b => exact ⟨rfl, rfl⟩
  | nd dim a b l r => exact ⟨rfl, rfl⟩

/-- After the fix-up pass every internal node satisfies the claimed
boundary equalities. -/
theorem goodFix_checkFixAt (t : RTree) :
    ∀ mn mx, goodFix (checkFixAt t mn mx) = true := by
  induction t with
  | lf a b => intro mn mx; rfl
  | nd dim mn0 mx0 l r ihl ihr =>
    intro mn mx
    simp only [checkFixAt, goodFix, ihl, ihr, Bool.and_true]
    rw [List.all_eq_true]
    intro d hd
    have hd3 : d < 3 := List.mem_range.mp hd
    obtain ⟨hl1, hl2⟩ := rmn_rmx_checkFixAt l
      (vmk fun d => if vg l.rmn d - vg mn d ≠ 0 then vg mn d else vg l.rmn d)
      (vmk fun d =>
        if d ≠ dim then
          (if vg l.rmx d - vg mx d ≠ 0 then vg mx d else vg l.rmx d)
        else (if vg l.rmx d - vg r.rmn d ≠ 0 then vg r.rmn d else vg l.rmx d))
    obtain ⟨hr1, hr2⟩ := rmn_rmx_checkFixAt r
      (vmk fun d =>
        if d ≠ dim then
          (if vg r.rmn d - vg mn d ≠ 0 then vg mn d else vg r.rmn d)
        else vg r.rmn d)
      (vmk fun d => if vg r.rmx d - vg mx d ≠ 0 then vg mx d else vg r.rmx d)
    rw [hl1, hl2, hr1, hr2]
    rw [vg_vmk _ d hd3, vg_vmk _ d hd3, vg_vmk _ d hd3, vg_vmk _ d hd3]
    simp only [Bool.and_eq_true, decide_eq_true_eq]
    refine ⟨⟨forced_eq, forced_eq⟩, ?_⟩
    by_cases hdim : d ≠ dim
    · rw [if_pos hdim, if_pos hdim, if_pos hdim]
      simp only [Bool.and_eq_true, decide_eq_true_eq]
      exact ⟨forced_eq, forced_eq⟩
    · rw [if_neg hdim, if_neg hdim, if_neg hdim]
      simp only [decide_eq_true_eq]
      exact forced_eq

/-- C7: after `CheckFixRegionBoundaries` every internal node with split
dimension `dim` has, in every dimension, its left child's min bound
equal to its own min and its right child's max bound equal to its own
max; in each dimension other than `dim` the left child's max equals its
max and the right child's min equals its min; and in dimension `dim`
the left child's max equals the right child's min exactly. -/
theorem C7_check_fix_boundaries (t : RTree) : goodFix (checkFix t) = true :=
  goodFix_checkFixAt t t.rmn t.rmx

/-! ## Round-robin region assignment (C8) -/

/-- The assignment loop writes one entry per region. -/
theorem rrGo_length (P : Nat) : ∀ n p, (rrGo P n p).length = n := by
  intro n
  induction n with
  | zero => intro p; rfl
  | succ n ih => intro p; simp [rrGo, ih]

/-- The round-robin counter wraps modulo `P`: entry `i` of the loop
started at `p < P` is `(p + i) % P`. -/
theorem rrGo_getD (P : Nat) (hP : 0 < P) :
    ∀ n p i, p < P → i < n → (rrGo P n p).getD i 0 = (p + i) % P := by
  intro n
  induction n with
  | zero => intro p i _ h; omega
  | succ n ih =>
    intro p i hp hi
    cases i with
    | zero =>
      simp only [rrGo, List.getD_cons_zero]
      rw [Nat.add_zero, Nat.mod_eq_of_lt hp]
    | succ i =>
      simp only [rrGo, List.getD_cons_succ]
      by_cases hlast : p = P - 1
      · rw [if_pos hlast]
        rw [ih 0 i hP (by omega)]
        rw [show p + (i + 1) = P + i from by omega, Nat.add_mod_left]
        simp
      · rw [if_neg hlast]
        rw [ih (p + 1) i (by omega) (by omega)]
        rw [show p + 1 + i = p + (i + 1) from by omega]

/-- Reading a `set` list at the written position. -/
theorem getD_set_self (l : List (List Nat)) (i : Nat) (v : List Nat)
    (h : i < l.length) : (l.set i v).getD i [] = v := by
  rw [List.getD_eq_getElem _ _ (by simpa using h)]
  simp [List.getElem_set]

/-- Reading a `set` list away from the written position. -/
theorem getD_set_ne (l : List (List Nat)) (i j : Nat) (v : List Nat)
    (hij : i ≠ j) : (l.set i v).getD j [] = l.getD j [] := by
  by_cases hj : j < l.length
  · rw [List.getD_eq_getElem _ _ (by simpa using hj),
      List.getD_eq_getElem _ _ hj]
    simp [List.getElem_set, hij]
  · rw [List.getD_eq_default _ _ (by simpa using hj),
      List.getD_eq_default _ _ (by omega)]

/-- The filling loop of `BuildRegionListsForProcesses` (lines
3096-3105): it preserves the shape of the table, the final list of a
process holds its old entries plus exactly the positions assigned to
it, and lists stay strictly increasing because regions are appended in
increasing order. -/
theorem buildListsGo_spec :
    ∀ (rest : List Nat) (acc : List (List Nat)) (r0 : Nat),
    (∀ q ∈ rest, q < acc.length) →
    (buildListsGo acc r0 rest).length = acc.length ∧
    (∀ p, p < acc.length → ∀ r,
      (r ∈ (buildListsGo acc r0 rest).getD p [] ↔
        r ∈ acc.getD p [] ∨ ∃ i, i < rest.length ∧ rest.getD i 0 = p ∧
          r = r0 + i)) ∧
    (∀ p, p < acc.length → (∀ x ∈ acc.getD p [], x < r0) →
      List.Sorted (fun a b => a < b) (acc.getD p []) →
      List.Sorted (fun a b => a < b) ((buildListsGo acc r0 rest).getD p [])) := by
  intro rest
  induction rest with
  | nil =>
    intro acc r0 _
    refine ⟨rfl, ?_, fun p _ _ hs => hs⟩
    intro p _ r
    simp only [buildListsGo, List.length_nil]
    constructor
    · intro h; exact Or.inl h
    · intro h
      rcases h with h | ⟨i, hi, _⟩
      · exact h
      · omega
  | cons proc rest ih =>
    intro acc r0 hall
    have hproc : proc < acc.length := hall proc (List.mem_cons_self _ _)
    set acc' := acc.set proc (acc.getD proc [] ++ [r0]) with hacc'
    have hlen' : acc'.length = acc.length := by
      rw [hacc', List.length_set]
    obtain ⟨L1, L2, L3⟩ := ih acc' (r0 + 1)
      (fun q hq => by rw [hlen']; exact hall q (List.mem_cons_of_mem _ hq))
    have hstep : buildListsGo acc r0 (proc :: rest) =
        buildListsGo acc' (r0 + 1) rest := rfl
    refine ⟨by rw [hstep, L1, hlen'], ?_, ?_⟩
    · intro p hp r
      rw [hstep, L2 p (by omega) r]
      by_cases hpp : p = proc
      · subst hpp
        rw [hacc', getD_set_self acc p _ hp]
        constructor
        · intro h
          rcases h with h | ⟨i, hi, h2, h3⟩
          · rcases List.mem_append.mp h with h | h
            · exact Or.inl h
            · refine Or.inr ⟨0, by simp, ?_, ?_⟩
              · simp
              · simp at h
                omega
          · exact Or.inr ⟨i + 1, by simpa using hi, by simpa using h2,
              by omega⟩
        · intro h
          rcases h with h | ⟨i, hi, h2, h3⟩
          · exact Or.inl (List.mem_append.mpr (Or.inl h))
          · cases i with
            | zero =>
              refine Or.inl (List.mem_append.mpr (Or.inr ?_))
              simp
              omega
            | succ i =>
              refine Or.inr ⟨i, by simpa using hi, by simpa using h2,
                by omega⟩
      · rw [hacc', getD_set_ne acc proc p _ (Ne.symm hpp)]
        constructor
        · intro h
          rcases h with h | ⟨i, hi, h2, h3⟩
          · exact Or.inl h
          · exact Or.inr ⟨i + 1, by simpa using hi, by simpa using h2,
              by omega⟩
        · intro h
          rcases h with h | ⟨i, hi, h2, h3⟩
          · exact Or.inl h
          · cases i with
            | zero =>
              exfalso
              simp at h2
              exact hpp h2.symm
            | succ i =>
              exact Or.inr ⟨i, by simpa using hi, by simpa using h2,
                by omega⟩
    · intro p hp hbound hsort
      rw [hstep]
      refine L3 p (by omega) ?_ ?_
      · intro x hx
        by_cases hpp : p = proc
        · subst hpp
          rw [hacc', getD_set_self acc p _ hp] at hx
          rcases List.mem_append.mp hx with h | h
          · have := hbound x h
            omega
          · simp at h
            omega
        · rw [hacc', getD_set_ne acc proc p _ (Ne.symm hpp)] at hx
          have := hbound x hx
          omega
      · by_cases hpp : p = proc
        · subst hpp
          rw [hacc', getD_set_self acc p _ hp]
          refine List.pairwise_append.mpr ⟨hsort, List.sorted_singleton _, ?_⟩
          intro a ha b hb
          simp at hb
          rw [hb]
          exact hbound a ha
        · rw [hacc', getD_set_ne acc proc p _ (Ne.symm hpp)]
          exact hsort

/-- C8: after `AssignRegionsRoundRobin` with `P` processes and `R`
regions, region `r` maps to process `r % P`; each process `p` is
assigned exactly the regions `{r < R : r % P = p}`; every per-process
region list is strictly increasing; and with `P = 4`, `R = 16`,
process 2's list is `[2, 6, 10, 14]`. -/
theorem C8_round_robin (P R : Nat) (hP : 0 < P) :
    (∀ r, r < R → (regionAssignmentMapRR P R).getD r 0 = r % P) ∧
    (∀ p, p < P → ∀ r,
      (r ∈ (buildRegionLists P (regionAssignmentMapRR P R)).getD p [] ↔
        r < R ∧ r % P = p)) ∧
    (∀ p, p < P → List.Sorted (fun a b => a < b)
      ((buildRegionLists P (regionAssignmentMapRR P R)).getD p [])) ∧
    (buildRegionLists 4 (regionAssignmentMapRR 4 16)).getD 2 [] =
      [2, 6, 10, 14] := by
  have hmap : ∀ r, r < R → (regionAssignmentMapRR P R).getD r 0 = r % P := by
    intro r hr
    rw [regionAssignmentMapRR, rrGo_getD P hP R 0 r hP hr]
    simp
  have hlen : (regionAssignmentMapRR P R).length = R := rrGo_length P R 0
  have hrep : ∀ p : Nat, (List.replicate P ([] : List Nat)).getD p [] = [] := by
    intro p
    by_cases h : p < P
    · rw [List.getD_eq_getElem _ _ (by simpa using h)]
      simp
    · rw [List.getD_eq_default _ _ (by simpa using h)]
  obtain ⟨B1, B2, B3⟩ := buildListsGo_spec (regionAssignmentMapRR P R)
    (List.replicate P []) 0
    (fun q hq => by
      rw [List.length_replicate]
      obtain ⟨i, hi, hq2⟩ := List.mem_iff_getElem.mp hq
      rw [hlen] at hi
      have hg : (regionAssignmentMapRR P R).getD i 0 = q := by
        rw [List.getD_eq_getElem _ _ (by rw [hlen]; exact hi)]
        exact hq2
      rw [hmap i hi] at hg
      have h2 : i % P < P := Nat.mod_lt i hP
      omega)
  refine ⟨hmap, ?_, ?_, by rfl⟩
  · intro p hp r
    rw [buildRegionLists,
      B2 p (by rw [List.length_replicate]; exact hp) r, hrep p]
    constructor
    · intro h
      rcases h with h | ⟨i, hi, h2, h3⟩
      · exact absurd h (List.not_mem_nil r)
      · rw [hlen] at hi
        rw [hmap i hi] at h2
        constructor
        · omega
        · rw [show r = i from by omega]
          exact h2
    · intro ⟨h1, h2⟩
      refine Or.inr ⟨r, by rw [hlen]; exact h1, ?_, by omega⟩
      rw [hmap r h1]
      exact h2
  · intro p hp
    rw [buildRegionLists]
    refine B3 p (by rw [List.length_replicate]; exact hp) ?_ ?_
    · rw [hrep p]
      exact fun x hx => absurd hx (List.not_mem_nil x)
    · rw [hrep p]
      exact List.sorted_nil

theorem C8_round_robin_witness :
    (regionAssignmentMapRR 4 16).getD 6 0 = 6 % 4 ∧
    (10 ∈ (buildRegionLists 4 (regionAssignmentMapRR 4 16)).getD 2 [] ↔
      10 < 16 ∧ 10 % 4 = 2) ∧
    List.Sorted (fun a b => a < b)
      ((buildRegionLists 4 (regionAssignmentMapRR 4 16)).getD 2 []) ∧
    (buildRegionLists 4 (regionAssignmentMapRR 4 16)).getD 2 [] =
      [2, 6, 10, 14] := by
  have h := C8_round_robin 4 16 (by decide)
  exact ⟨h.1 6 (by decide), h.2.1 2 (by decide) 10, h.2.2.1 2 (by decide),
    h.2.2.2⟩

/-- C9: before a successful build (empty lookup tables) and for every
out-of-range region or process id, the query entry points return their
sentinels without building anything: `GetProcessAssignedToRegion`
returns `-1` (lines 3412-3418), `HasData` returns `0` (lines
3424-3430), and `GetRegionAssignmentList` returns `0` with no regions
and the state unchanged (lines 3348-3361; with no tree,
`UpdateRegionAssignment` is the identity). -/
theorem C9_query_guards (s : QState) (upd : QState → QState)
    (hupd : s.hasTree = false → upd s = s) :
    (∀ regionId : Int, s.regionAssignmentMap = [] ∨ regionId < 0 ∨
      s.numRegions ≤ regionId → getProcessAssignedToRegion s regionId = -1) ∧
    (∀ processId regionId : Int,
      s.dataLocationMap = [] ∨ processId < 0 ∨ s.numProcesses ≤ processId ∨
        regionId < 0 ∨ s.numRegions ≤ regionId →
      hasData s processId regionId = 0) ∧
    (∀ procId : Int, procId < 0 ∨ s.numProcesses ≤ procId →
      getRegionAssignmentList upd s procId = (s, 0, [])) ∧
    (s.hasTree = false → s.regionAssignmentMap = [] →
      ∀ procId : Int, getRegionAssignmentList upd s procId = (s, 0, [])) := by
  refine ⟨?_, ?_, ?_, ?_⟩
  · intro regionId h
    rw [getProcessAssignedToRegion, if_pos h]
  · intro processId regionId h
    rw [hasData, if_pos h]
  · intro procId h
    rw [getRegionAssignmentList, if_pos h]
  · intro ht hmap procId
    rw [getRegionAssignmentList]
    by_cases h1 : procId < 0 ∨ s.numProcesses ≤ procId
    · rw [if_pos h1]
    · rw [if_neg h1, if_pos hmap]
      rw [hupd ht, if_pos hmap]

theorem C9_query_guards_witness :
    getProcessAssignedToRegion ⟨[], [], [], [], 2, 4, false⟩ 1 = -1 ∧
    hasData ⟨[], [], [], [], 2, 4, false⟩ 0 1 = 0 ∧
    getRegionAssignmentList id ⟨[], [], [], [], 2, 4, false⟩ (-1) =
      (⟨[], [], [], [], 2, 4, false⟩, 0, []) ∧
    getRegionAssignmentList id ⟨[], [], [], [], 2, 4, false⟩ 0 =
      (⟨[], [], [], [], 2, 4, false⟩, 0, []) := by
  have h := C9_query_guards ⟨[], [], [], [], 2, 4, false⟩ id (fun _ => rfl)
  exact ⟨h.1 1 (Or.inl rfl), h.2.1 0 1 (Or.inl rfl),
    h.2.2.1 (-1) (Or.inl (by decide)), h.2.2.2 rfl rfl 0⟩

/-! ## `PackData` / `UnpackData` (C10) -/

/-- The C cast `(int)` of a double holding an integer value gives that
integer back. -/
theorem qtrunc_intCast (n : Int) : qtrunc (n : Rat) = n := by
  rw [qtrunc]
  by_cases h : (n : Rat) < 0
  · rw [if_pos h, ← Int.cast_neg,
      show Rat.floor (((-n : Int) : ℚ)) = Int.floor (((-n : Int) : ℚ)) from rfl,
      Int.floor_intCast]
    omega
  · rw [if_neg h,
      show Rat.floor ((n : ℚ)) = Int.floor ((n : ℚ)) from rfl,
      Int.floor_intCast]

/-- C10: for every node with both children, `UnpackData` applied to the
27 doubles written by `PackData` restores the node exactly: the split
dimension, both children's `num_points` (integers cast to double and
truncated back), and both children's region and data bounds. -/
theorem C10_pack_unpack_roundtrip (kd : KdN) (l r : KdN)
    (h : kd.children = some (l, r)) :
    unpackData kd ((packData kd).getD []) = kd := by
  rcases kd with ⟨info, ch⟩
  rw [KdN.children] at h
  subst h
  rcases l with ⟨⟨ld, ln, ⟨ax, ay, az⟩, ⟨bx, bY, bz⟩, ⟨cx, cy, cz⟩,
    ⟨dx, dY, dz⟩⟩, lc⟩
  rcases r with ⟨⟨rd, rn, ⟨ex, ey, ez⟩, ⟨fx, fy, fz⟩, ⟨gx, gy, gz⟩,
    ⟨hx, hy, hz⟩⟩, rc⟩
  rcases info with ⟨d, np, mb, xb, md, xd⟩
  simp only [unpackData, packData, KdN.children, KdN.info, Option.getD_some]
  norm_num [qtrunc_intCast]

theorem C10_pack_unpack_roundtrip_witness :
    unpackData (KdN.mk ⟨2, 7, ⟨0, 0, 0⟩, ⟨4, 4, 4⟩, ⟨0, 0, 0⟩, ⟨4, 4, 4⟩⟩
        (some (KdN.mk ⟨0, 3, ⟨0, 0, 0⟩, ⟨1, 2, 3⟩, ⟨0, 0, 0⟩, ⟨1, 2, 3⟩⟩ none,
          KdN.mk ⟨1, 4, ⟨1, 2, 3⟩, ⟨4, 4, 4⟩, ⟨1, 2, 3⟩, ⟨4, 4, 4⟩⟩ none)))
      ((packData (KdN.mk ⟨2, 7, ⟨0, 0, 0⟩, ⟨4, 4, 4⟩, ⟨0, 0, 0⟩, ⟨4, 4, 4⟩⟩
        (some (KdN.mk ⟨0, 3, ⟨0, 0, 0⟩, ⟨1, 2, 3⟩, ⟨0, 0, 0⟩, ⟨1, 2, 3⟩⟩ none,
          KdN.mk ⟨1, 4, ⟨1, 2, 3⟩, ⟨4, 4, 4⟩, ⟨1, 2, 3⟩, ⟨4, 4, 4⟩⟩
            none)))).getD []) =
    KdN.mk ⟨2, 7, ⟨0, 0, 0⟩, ⟨4, 4, 4⟩, ⟨0, 0, 0⟩, ⟨4, 4, 4⟩⟩
      (some (KdN.mk ⟨0, 3, ⟨0, 0, 0⟩, ⟨1, 2, 3⟩, ⟨0, 0, 0⟩, ⟨1, 2, 3⟩⟩ none,
        KdN.mk ⟨1, 4, ⟨1, 2, 3⟩, ⟨4, 4, 4⟩, ⟨1, 2, 3⟩, ⟨4, 4, 4⟩⟩ none)) :=
  C10_pack_unpack_roundtrip _ _ _ rfl

end PKd
